import Mathlib

/-!
# 9cc: an arithmetic-expression compiler

A shallow embedding of `src/9cc.c` (tokenizer, recursive-descent parser, code
generator) together with the abstract stack machine of the specification, the
same machine with 64-bit registers, and the properties proved about them.

Conventions of the embedding:

* a `char *` into the NUL-terminated `user_input` is the list of characters from
  that position up to (not including) the terminating NUL, so a pointer
  difference `loc - user_input` is a difference of lengths;
* the forward-linked token list with its global cursor `token` is a
  `List Token`, the cursor being the remaining list;
* `error_at`, which prints a diagnostic and exits, is the outcome
  `Result.error_at loc fmt`; the text it prints is `error_at`;
* recursion that C leaves unbounded takes a fuel argument.
-/

namespace NineCC

/-! ## AST (lines 124-156) -/

/-- The kinds `new_node` is called with (lines 177-215); `ND_NUM` is the
constructor `Node.num`, built by `new_node_num`. -/
inductive NodeKind
  | ND_ADD
  | ND_SUB
  | ND_MUL
  | ND_DIV
  | ND_EQ
  deriving DecidableEq, Repr

/-- The tree built by `new_node` and `new_node_num`. -/
inductive Node
  | num (val : Int)
  | bin (kind : NodeKind) (lhs rhs : Node)
  deriving DecidableEq, Repr

/-! ## Outcomes -/

/-- How a run of the tokenizer or of the parser ends: with a value, in
`error_at` (lines 28-40, the diagnostic for `loc` and `exit(1)`), by
dereferencing a null token cursor, or by exhausting the fuel of the model. -/
inductive Result (α : Type)
  | ok (a : α)
  | error_at (loc : List Char) (fmt : String)
  | null
  | fuel
  deriving DecidableEq, Repr

/-- Sequencing: the first outcome that is not a value ends the run. -/
def Result.bind {α β : Type} (r : Result α) (f : α → Result β) : Result β :=
  match r with
  | .ok a => f a
  | .error_at loc fmt => .error_at loc fmt
  | .null => .null
  | .fuel => .fuel

/-- `pos = loc - user_input` (line 32): the offset `error_at` reports. -/
def error_pos (user_input loc : List Char) : Nat :=
  user_input.length - loc.length

/-! ## Tokenizer (lines 8-22, 75-122) -/

inductive TokenKind
  | TK_RESERVED
  | TK_NUM
  | TK_EOF
  deriving DecidableEq, Repr

/-- `struct Token` without its `next` link: `str` points into `user_input`. -/
structure Token where
  kind : TokenKind
  val : Int
  str : List Char
  len : Nat
  deriving DecidableEq, Repr

/-- `isspace` in the C locale: space, `\t`, `\n`, `\v`, `\f`, `\r`. -/
def isspace (c : Char) : Bool :=
  c.toNat = 32 || (9 ≤ c.toNat && c.toNat ≤ 13)

/-- `isdigit`: `0` to `9`. -/
def isdigit (c : Char) : Bool :=
  48 ≤ c.toNat && c.toNat ≤ 57

/-- `startswith` (line 85): `memcmp(p, q, strlen(q)) == 0`. -/
def startswith (p q : List Char) : Bool :=
  p.take q.length == q

/-- The number a run of decimal digits denotes. -/
def decimal (digits : List Char) : Nat :=
  digits.foldl (fun acc c => 10 * acc + (c.toNat - 48)) 0

/-- `LONG_MAX` of the LP64 target. -/
def LONG_MAX : Int := 2 ^ 63 - 1

/-- `strtol(p, &p, 10)` at a `p` that starts with a digit (the only call, line
113): the value of the maximal run of digits, clamped to `LONG_MAX`, and the
position after the run. -/
def strtol (p : List Char) : Int × List Char :=
  (min (decimal (p.takeWhile isdigit) : Int) LONG_MAX, p.dropWhile isdigit)

/-- The conversion of a `long` to the 32-bit `int` field `val` (line 113):
reduction modulo `2 ^ 32` into the signed range. -/
def to_int (x : Int) : Int :=
  (x + 2 ^ 31) % 2 ^ 32 - 2 ^ 31

/-- `new_token` (lines 75-83) followed by the link: the new token in front of
the tokens scanned after it. -/
def new_token (kind : TokenKind) (val : Int) (str : List Char) (len : Nat)
    (rest : Result (List Token)) : Result (List Token) :=
  rest.bind fun toks => .ok (⟨kind, val, str, len⟩ :: toks)

/-- The `while (*p)` loop of `tokenize` (lines 93-120) from position `p`, each
iteration taking one unit of fuel. -/
def tokenize_loop : Nat → List Char → Result (List Token)
  | _, [] => .ok [⟨.TK_EOF, 0, [], 0⟩]
  | 0, _ :: _ => .fuel
  | n + 1, c :: cs =>
    if isspace c then tokenize_loop n cs
    else if startswith (c :: cs) ['=', '='] then
      new_token .TK_RESERVED 0 (c :: cs) 2 (tokenize_loop n (cs.drop 1))
    else if c ∈ ['+', '-', '*', '/', '(', ')'] then
      new_token .TK_RESERVED 0 (c :: cs) 1 (tokenize_loop n cs)
    else if isdigit c then
      new_token .TK_NUM (to_int (strtol (c :: cs)).1) (c :: cs) 0
        (tokenize_loop n (strtol (c :: cs)).2)
    else .error_at (c :: cs) "expected a number"

/-- `tokenize` (lines 87-122); every iteration advances `p`, so the length of
the input is fuel enough. -/
def tokenize (user_input : List Char) : Result (List Token) :=
  tokenize_loop user_input.length user_input

/-! ## Parser (lines 50-73, 158-228) -/

/-- The test shared by `consume` and `expect` (lines 51-52, 59-60): the token
is not the reserved symbol `op`. -/
def Token.isnt (tok : Token) (op : List Char) : Bool :=
  tok.kind != .TK_RESERVED || op.length != tok.len ||
    op.take tok.len != tok.str.take tok.len

/-- `consume` (lines 50-56): whether the cursor was at `op`, and the cursor
afterwards. -/
def consume (op : List Char) : List Token → Result (Bool × List Token)
  | [] => .null
  | tok :: next => if tok.isnt op then .ok (false, tok :: next) else .ok (true, next)

/-- `expect` (lines 58-63). -/
def expect (op : List Char) : List Token → Result (List Token)
  | [] => .null
  | tok :: next => if tok.isnt op then .error_at tok.str "expected '%c'" else .ok next

/-- `expect_number` (lines 65-71). -/
def expect_number : List Token → Result (Int × List Token)
  | [] => .null
  | tok :: next =>
    if tok.kind != .TK_NUM then .error_at tok.str "expected a number" else .ok (tok.val, next)

/-- `at_eof` (line 73). -/
def at_eof : List Token → Result Bool
  | [] => .null
  | tok :: _ => .ok (tok.kind == .TK_EOF)

mutual
/-- `expr` (lines 166-170). -/
def expr : Nat → List Token → Result (Node × List Token)
  | 0, _ => .fuel
  | n + 1, token => equality n token
/-- `equality` (lines 172-181). -/
def equality : Nat → List Token → Result (Node × List Token)
  | 0, _ => .fuel
  | n + 1, token => (add n token).bind fun r => equality_loop n r.1 r.2
/-- The `for (;;)` of `equality` (lines 175-180). -/
def equality_loop : Nat → Node → List Token → Result (Node × List Token)
  | 0, _, _ => .fuel
  | n + 1, node, token =>
    (consume ['=', '='] token).bind fun c =>
      if c.1 then (add n c.2).bind fun r => equality_loop n (.bin .ND_EQ node r.1) r.2
      else .ok (node, c.2)
/-- `add` (lines 183-194). -/
def add : Nat → List Token → Result (Node × List Token)
  | 0, _ => .fuel
  | n + 1, token => (mul n token).bind fun r => add_loop n r.1 r.2
/-- The `for (;;)` of `add` (lines 186-193). -/
def add_loop : Nat → Node → List Token → Result (Node × List Token)
  | 0, _, _ => .fuel
  | n + 1, node, token =>
    (consume ['+'] token).bind fun c =>
      if c.1 then (mul n c.2).bind fun r => add_loop n (.bin .ND_ADD node r.1) r.2
      else (consume ['-'] c.2).bind fun c =>
        if c.1 then (mul n c.2).bind fun r => add_loop n (.bin .ND_SUB node r.1) r.2
        else .ok (node, c.2)
/-- `mul` (lines 197-208). -/
def mul : Nat → List Token → Result (Node × List Token)
  | 0, _ => .fuel
  | n + 1, token => (unary n token).bind fun r => mul_loop n r.1 r.2
/-- The `for (;;)` of `mul` (lines 200-207). -/
def mul_loop : Nat → Node → List Token → Result (Node × List Token)
  | 0, _, _ => .fuel
  | n + 1, node, token =>
    (consume ['*'] token).bind fun c =>
      if c.1 then (unary n c.2).bind fun r => mul_loop n (.bin .ND_MUL node r.1) r.2
      else (consume ['/'] c.2).bind fun c =>
        if c.1 then (unary n c.2).bind fun r => mul_loop n (.bin .ND_DIV node r.1) r.2
        else .ok (node, c.2)
/-- `unary` (lines 211-217). -/
def unary : Nat → List Token → Result (Node × List Token)
  | 0, _ => .fuel
  | n + 1, token =>
    (consume ['+'] token).bind fun c =>
      if c.1 then primary n c.2
      else (consume ['-'] c.2).bind fun c =>
        if c.1 then (primary n c.2).bind fun r => .ok (.bin .ND_SUB (.num 0) r.1, r.2)
        else primary n c.2
/-- `primary` (lines 220-228). -/
def primary : Nat → List Token → Result (Node × List Token)
  | 0, _ => .fuel
  | n + 1, token =>
    (consume ['('] token).bind fun c =>
      if c.1 then
        (expr n c.2).bind fun r => (expect [')'] r.2).bind fun token => .ok (r.1, token)
      else (expect_number c.2).bind fun r => .ok (.num r.1, r.2)
end

/-! ## Code generator (lines 230-264) -/

/-- The lines `gen` and `main` print, one constructor per `printf` format. -/
inductive Instr
  | push (val : Int)
  | pop_rdi
  | pop_rax
  | cmp_rax_rdi
  | sete_al
  | movzb_rax_al
  | add_rax_rdi
  | sub_rax_rdi
  | imul_rax_rdi
  | cqo
  | idiv_rax_rdi
  | push_rax
  | ret
  deriving DecidableEq, Repr

/-- The text of an instruction line, as printed (tab, mnemonic, newline). -/
def Instr.text : Instr → String
  | .push val => "\tpush " ++ toString val ++ "\n"
  | .pop_rdi => "\tpop rdi\n"
  | .pop_rax => "\tpop rax\n"
  | .cmp_rax_rdi => "\tcmp rax, rdi\n"
  | .sete_al => "\tsete al\n"
  | .movzb_rax_al => "\tmovzb rax, al\n"
  | .add_rax_rdi => "\tadd rax, rdi\n"
  | .sub_rax_rdi => "\tsub rax, rdi\n"
  | .imul_rax_rdi => "\timul rax, rdi\n"
  | .cqo => "\tcqo\n"
  | .idiv_rax_rdi => "\tidiv rax, rdi\n"
  | .push_rax => "\tpush rax\n"
  | .ret => "\tret\n"

/-- The `switch (node->kind)` of `gen` (lines 242-261). -/
def gen_switch : NodeKind → List Instr
  | .ND_EQ => [.cmp_rax_rdi, .sete_al, .movzb_rax_al]
  | .ND_ADD => [.add_rax_rdi]
  | .ND_SUB => [.sub_rax_rdi]
  | .ND_MUL => [.imul_rax_rdi]
  | .ND_DIV => [.cqo, .idiv_rax_rdi]

/-- `gen` (lines 230-264): the instructions printed for a node, in order. -/
def gen : Node → List Instr
  | .num val => [.push val]
  | .bin kind lhs rhs =>
    gen lhs ++ gen rhs ++ [.pop_rdi, .pop_rax] ++ gen_switch kind ++ [.push_rax]

/-! ## The abstract stack machine of the specification (section 4.3) -/

/-- The state of the machine that section 4.3 of the specification lets the
emitted instructions run on: an operand stack, a register A (`rax`) and a
register B (`rdi`) over the integers; `dividend` is the double-width dividend
that `cqo` fills from A, and `zf` the outcome of the last comparison. -/
structure Machine where
  stack : List Int
  rax : Int
  rdi : Int
  dividend : Int
  zf : Bool
  deriving DecidableEq, Repr

/-- One instruction on the machine of section 4.3. A pop from the empty stack
and a division by zero have no successor state. `sete al` writes the
comparison outcome into the low byte of A and `movzb rax, al` zero-extends
that byte into A. -/
def Machine.step (m : Machine) : Instr → Option Machine
  | .push val => some { m with stack := val :: m.stack }
  | .pop_rdi =>
    match m.stack with
    | [] => none
    | v :: rest => some { m with stack := rest, rdi := v }
  | .pop_rax =>
    match m.stack with
    | [] => none
    | v :: rest => some { m with stack := rest, rax := v }
  | .cmp_rax_rdi => some { m with zf := decide (m.rax = m.rdi) }
  | .sete_al => some { m with rax := m.rax - m.rax % 256 + (if m.zf then 1 else 0) }
  | .movzb_rax_al => some { m with rax := m.rax % 256 }
  | .add_rax_rdi => some { m with rax := m.rax + m.rdi }
  | .sub_rax_rdi => some { m with rax := m.rax - m.rdi }
  | .imul_rax_rdi => some { m with rax := m.rax * m.rdi }
  | .cqo => some { m with dividend := m.rax }
  | .idiv_rax_rdi => if m.rdi = 0 then none else some { m with rax := Int.tdiv m.dividend m.rdi }
  | .push_rax => some { m with stack := m.rax :: m.stack }
  | .ret => some m

/-- Runs an instruction sequence from a machine state. -/
def Machine.run (m : Machine) : List Instr → Option Machine
  | [] => some m
  | i :: is =>
    match m.step i with
    | none => none
    | some m' => m'.run is

/-- The value of an expression tree: integer `+`, `-`, `*`, division
truncating toward zero, and `==` as 1 or 0. -/
def eval : Node → Int
  | .num val => val
  | .bin .ND_ADD lhs rhs => eval lhs + eval rhs
  | .bin .ND_SUB lhs rhs => eval lhs - eval rhs
  | .bin .ND_MUL lhs rhs => eval lhs * eval rhs
  | .bin .ND_DIV lhs rhs => Int.tdiv (eval lhs) (eval rhs)
  | .bin .ND_EQ lhs rhs => if eval lhs = eval rhs then 1 else 0

/-- No `ND_DIV` node of the tree has a right operand whose value is zero. -/
def noDivZero : Node → Bool
  | .num _ => true
  | .bin kind lhs rhs =>
    noDivZero lhs && noDivZero rhs && !(kind == .ND_DIV && eval rhs == 0)

/-- The change of the stack depth an instruction makes: `push` +1, `pop` -1,
anything else 0. -/
def Instr.depthDelta : Instr → Int
  | .push _ => 1
  | .push_rax => 1
  | .pop_rdi => -1
  | .pop_rax => -1
  | _ => 0

/-- The stack depth after simulating an instruction sequence from depth `d`. -/
def depthAfter (d : Int) : List Instr → Int
  | [] => d
  | i :: is => depthAfter (d + i.depthDelta) is

/-! ## Running the parser to completion -/

/-- `r'` is `r` whenever `r` did not run out of fuel. -/
def Result.le {α : Type} (r r' : Result α) : Prop := r ≠ .fuel → r' = r

/-- Every value a run can end with satisfies `P`. -/
def Result.All {α : Type} (P : α → Prop) (r : Result α) : Prop := ∀ a, r = .ok a → P a

/-- `expr` with fuel enough for the token list (`parse_enough`); likewise the
functions below. -/
def expr_run (token : List Token) := expr (9 * token.length + 9) token
def equality_run (token : List Token) := equality (9 * token.length + 9) token
def equality_loop_run (node : Node) (token : List Token) :=
  equality_loop (9 * token.length + 9) node token
def add_run (token : List Token) := add (9 * token.length + 9) token
def add_loop_run (node : Node) (token : List Token) :=
  add_loop (9 * token.length + 9) node token
def mul_run (token : List Token) := mul (9 * token.length + 9) token
def mul_loop_run (node : Node) (token : List Token) :=
  mul_loop (9 * token.length + 9) node token
def unary_run (token : List Token) := unary (9 * token.length + 9) token
def primary_run (token : List Token) := primary (9 * token.length + 9) token

/-! ## The grammar of the specification (section 4.2) -/

/-- The rules of the grammar of section 4.2 of the specification. -/
inductive Rule
  | expression
  | equality
  | additive
  | multiplicative
  | unary
  | primary
  deriving DecidableEq, Repr

/-- The grammar of section 4.2 of the specification over tokens, each phrase
with the tree that precedence and left associativity give it. A token is the
symbol `op` when the test of `consume` finds it to be (`isnt op = false`). -/
inductive TokenPhrase : Rule → List Token → Node → Prop
  | num (tok : Token) : tok.kind = .TK_NUM → TokenPhrase .primary [tok] (.num tok.val)
  | paren (l r : Token) (ts : List Token) (t : Node) :
    l.isnt ['('] = false → r.isnt [')'] = false → TokenPhrase .expression ts t →
    TokenPhrase .primary (l :: ts ++ [r]) t
  | plus (o : Token) (ts : List Token) (t : Node) :
    o.isnt ['+'] = false → TokenPhrase .primary ts t → TokenPhrase .unary (o :: ts) t
  | minus (o : Token) (ts : List Token) (t : Node) :
    o.isnt ['-'] = false → TokenPhrase .primary ts t →
    TokenPhrase .unary (o :: ts) (.bin .ND_SUB (.num 0) t)
  | unary (ts : List Token) (t : Node) : TokenPhrase .primary ts t → TokenPhrase .unary ts t
  | multiplicative (ts : List Token) (t : Node) :
    TokenPhrase .unary ts t → TokenPhrase .multiplicative ts t
  | times (o : Token) (ts₁ ts₂ : List Token) (t₁ t₂ : Node) :
    TokenPhrase .multiplicative ts₁ t₁ → o.isnt ['*'] = false → TokenPhrase .unary ts₂ t₂ →
    TokenPhrase .multiplicative (ts₁ ++ o :: ts₂) (.bin .ND_MUL t₁ t₂)
  | over (o : Token) (ts₁ ts₂ : List Token) (t₁ t₂ : Node) :
    TokenPhrase .multiplicative ts₁ t₁ → o.isnt ['/'] = false → TokenPhrase .unary ts₂ t₂ →
    TokenPhrase .multiplicative (ts₁ ++ o :: ts₂) (.bin .ND_DIV t₁ t₂)
  | additive (ts : List Token) (t : Node) :
    TokenPhrase .multiplicative ts t → TokenPhrase .additive ts t
  | sum (o : Token) (ts₁ ts₂ : List Token) (t₁ t₂ : Node) :
    TokenPhrase .additive ts₁ t₁ → o.isnt ['+'] = false → TokenPhrase .multiplicative ts₂ t₂ →
    TokenPhrase .additive (ts₁ ++ o :: ts₂) (.bin .ND_ADD t₁ t₂)
  | difference (o : Token) (ts₁ ts₂ : List Token) (t₁ t₂ : Node) :
    TokenPhrase .additive ts₁ t₁ → o.isnt ['-'] = false → TokenPhrase .multiplicative ts₂ t₂ →
    TokenPhrase .additive (ts₁ ++ o :: ts₂) (.bin .ND_SUB t₁ t₂)
  | equality (ts : List Token) (t : Node) :
    TokenPhrase .additive ts t → TokenPhrase .equality ts t
  | equal (o : Token) (ts₁ ts₂ : List Token) (t₁ t₂ : Node) :
    TokenPhrase .equality ts₁ t₁ → o.isnt ['=', '='] = false → TokenPhrase .additive ts₂ t₂ →
    TokenPhrase .equality (ts₁ ++ o :: ts₂) (.bin .ND_EQ t₁ t₂)
  | expression (ts : List Token) (t : Node) :
    TokenPhrase .equality ts t → TokenPhrase .expression ts t

/-- What the parsing function of a rule does on a phrase of the rule followed
by further tokens. -/
def Parsed : Rule → List Token → Node → Prop
  | .primary, ts, t => ∀ rest, primary_run (ts ++ rest) = .ok (t, rest)
  | .unary, ts, t => ∀ rest, unary_run (ts ++ rest) = .ok (t, rest)
  | .multiplicative, ts, t => ∀ rest, mul_run (ts ++ rest) = mul_loop_run t rest
  | .additive, ts, t => ∀ tok tl, tok.isnt ['*'] = true → tok.isnt ['/'] = true →
    add_run (ts ++ tok :: tl) = add_loop_run t (tok :: tl)
  | .equality, ts, t => ∀ tok tl, tok.isnt ['*'] = true → tok.isnt ['/'] = true →
    tok.isnt ['+'] = true → tok.isnt ['-'] = true →
    equality_run (ts ++ tok :: tl) = equality_loop_run t (tok :: tl)
  | .expression, ts, t => ∀ tok tl, tok.isnt ['*'] = true → tok.isnt ['/'] = true →
    tok.isnt ['+'] = true → tok.isnt ['-'] = true → tok.isnt ['=', '='] = true →
    expr_run (ts ++ tok :: tl) = .ok (t, tok :: tl)

/-- Applies `f` to the value of every literal of a tree. -/
def Node.map (f : Int → Int) : Node → Node
  | .num val => .num (f val)
  | .bin kind lhs rhs => .bin kind (lhs.map f) (rhs.map f)

/-- The `val` the tokenizer stores for a literal that denotes `v` (line 113):
`strtol` clamps to `LONG_MAX` and the assignment converts to `int`. -/
def stored (v : Int) : Int := to_int (min v LONG_MAX)

/-- Every literal of the tree is in the range `0 .. 2 ^ 31 - 1` of `int`. -/
def fits : Node → Bool
  | .num val => decide (0 ≤ val ∧ val < 2 ^ 31)
  | .bin _ lhs rhs => fits lhs && fits rhs

/-- The grammar of section 4.2 of the specification over the characters of the
input (no whitespace), each phrase with the tree that precedence and left
associativity give it. A literal is a non-empty run of digits and carries the
number the run denotes; unary minus is zero minus its operand. -/
inductive Phrase : Rule → List Char → Node → Prop
  | num (ds : List Char) : ds ≠ [] → (∀ c ∈ ds, isdigit c = true) →
    Phrase .primary ds (.num (decimal ds))
  | paren (s : List Char) (t : Node) :
    Phrase .expression s t → Phrase .primary ('(' :: s ++ [')']) t
  | plus (s : List Char) (t : Node) : Phrase .primary s t → Phrase .unary ('+' :: s) t
  | minus (s : List Char) (t : Node) :
    Phrase .primary s t → Phrase .unary ('-' :: s) (.bin .ND_SUB (.num 0) t)
  | unary (s : List Char) (t : Node) : Phrase .primary s t → Phrase .unary s t
  | multiplicative (s : List Char) (t : Node) :
    Phrase .unary s t → Phrase .multiplicative s t
  | times (s₁ s₂ : List Char) (t₁ t₂ : Node) :
    Phrase .multiplicative s₁ t₁ → Phrase .unary s₂ t₂ →
    Phrase .multiplicative (s₁ ++ '*' :: s₂) (.bin .ND_MUL t₁ t₂)
  | over (s₁ s₂ : List Char) (t₁ t₂ : Node) :
    Phrase .multiplicative s₁ t₁ → Phrase .unary s₂ t₂ →
    Phrase .multiplicative (s₁ ++ '/' :: s₂) (.bin .ND_DIV t₁ t₂)
  | additive (s : List Char) (t : Node) :
    Phrase .multiplicative s t → Phrase .additive s t
  | sum (s₁ s₂ : List Char) (t₁ t₂ : Node) :
    Phrase .additive s₁ t₁ → Phrase .multiplicative s₂ t₂ →
    Phrase .additive (s₁ ++ '+' :: s₂) (.bin .ND_ADD t₁ t₂)
  | difference (s₁ s₂ : List Char) (t₁ t₂ : Node) :
    Phrase .additive s₁ t₁ → Phrase .multiplicative s₂ t₂ →
    Phrase .additive (s₁ ++ '-' :: s₂) (.bin .ND_SUB t₁ t₂)
  | equality (s : List Char) (t : Node) :
    Phrase .additive s t → Phrase .equality s t
  | equal (s₁ s₂ : List Char) (t₁ t₂ : Node) :
    Phrase .equality s₁ t₁ → Phrase .additive s₂ t₂ →
    Phrase .equality (s₁ ++ '=' :: '=' :: s₂) (.bin .ND_EQ t₁ t₂)
  | expression (s : List Char) (t : Node) :
    Phrase .equality s t → Phrase .expression s t

/-- The end-of-input token (line 120). -/
def eof : Token := ⟨.TK_EOF, 0, [], 0⟩

/-! ## Driver (lines 266-286) -/

/-- The instructions `main` prints after the label (lines 281-284), for the
input `user_input = argv[1]`: nothing is printed unless `tokenize` and `expr`
both return. -/
def main_body (user_input : List Char) : Result (List Instr) :=
  (tokenize user_input).bind fun token =>
    (expr_run token).bind fun r => .ok (gen r.1 ++ [.pop_rax, .ret])

/-- The lines `main` prints (lines 277-284). -/
def main (user_input : List Char) : Result (List String) :=
  (main_body user_input).bind fun code =>
    .ok ([".intel_syntax noprefix\n", ".global main\n", "main:\n"] ++ code.map Instr.text)

/-! ## Inputs the properties are stated for -/

/-- A literal of the grammar: a non-empty run of decimal digits. -/
def is_literal (ds : List Char) : Bool :=
  !ds.isEmpty && ds.all isdigit

/-- The text of the operator for which the parser builds a node of the kind
(lines 176-204). -/
def NodeKind.symbol : NodeKind → List Char
  | .ND_ADD => ['+']
  | .ND_SUB => ['-']
  | .ND_MUL => ['*']
  | .ND_DIV => ['/']
  | .ND_EQ => ['=', '=']

/-- The input `x0 o1 x1 ... on xn`, the pair `(oi, xi)` being the `i`-th item. -/
def chain_text (x0 : List Char) : List (NodeKind × List Char) → List Char
  | [] => x0
  | (o, x) :: items => chain_text (x0 ++ o.symbol ++ x) items

/-- The left fold `on(... o2(o1(x0, x1), x2) ..., xn)` from the tree built so
far, `val` giving the value of a literal. -/
def chain_tree (val : List Char → Int) (node : Node) : List (NodeKind × List Char) → Node
  | [] => node
  | (o, x) :: items => chain_tree val (.bin o node (.num (val x))) items

/-- All operators of the items are of one precedence level. -/
def one_level (items : List (NodeKind × List Char)) : Prop :=
  (∀ i ∈ items, i.1 = .ND_ADD ∨ i.1 = .ND_SUB) ∨
  (∀ i ∈ items, i.1 = .ND_MUL ∨ i.1 = .ND_DIV) ∨
  (∀ i ∈ items, i.1 = .ND_EQ)

/-- Whitespace, a decimal digit, or one of `+ - * / ( )`. -/
def is_plain (c : Char) : Bool :=
  isspace c || isdigit c || decide (c ∈ ['+', '-', '*', '/', '(', ')'])

/-! ## Whitespace -/

/-- What the parser can see of a token (lines 51-52, 59-60, 66-68, 73): its
kind, its value, its length and the `len` characters at `str`; not the
position `str` itself. -/
def Token.view (tok : Token) : TokenKind × Int × Nat × List Char :=
  (tok.kind, tok.val, tok.len, tok.str.take tok.len)

/-- `Spaced s s'`: the input `s'` is the input `s` with whitespace characters
inserted before the first token, after the last token or between two adjacent
tokens. The relation follows `s` one lexical unit at a time (a whitespace
character, `==`, one of `+ - * / ( )`, or a maximal run of digits); between two
units, and only there, `insert` adds a whitespace character to `s'`. -/
inductive Spaced : List Char → List Char → Prop
  | nil : Spaced [] []
  | insert (w : Char) (s s' : List Char) : isspace w = true → Spaced s s' → Spaced s (w :: s')
  | space (c : Char) (s s' : List Char) :
    isspace c = true → Spaced s s' → Spaced (c :: s) (c :: s')
  | eq_eq (s s' : List Char) : Spaced s s' → Spaced ('=' :: '=' :: s) ('=' :: '=' :: s')
  | punct (c : Char) (s s' : List Char) :
    c ∈ ['+', '-', '*', '/', '(', ')'] → Spaced s s' → Spaced (c :: s) (c :: s')
  | digits (ds s s' : List Char) : is_literal ds = true →
    (∀ c, s.head? = some c → isdigit c = false) → Spaced s s' → Spaced (ds ++ s) (ds ++ s')

/-- Two outcomes are of the same kind, with values related by `R` and with the
same message. -/
def Result.Rel {α β : Type} (R : α → β → Prop) : Result α → Result β → Prop
  | .ok a, .ok b => R a b
  | .error_at _ fmt, .error_at _ fmt' => fmt = fmt'
  | .null, .null => True
  | .fuel, .fuel => True
  | _, _ => False

/-- Two token lists look the same to the parser. -/
def same_view (tk tk' : List Token) : Prop := tk.map Token.view = tk'.map Token.view

/-- The same tree, and cursors that look the same to the parser. -/
def same_parse (r r' : Node × List Token) : Prop := r.1 = r'.1 ∧ same_view r.2 r'.2

/-! ## Diagnostics (lines 28-40) -/

/-- `fprintf(stderr, "%*s", width, s)` (line 34): `s` right-justified in a
field of at least `width` characters. -/
def printf_pad (width : Nat) (s : List Char) : List Char :=
  List.replicate (width - s.length) ' ' ++ s

/-- What `error_at` writes to `stderr` (lines 32-37) for the location `loc`:
the input and a newline, a single space in a field of `pos` characters, the
caret and a space, the message and a newline. `msg` is the text that line 36
prints for the format. -/
def error_at (user_input loc msg : List Char) : List Char :=
  user_input ++ ['\n'] ++ printf_pad (error_pos user_input loc) [' '] ++ ['^', ' '] ++ msg ++
    ['\n']

/-! ## The scan -/

/-- `Scan user_input p`: the variable `p` of `tokenize` has the value `p` at
the head of the loop (line 93) at some iteration, the scan of `user_input`
having got there without an error. One constructor per `continue`. -/
inductive Scan (user_input : List Char) : List Char → Prop
  | start : Scan user_input user_input
  | space (c : Char) (cs : List Char) :
    Scan user_input (c :: cs) → isspace c = true → Scan user_input cs
  | eq_eq (c : Char) (cs : List Char) :
    Scan user_input (c :: cs) → isspace c = false →
    startswith (c :: cs) ['=', '='] = true → Scan user_input (cs.drop 1)
  | punct (c : Char) (cs : List Char) :
    Scan user_input (c :: cs) → isspace c = false →
    startswith (c :: cs) ['=', '='] = false → c ∈ ['+', '-', '*', '/', '(', ')'] →
    Scan user_input cs
  | digit (c : Char) (cs : List Char) :
    Scan user_input (c :: cs) → isspace c = false →
    startswith (c :: cs) ['=', '='] = false → c ∉ ['+', '-', '*', '/', '(', ')'] →
    isdigit c = true → Scan user_input (strtol (c :: cs)).2

/-- The tokens `tokenize` makes: `==` with length 2, one of `+ - * / ( )` with
length 1, a literal with the stored value of its digits (and length 0), or the
end-of-input token. -/
def Token.lexed (tok : Token) : Prop :=
  (tok.kind = .TK_RESERVED ∧ tok.len = 2 ∧ tok.val = 0 ∧ tok.str.take 2 = ['=', '=']) ∨
  (tok.kind = .TK_RESERVED ∧ tok.len = 1 ∧ tok.val = 0 ∧
    ∃ c ∈ ['+', '-', '*', '/', '(', ')'], tok.str.head? = some c) ∨
  (tok.kind = .TK_NUM ∧ tok.len = 0 ∧
    tok.val = stored (decimal (tok.str.takeWhile isdigit)) ∧
    ∃ c, tok.str.head? = some c ∧ isdigit c = true) ∨
  (tok.kind = .TK_EOF ∧ tok.len = 0 ∧ tok.val = 0 ∧ tok.str = [])

/-! ## The token cursor -/

/-- A token sequence as `tokenize` returns it: reserved symbols and literals,
ended by exactly one end-of-input token. -/
def ends_with_eof (tk : List Token) : Prop :=
  ∃ body e, tk = body ++ [e] ∧ e.kind = .TK_EOF ∧ ∀ x ∈ body, x.kind ≠ .TK_EOF

/-- A run that dereferences no null cursor and whose value, if it returns one,
satisfies `P`. -/
def Result.Safe {α : Type} (P : α → Prop) (r : Result α) : Prop :=
  r ≠ .null ∧ r.All P

/-- The cursor `rest` is a non-empty rest of the token sequence `tk` that still
ends with the end-of-input token. -/
def cursor_ok (tk rest : List Token) : Prop :=
  rest <:+ tk ∧ rest ≠ [] ∧ ends_with_eof rest

/-! ## Printing a tree -/

/-- The decimal digits of `n`, most significant first, for `n < 10 ^ fuel`. -/
def digits_of : Nat → Nat → List Char
  | 0, _ => []
  | fuel + 1, n =>
    if n < 10 then [Char.ofNat (48 + n)]
    else digits_of fuel (n / 10) ++ [Char.ofNat (48 + n % 10)]

/-- The text of a tree: a literal is written as its decimal digits, a binary
node as `(`, the text of the left operand, the operator, the text of the right
operand and `)`. -/
def Node.print : Node → List Char
  | .num val => digits_of (val.toNat + 1) val.toNat
  | .bin kind lhs rhs => '(' :: (lhs.print ++ kind.symbol ++ rhs.print) ++ [')']

/-! ## The 64-bit target -/

/-- The value a 64-bit register holds after an arithmetic result `x`: `x`
reduced modulo `2 ^ 64` into the signed range. -/
def wrap64 (x : Int) : Int :=
  (x + 2 ^ 63) % 2 ^ 64 - 2 ^ 63

/-- The integer is a value of a signed 64-bit register. -/
def in_int64 (x : Int) : Bool :=
  decide (-(2 ^ 63) ≤ x ∧ x < 2 ^ 63)

/-- One instruction on the machine of section 4.3 with the 64-bit registers of
the target the assembly is written for (`rax`, `rdi`): `add`, `sub` and `imul`
keep the low 64 bits of the result, `push` takes a sign-extended 32-bit
immediate, and `idiv` has no successor state when the divisor is zero or the
quotient is not a 64-bit value. The other instructions are as in
`Machine.step`. -/
def Machine.step64 (m : Machine) : Instr → Option Machine
  | .push val =>
    if -(2 ^ 31) ≤ val ∧ val < 2 ^ 31 then some { m with stack := val :: m.stack } else none
  | .pop_rdi =>
    match m.stack with
    | [] => none
    | v :: rest => some { m with stack := rest, rdi := v }
  | .pop_rax =>
    match m.stack with
    | [] => none
    | v :: rest => some { m with stack := rest, rax := v }
  | .cmp_rax_rdi => some { m with zf := decide (m.rax = m.rdi) }
  | .sete_al => some { m with rax := m.rax - m.rax % 256 + (if m.zf then 1 else 0) }
  | .movzb_rax_al => some { m with rax := m.rax % 256 }
  | .add_rax_rdi => some { m with rax := wrap64 (m.rax + m.rdi) }
  | .sub_rax_rdi => some { m with rax := wrap64 (m.rax - m.rdi) }
  | .imul_rax_rdi => some { m with rax := wrap64 (m.rax * m.rdi) }
  | .cqo => some { m with dividend := m.rax }
  | .idiv_rax_rdi =>
    if m.rdi = 0 ∨ in_int64 (Int.tdiv m.dividend m.rdi) = false then none
    else some { m with rax := Int.tdiv m.dividend m.rdi }
  | .push_rax => some { m with stack := m.rax :: m.stack }
  | .ret => some m

/-- Runs an instruction sequence on the 64-bit machine. -/
def Machine.run64 (m : Machine) : List Instr → Option Machine
  | [] => some m
  | i :: is =>
    match m.step64 i with
    | none => none
    | some m' => m'.run64 is

/-- The value of every subexpression of the tree, the tree included, is a
value of a signed 64-bit register: no operation overflows. -/
def no_overflow : Node → Bool
  | .num val => in_int64 val
  | .bin kind lhs rhs => no_overflow lhs && no_overflow rhs && in_int64 (eval (.bin kind lhs rhs))

/-! ## Where the parser stops -/

/-- The cursor is at a token that continues no expression: none of
`* / + - ==`. -/
def stops (rest : List Token) : Prop :=
  ∃ tok tl, rest = tok :: tl ∧ tok.isnt ['*'] = true ∧ tok.isnt ['/'] = true ∧
    tok.isnt ['+'] = true ∧ tok.isnt ['-'] = true ∧ tok.isnt ['=', '='] = true

/-! ## Theorems -/

/-! ### Code generator -/

theorem run_append (m : Machine) (xs ys : List Instr) :
    m.run (xs ++ ys) = (m.run xs).bind fun m' => m'.run ys := by
  induction xs generalizing m with
  | nil => simp [Machine.run]
  | cons i is ih =>
    simp only [List.cons_append, Machine.run]
    cases h : m.step i with
    | none => simp
    | some m' => simpa using ih m'

theorem sete_movzb (a : Int) (p : Prop) [Decidable p] :
    (a - a % 256 + (if p then 1 else 0)) % 256 = if p then 1 else 0 := by
  split <;> omega

/-- Running `gen t` pushes `eval t` and leaves the rest of the stack alone. -/
theorem run_gen (t : Node) (h : noDivZero t = true) (m : Machine) :
    ∃ m', m.run (gen t) = some m' ∧ m'.stack = eval t :: m.stack := by
  induction t generalizing m with
  | num val => exact ⟨_, rfl, rfl⟩
  | bin kind lhs rhs ihl ihr =>
    simp only [noDivZero, Bool.and_eq_true, Bool.not_eq_true', Bool.and_eq_false_imp,
      beq_iff_eq, beq_eq_false_iff_ne] at h
    obtain ⟨⟨hl, hr⟩, hz⟩ := h
    obtain ⟨m1, h1, s1⟩ := ihl hl m
    obtain ⟨m2, h2, s2⟩ := ihr hr m1
    obtain ⟨st, a, b, d, z⟩ := m2
    simp only at s2
    subst s2
    rw [s1] at h2
    simp only [gen, List.append_assoc, run_append, h1, h2, Option.some_bind]
    have hz' : kind = .ND_DIV → ¬ eval rhs = 0 := hz
    cases kind <;>
      simp [gen_switch, Machine.run, Machine.step, eval, sete_movzb, hz']

theorem depthAfter_append (d : Int) (xs ys : List Instr) :
    depthAfter d (xs ++ ys) = depthAfter (depthAfter d xs) ys := by
  induction xs generalizing d with
  | nil => rfl
  | cons i is ih => exact ih (d + i.depthDelta)

theorem depthAfter_gen (t : Node) (d : Int) : depthAfter d (gen t) = d + 1 := by
  induction t generalizing d with
  | num val => simp [gen, depthAfter, Instr.depthDelta]
  | bin kind lhs rhs ihl ihr =>
    simp only [gen, depthAfter_append, ihl, ihr]
    cases kind <;> simp [gen_switch, depthAfter, Instr.depthDelta]

theorem depthAfter_tail_take (kind : NodeKind) (d : Int) (k : Nat) :
    d ≤ depthAfter (d + 1 + 1)
      (([Instr.pop_rdi, Instr.pop_rax] ++ (gen_switch kind ++ [Instr.push_rax])).take k) := by
  cases kind <;> rcases k with _ | _ | _ | _ | _ | _ | _ | k <;>
    simp [gen_switch, depthAfter, Instr.depthDelta] <;> omega

theorem depthAfter_take_append (d : Int) (xs ys : List Instr) (k : Nat) :
    depthAfter d ((xs ++ ys).take k) =
      if k ≤ xs.length then depthAfter d (xs.take k)
      else depthAfter (depthAfter d xs) (ys.take (k - xs.length)) := by
  rw [List.take_append_eq_append_take, depthAfter_append]
  split
  · next h =>
    have e : k - xs.length = 0 := by omega
    simp [e, depthAfter]
  · next h =>
    rw [List.take_of_length_le (by omega)]

theorem depthAfter_gen_take (t : Node) (d : Int) (k : Nat) :
    d ≤ depthAfter d ((gen t).take k) := by
  induction t generalizing d k with
  | num val =>
    rcases k with _ | k <;> simp [gen, depthAfter, Instr.depthDelta]
  | bin kind lhs rhs ihl ihr =>
    simp only [gen, List.append_assoc]
    rw [depthAfter_take_append]
    split
    · exact ihl d k
    · rw [depthAfter_take_append, depthAfter_gen]
      split
      · have := ihr (d + 1) (k - (gen lhs).length)
        omega
      · rw [depthAfter_gen]
        exact depthAfter_tail_take kind d _

/-- C1: for every tree without a division by a zero-valued operand and every
initial machine state, running the instructions of `gen` on the abstract stack
machine ends with the value of the tree pushed on top of the initial stack; in
particular from the empty stack the top of the final stack is that value. -/
theorem gen_correct (t : Node) (h : noDivZero t = true) (m : Machine) :
    ∃ m', m.run (gen t) = some m' ∧ m'.stack = eval t :: m.stack ∧
      (m.stack = [] → m'.stack = [eval t]) := by
  obtain ⟨m', h1, h2⟩ := run_gen t h m
  exact ⟨m', h1, h2, fun h0 => by rw [h2, h0]⟩

theorem gen_correct_witness :
    noDivZero (.bin .ND_DIV (.bin .ND_SUB (.num 1) (.num 8)) (.num 2)) = true ∧
    ∃ m', (Machine.mk [5] 0 0 0 false).run
        (gen (.bin .ND_DIV (.bin .ND_SUB (.num 1) (.num 8)) (.num 2))) = some m' ∧
      m'.stack = eval (.bin .ND_DIV (.bin .ND_SUB (.num 1) (.num 8)) (.num 2)) :: [5] ∧
      ((Machine.mk [5] 0 0 0 false).stack = [] →
        m'.stack = [eval (.bin .ND_DIV (.bin .ND_SUB (.num 1) (.num 8)) (.num 2))]) :=
  ⟨by decide, gen_correct _ (by decide) _⟩

/-- C3: simulating the instructions of `gen t` from stack depth `d` (push +1,
pop -1, anything else 0), the depth after every initial segment of the
instructions is at least `d`, and the depth at the end is exactly `d + 1`. -/
theorem gen_stack_depth (t : Node) (d : Int) :
    (∀ k, d ≤ depthAfter d ((gen t).take k)) ∧ depthAfter d (gen t) = d + 1 :=
  ⟨depthAfter_gen_take t d, depthAfter_gen t d⟩

/-! ### Fuel -/

theorem Result.le_refl {α : Type} (r : Result α) : r.le r := fun _ => rfl

theorem Result.le_bind {α β : Type} {r r' : Result α} {f f' : α → Result β}
    (h : r.le r') (hf : ∀ a, (f a).le (f' a)) : (r.bind f).le (r'.bind f') := by
  intro hne
  cases r with
  | ok a =>
    rw [h (by simp)]
    exact hf a hne
  | error_at loc fmt => rw [h (by simp)]; rfl
  | null => rw [h (by simp)]; rfl
  | fuel => exact absurd rfl hne

theorem Result.le_ite {α : Type} {c : Prop} [Decidable c] {a a' b b' : Result α}
    (ha : a.le a') (hb : b.le b') : (if c then a else b).le (if c then a' else b') := by
  split
  · exact ha
  · exact hb

theorem fuel_succ (n : Nat) :
    (∀ tk, (expr n tk).le (expr (n + 1) tk)) ∧
    (∀ tk, (equality n tk).le (equality (n + 1) tk)) ∧
    (∀ nd tk, (equality_loop n nd tk).le (equality_loop (n + 1) nd tk)) ∧
    (∀ tk, (add n tk).le (add (n + 1) tk)) ∧
    (∀ nd tk, (add_loop n nd tk).le (add_loop (n + 1) nd tk)) ∧
    (∀ tk, (mul n tk).le (mul (n + 1) tk)) ∧
    (∀ nd tk, (mul_loop n nd tk).le (mul_loop (n + 1) nd tk)) ∧
    (∀ tk, (unary n tk).le (unary (n + 1) tk)) ∧
    (∀ tk, (primary n tk).le (primary (n + 1) tk)) := by
  induction n with
  | zero =>
    refine ⟨?_, ?_, ?_, ?_, ?_, ?_, ?_, ?_, ?_⟩ <;> intros <;> intro h <;>
      first
      | exact absurd (by simp [expr]) h
      | exact absurd (by simp [equality]) h
      | exact absurd (by simp [equality_loop]) h
      | exact absurd (by simp [add]) h
      | exact absurd (by simp [add_loop]) h
      | exact absurd (by simp [mul]) h
      | exact absurd (by simp [mul_loop]) h
      | exact absurd (by simp [unary]) h
      | exact absurd (by simp [primary]) h
  | succ n ih =>
    obtain ⟨h1, h2, h3, h4, h5, h6, h7, h8, h9⟩ := ih
    refine ⟨?_, ?_, ?_, ?_, ?_, ?_, ?_, ?_, ?_⟩
    · intro tk
      rw [expr, expr]
      exact h2 tk
    · intro tk
      rw [equality, equality]
      exact Result.le_bind (h4 tk) fun r => h3 _ _
    · intro nd tk
      rw [equality_loop, equality_loop]
      exact Result.le_bind (Result.le_refl _) fun c =>
        Result.le_ite (Result.le_bind (h4 _) fun r => h3 _ _) (Result.le_refl _)
    · intro tk
      rw [add, add]
      exact Result.le_bind (h6 tk) fun r => h5 _ _
    · intro nd tk
      rw [add_loop, add_loop]
      exact Result.le_bind (Result.le_refl _) fun c =>
        Result.le_ite (Result.le_bind (h6 _) fun r => h5 _ _)
          (Result.le_bind (Result.le_refl _) fun c =>
            Result.le_ite (Result.le_bind (h6 _) fun r => h5 _ _) (Result.le_refl _))
    · intro tk
      rw [mul, mul]
      exact Result.le_bind (h8 tk) fun r => h7 _ _
    · intro nd tk
      rw [mul_loop, mul_loop]
      exact Result.le_bind (Result.le_refl _) fun c =>
        Result.le_ite (Result.le_bind (h8 _) fun r => h7 _ _)
          (Result.le_bind (Result.le_refl _) fun c =>
            Result.le_ite (Result.le_bind (h8 _) fun r => h7 _ _) (Result.le_refl _))
    · intro tk
      rw [unary, unary]
      exact Result.le_bind (Result.le_refl _) fun c =>
        Result.le_ite (h9 _)
          (Result.le_bind (Result.le_refl _) fun c =>
            Result.le_ite (Result.le_bind (h9 _) fun r => Result.le_refl _) (h9 _))
    · intro tk
      rw [primary, primary]
      exact Result.le_bind (Result.le_refl _) fun c =>
        Result.le_ite (Result.le_bind (h1 _) fun r => Result.le_refl _) (Result.le_refl _)

theorem Result.all_bind {α β : Type} {P : β → Prop} (Q : α → Prop) {r : Result α}
    {f : α → Result β} (h : r.All Q) (hf : ∀ a, Q a → (f a).All P) : (r.bind f).All P := by
  intro b hb
  cases r with
  | ok a => exact hf a (h a rfl) b hb
  | error_at loc fmt => simp [Result.bind] at hb
  | null => simp [Result.bind] at hb
  | fuel => simp [Result.bind] at hb

theorem Result.all_ok {α : Type} {P : α → Prop} {a : α} (h : P a) : (Result.ok a).All P := by
  intro b hb
  cases hb
  exact h

theorem Result.all_ite {α : Type} {P : α → Prop} {c : Prop} [Decidable c] {a b : Result α}
    (ha : c → a.All P) (hb : ¬ c → b.All P) : (if c then a else b).All P := by
  split
  · next h => exact ha h
  · next h => exact hb h

theorem Result.All.mono {α : Type} {P Q : α → Prop} {r : Result α} (h : r.All P)
    (hpq : ∀ a, P a → Q a) : r.All Q := fun a ha => hpq a (h a ha)

theorem consume_all (op : List Char) (tk : List Token) :
    (consume op tk).All fun c =>
      (c.1 = true → c.2.length + 1 = tk.length) ∧ (c.1 = false → c.2 = tk) := by
  intro c hc
  cases tk with
  | nil => simp [consume] at hc
  | cons tok next =>
    simp only [consume] at hc
    split at hc <;> cases hc <;> simp

theorem expect_all (op : List Char) (tk : List Token) :
    (expect op tk).All fun r => r.length + 1 = tk.length := by
  intro c hc
  cases tk with
  | nil => simp [expect] at hc
  | cons tok next =>
    simp only [expect] at hc
    split at hc <;> cases hc
    simp

theorem expect_number_all (tk : List Token) :
    (expect_number tk).All fun r => r.2.length + 1 = tk.length := by
  intro c hc
  cases tk with
  | nil => simp [expect_number] at hc
  | cons tok next =>
    simp only [expect_number] at hc
    split at hc <;> cases hc
    simp

/-- The cursor a parsing function returns is strictly further than the one it
was called at; the one a loop returns is not before it. -/
theorem parse_length (n : Nat) :
    (∀ tk, (expr n tk).All fun r => r.2.length < tk.length) ∧
    (∀ tk, (equality n tk).All fun r => r.2.length < tk.length) ∧
    (∀ nd tk, (equality_loop n nd tk).All fun r => r.2.length ≤ tk.length) ∧
    (∀ tk, (add n tk).All fun r => r.2.length < tk.length) ∧
    (∀ nd tk, (add_loop n nd tk).All fun r => r.2.length ≤ tk.length) ∧
    (∀ tk, (mul n tk).All fun r => r.2.length < tk.length) ∧
    (∀ nd tk, (mul_loop n nd tk).All fun r => r.2.length ≤ tk.length) ∧
    (∀ tk, (unary n tk).All fun r => r.2.length < tk.length) ∧
    (∀ tk, (primary n tk).All fun r => r.2.length < tk.length) := by
  induction n with
  | zero =>
    refine ⟨?_, ?_, ?_, ?_, ?_, ?_, ?_, ?_, ?_⟩ <;> intros <;> intro a h <;>
      simp [expr, equality, equality_loop, add, add_loop, mul, mul_loop, unary, primary] at h
  | succ n ih =>
    obtain ⟨h1, h2, h3, h4, h5, h6, h7, h8, h9⟩ := ih
    refine ⟨?_, ?_, ?_, ?_, ?_, ?_, ?_, ?_, ?_⟩
    · intro tk
      rw [expr]
      exact h2 tk
    · intro tk
      rw [equality]
      exact Result.all_bind _ (h4 tk) fun r hr => (h3 _ _).mono fun a ha => by omega
    · intro nd tk
      rw [equality_loop]
      refine Result.all_bind _ (consume_all _ tk) fun c hc => Result.all_ite (fun hb => ?_) ?_
      · exact Result.all_bind _ (h4 _) fun r hr => (h3 _ _).mono fun a ha => by
          have := hc.1 hb
          omega
      · intro hb
        have := hc.2 (by simpa using hb)
        exact Result.all_ok (by simp [this])
    · intro tk
      rw [add]
      exact Result.all_bind _ (h6 tk) fun r hr => (h5 _ _).mono fun a ha => by omega
    · intro nd tk
      rw [add_loop]
      refine Result.all_bind _ (consume_all _ tk) fun c hc =>
        Result.all_ite (fun hb => ?_) (fun hb => ?_)
      · exact Result.all_bind _ (h6 _) fun r hr => (h5 _ _).mono fun a ha => by
          have := hc.1 hb
          omega
      · have e := hc.2 (by simpa using hb)
        refine Result.all_bind _ (consume_all _ c.2) fun c' hc' =>
          Result.all_ite (fun hb' => ?_) (fun hb' => ?_)
        · exact Result.all_bind _ (h6 _) fun r hr => (h5 _ _).mono fun a ha => by
            have := hc'.1 hb'
            rw [e] at this
            omega
        · have e' := hc'.2 (by simpa using hb')
          exact Result.all_ok (by simp [e', e])
    · intro tk
      rw [mul]
      exact Result.all_bind _ (h8 tk) fun r hr => (h7 _ _).mono fun a ha => by omega
    · intro nd tk
      rw [mul_loop]
      refine Result.all_bind _ (consume_all _ tk) fun c hc =>
        Result.all_ite (fun hb => ?_) (fun hb => ?_)
      · exact Result.all_bind _ (h8 _) fun r hr => (h7 _ _).mono fun a ha => by
          have := hc.1 hb
          omega
      · have e := hc.2 (by simpa using hb)
        refine Result.all_bind _ (consume_all _ c.2) fun c' hc' =>
          Result.all_ite (fun hb' => ?_) (fun hb' => ?_)
        · exact Result.all_bind _ (h8 _) fun r hr => (h7 _ _).mono fun a ha => by
            have := hc'.1 hb'
            rw [e] at this
            omega
        · have e' := hc'.2 (by simpa using hb')
          exact Result.all_ok (by simp [e', e])
    · intro tk
      rw [unary]
      refine Result.all_bind _ (consume_all _ tk) fun c hc =>
        Result.all_ite (fun hb => ?_) (fun hb => ?_)
      · exact (h9 _).mono fun a ha => by
          have := hc.1 hb
          omega
      · have e := hc.2 (by simpa using hb)
        refine Result.all_bind _ (consume_all _ c.2) fun c' hc' =>
          Result.all_ite (fun hb' => ?_) (fun hb' => ?_)
        · exact Result.all_bind _ (h9 _) fun r hr => Result.all_ok (by
            have := hc'.1 hb'
            rw [e] at this
            simp only
            omega)
        · have e' := hc'.2 (by simpa using hb')
          rw [e', e]
          exact h9 tk
    · intro tk
      rw [primary]
      refine Result.all_bind _ (consume_all _ tk) fun c hc =>
        Result.all_ite (fun hb => ?_) (fun hb => ?_)
      · exact Result.all_bind _ (h1 _) fun r hr =>
          Result.all_bind _ (expect_all _ _) fun t ht => Result.all_ok (by
            have := hc.1 hb
            simp only
            omega)
      · have e := hc.2 (by simpa using hb)
        exact Result.all_bind _ (expect_number_all _) fun r hr => Result.all_ok (by
          rw [e] at hr
          simp only
          omega)

theorem Result.bind_ne_fuel {α β : Type} {r : Result α} {f : α → Result β}
    (h : r ≠ .fuel) (hf : ∀ a, r = .ok a → f a ≠ .fuel) : r.bind f ≠ .fuel := by
  cases r with
  | ok a => exact hf a rfl
  | error_at loc fmt => simp [Result.bind]
  | null => simp [Result.bind]
  | fuel => exact absurd rfl h

theorem consume_ne_fuel (op : List Char) (tk : List Token) : consume op tk ≠ .fuel := by
  cases tk with
  | nil => simp [consume]
  | cons tok next =>
    simp only [consume]
    split <;> simp

theorem expect_ne_fuel (op : List Char) (tk : List Token) : expect op tk ≠ .fuel := by
  cases tk with
  | nil => simp [expect]
  | cons tok next =>
    simp only [expect]
    split <;> simp

theorem expect_number_ne_fuel (tk : List Token) : expect_number tk ≠ .fuel := by
  cases tk with
  | nil => simp [expect_number]
  | cons tok next =>
    simp only [expect_number]
    split <;> simp

/-- Nine units of fuel per token, and nine more, are enough for `expr`; each
function further down the call chain needs one unit less. -/
theorem parse_enough (n : Nat) :
    (∀ tk, 9 * tk.length + 9 ≤ n → expr n tk ≠ .fuel) ∧
    (∀ tk, 9 * tk.length + 8 ≤ n → equality n tk ≠ .fuel) ∧
    (∀ nd tk, 9 * tk.length + 7 ≤ n → equality_loop n nd tk ≠ .fuel) ∧
    (∀ tk, 9 * tk.length + 6 ≤ n → add n tk ≠ .fuel) ∧
    (∀ nd tk, 9 * tk.length + 5 ≤ n → add_loop n nd tk ≠ .fuel) ∧
    (∀ tk, 9 * tk.length + 4 ≤ n → mul n tk ≠ .fuel) ∧
    (∀ nd tk, 9 * tk.length + 3 ≤ n → mul_loop n nd tk ≠ .fuel) ∧
    (∀ tk, 9 * tk.length + 2 ≤ n → unary n tk ≠ .fuel) ∧
    (∀ tk, 9 * tk.length + 1 ≤ n → primary n tk ≠ .fuel) := by
  induction n with
  | zero =>
    refine ⟨?_, ?_, ?_, ?_, ?_, ?_, ?_, ?_, ?_⟩ <;> intros <;> omega
  | succ n ih =>
    obtain ⟨h1, h2, h3, h4, h5, h6, h7, h8, h9⟩ := ih
    obtain ⟨l1, l2, l3, l4, l5, l6, l7, l8, l9⟩ := parse_length n
    refine ⟨?_, ?_, ?_, ?_, ?_, ?_, ?_, ?_, ?_⟩
    · intro tk hn
      rw [expr]
      exact h2 tk (by omega)
    · intro tk hn
      rw [equality]
      refine Result.bind_ne_fuel (h4 tk (by omega)) fun r hr => h3 _ _ ?_
      have := l4 tk r hr
      omega
    · intro nd tk hn
      rw [equality_loop]
      refine Result.bind_ne_fuel (consume_ne_fuel _ _) fun c hc => ?_
      have hc := consume_all _ _ c hc
      split
      · next hb =>
        have := hc.1 hb
        refine Result.bind_ne_fuel (h4 _ (by omega)) fun r hr => h3 _ _ ?_
        have := l4 _ r hr
        omega
      · simp
    · intro tk hn
      rw [add]
      refine Result.bind_ne_fuel (h6 tk (by omega)) fun r hr => h5 _ _ ?_
      have := l6 tk r hr
      omega
    · intro nd tk hn
      rw [add_loop]
      refine Result.bind_ne_fuel (consume_ne_fuel _ _) fun c hc => ?_
      have hc := consume_all _ _ c hc
      split
      · next hb =>
        have := hc.1 hb
        refine Result.bind_ne_fuel (h6 _ (by omega)) fun r hr => h5 _ _ ?_
        have := l6 _ r hr
        omega
      · next hb =>
        have e := hc.2 (by simpa using hb)
        refine Result.bind_ne_fuel (consume_ne_fuel _ _) fun c' hc' => ?_
        have hc' := consume_all _ _ c' hc'
        split
        · next hb' =>
          have := hc'.1 hb'
          rw [e] at this
          refine Result.bind_ne_fuel (h6 _ (by omega)) fun r hr => h5 _ _ ?_
          have := l6 _ r hr
          omega
        · simp
    · intro tk hn
      rw [mul]
      refine Result.bind_ne_fuel (h8 tk (by omega)) fun r hr => h7 _ _ ?_
      have := l8 tk r hr
      omega
    · intro nd tk hn
      rw [mul_loop]
      refine Result.bind_ne_fuel (consume_ne_fuel _ _) fun c hc => ?_
      have hc := consume_all _ _ c hc
      split
      · next hb =>
        have := hc.1 hb
        refine Result.bind_ne_fuel (h8 _ (by omega)) fun r hr => h7 _ _ ?_
        have := l8 _ r hr
        omega
      · next hb =>
        have e := hc.2 (by simpa using hb)
        refine Result.bind_ne_fuel (consume_ne_fuel _ _) fun c' hc' => ?_
        have hc' := consume_all _ _ c' hc'
        split
        · next hb' =>
          have := hc'.1 hb'
          rw [e] at this
          refine Result.bind_ne_fuel (h8 _ (by omega)) fun r hr => h7 _ _ ?_
          have := l8 _ r hr
          omega
        · simp
    · intro tk hn
      rw [unary]
      refine Result.bind_ne_fuel (consume_ne_fuel _ _) fun c hc => ?_
      have hc := consume_all _ _ c hc
      split
      · next hb =>
        have := hc.1 hb
        exact h9 _ (by omega)
      · next hb =>
        have e := hc.2 (by simpa using hb)
        refine Result.bind_ne_fuel (consume_ne_fuel _ _) fun c' hc' => ?_
        have hc' := consume_all _ _ c' hc'
        split
        · next hb' =>
          have := hc'.1 hb'
          rw [e] at this
          exact Result.bind_ne_fuel (h9 _ (by omega)) fun r hr => by simp
        · next hb' =>
          have e' := hc'.2 (by simpa using hb')
          rw [e', e]
          exact h9 _ (by omega)
    · intro tk hn
      rw [primary]
      refine Result.bind_ne_fuel (consume_ne_fuel _ _) fun c hc => ?_
      have hc := consume_all _ _ c hc
      split
      · next hb =>
        have := hc.1 hb
        exact Result.bind_ne_fuel (h1 _ (by omega)) fun r hr =>
          Result.bind_ne_fuel (expect_ne_fuel _ _) fun t ht => by simp
      · exact Result.bind_ne_fuel (expect_number_ne_fuel _) fun r hr => by simp

theorem Result.le_of_le {α : Type} {f : Nat → Result α} (h : ∀ n, (f n).le (f (n + 1)))
    {n m : Nat} (hnm : n ≤ m) (hn : f n ≠ .fuel) : f m = f n := by
  induction m with
  | zero =>
    have : n = 0 := by omega
    rw [this]
  | succ m ih =>
    by_cases hm : n ≤ m
    · have e := ih hm
      rw [h m (by rw [e]; exact hn), e]
    · have : n = m + 1 := by omega
      rw [this]

theorem Result.stable {α : Type} {f : Nat → Result α} (h : ∀ n, (f n).le (f (n + 1)))
    {k : Nat} (hk : ∀ n, k ≤ n → f n ≠ .fuel) {n m : Nat} (hn : k ≤ n) (hm : k ≤ m) :
    f n = f m := by
  rw [← Result.le_of_le h (Nat.le_max_left n m) (hk n hn),
    ← Result.le_of_le h (Nat.le_max_right n m) (hk m hm)]

theorem expr_stable {n : Nat} {tk : List Token} (h : 9 * tk.length + 9 ≤ n) :
    expr n tk = expr_run tk :=
  Result.stable (fun n => (fuel_succ n).1 tk) (fun n hn => (parse_enough n).1 tk hn) h
    (Nat.le_refl _)

theorem equality_stable {n : Nat} {tk : List Token} (h : 9 * tk.length + 8 ≤ n) :
    equality n tk = equality_run tk :=
  Result.stable (fun n => (fuel_succ n).2.1 tk) (fun n hn => (parse_enough n).2.1 tk hn) h
    (by omega)

theorem equality_loop_stable {n : Nat} {nd : Node} {tk : List Token}
    (h : 9 * tk.length + 7 ≤ n) : equality_loop n nd tk = equality_loop_run nd tk :=
  Result.stable (fun n => (fuel_succ n).2.2.1 nd tk)
    (fun n hn => (parse_enough n).2.2.1 nd tk hn) h (by omega)

theorem add_stable {n : Nat} {tk : List Token} (h : 9 * tk.length + 6 ≤ n) :
    add n tk = add_run tk :=
  Result.stable (fun n => (fuel_succ n).2.2.2.1 tk)
    (fun n hn => (parse_enough n).2.2.2.1 tk hn) h (by omega)

theorem add_loop_stable {n : Nat} {nd : Node} {tk : List Token}
    (h : 9 * tk.length + 5 ≤ n) : add_loop n nd tk = add_loop_run nd tk :=
  Result.stable (fun n => (fuel_succ n).2.2.2.2.1 nd tk)
    (fun n hn => (parse_enough n).2.2.2.2.1 nd tk hn) h (by omega)

theorem mul_stable {n : Nat} {tk : List Token} (h : 9 * tk.length + 4 ≤ n) :
    mul n tk = mul_run tk :=
  Result.stable (fun n => (fuel_succ n).2.2.2.2.2.1 tk)
    (fun n hn => (parse_enough n).2.2.2.2.2.1 tk hn) h (by omega)

theorem mul_loop_stable {n : Nat} {nd : Node} {tk : List Token}
    (h : 9 * tk.length + 3 ≤ n) : mul_loop n nd tk = mul_loop_run nd tk :=
  Result.stable (fun n => (fuel_succ n).2.2.2.2.2.2.1 nd tk)
    (fun n hn => (parse_enough n).2.2.2.2.2.2.1 nd tk hn) h (by omega)

theorem unary_stable {n : Nat} {tk : List Token} (h : 9 * tk.length + 2 ≤ n) :
    unary n tk = unary_run tk :=
  Result.stable (fun n => (fuel_succ n).2.2.2.2.2.2.2.1 tk)
    (fun n hn => (parse_enough n).2.2.2.2.2.2.2.1 tk hn) h (by omega)

theorem primary_stable {n : Nat} {tk : List Token} (h : 9 * tk.length + 1 ≤ n) :
    primary n tk = primary_run tk :=
  Result.stable (fun n => (fuel_succ n).2.2.2.2.2.2.2.2 tk)
    (fun n hn => (parse_enough n).2.2.2.2.2.2.2.2 tk hn) h (by omega)

theorem Result.bind_congr {α β : Type} {r : Result α} {f g : α → Result β}
    (h : ∀ a, r = .ok a → f a = g a) : r.bind f = r.bind g := by
  cases r with
  | ok a => exact h a rfl
  | error_at loc fmt => rfl
  | null => rfl
  | fuel => rfl

theorem expr_run_length {tk : List Token} {r : Node × List Token} (h : expr_run tk = .ok r) :
    r.2.length < tk.length :=
  (parse_length _).1 tk r h

theorem equality_run_length {tk : List Token} {r : Node × List Token} (h : equality_run tk = .ok r) :
    r.2.length < tk.length :=
  (parse_length _).2.1 tk r h

theorem equality_loop_run_length {nd : Node} {tk : List Token} {r : Node × List Token}
    (h : equality_loop_run nd tk = .ok r) : r.2.length ≤ tk.length :=
  (parse_length _).2.2.1 nd tk r h

theorem add_run_length {tk : List Token} {r : Node × List Token} (h : add_run tk = .ok r) :
    r.2.length < tk.length :=
  (parse_length _).2.2.2.1 tk r h

theorem add_loop_run_length {nd : Node} {tk : List Token} {r : Node × List Token}
    (h : add_loop_run nd tk = .ok r) : r.2.length ≤ tk.length :=
  (parse_length _).2.2.2.2.1 nd tk r h

theorem mul_run_length {tk : List Token} {r : Node × List Token} (h : mul_run tk = .ok r) :
    r.2.length < tk.length :=
  (parse_length _).2.2.2.2.2.1 tk r h

theorem mul_loop_run_length {nd : Node} {tk : List Token} {r : Node × List Token}
    (h : mul_loop_run nd tk = .ok r) : r.2.length ≤ tk.length :=
  (parse_length _).2.2.2.2.2.2.1 nd tk r h

theorem unary_run_length {tk : List Token} {r : Node × List Token} (h : unary_run tk = .ok r) :
    r.2.length < tk.length :=
  (parse_length _).2.2.2.2.2.2.2.1 tk r h

theorem primary_run_length {tk : List Token} {r : Node × List Token} (h : primary_run tk = .ok r) :
    r.2.length < tk.length :=
  (parse_length _).2.2.2.2.2.2.2.2 tk r h

theorem expr_run_eq (tk : List Token) : expr_run tk = equality_run tk := by
  rw [expr_run, expr, equality_stable (by omega)]

theorem equality_run_eq (tk : List Token) :
    equality_run tk = (add_run tk).bind fun r => equality_loop_run r.1 r.2 := by
  rw [equality_run, equality, add_stable (by omega)]
  refine Result.bind_congr fun r hr => equality_loop_stable ?_
  have := add_run_length hr
  omega

theorem equality_loop_run_eq (nd : Node) (tk : List Token) :
    equality_loop_run nd tk = (consume ['=', '='] tk).bind fun c =>
      if c.1 then (add_run c.2).bind fun r => equality_loop_run (.bin .ND_EQ nd r.1) r.2
      else .ok (nd, c.2) := by
  rw [equality_loop_run, equality_loop]
  refine Result.bind_congr fun c hc => ?_
  have hc := consume_all _ _ c hc
  by_cases hb : c.1 = true
  · rw [if_pos hb, if_pos hb]
    have := hc.1 hb
    rw [add_stable (by omega)]
    refine Result.bind_congr fun r hr => equality_loop_stable ?_
    have := add_run_length hr
    omega
  · rw [if_neg hb, if_neg hb]

theorem add_run_eq (tk : List Token) :
    add_run tk = (mul_run tk).bind fun r => add_loop_run r.1 r.2 := by
  rw [add_run, add, mul_stable (by omega)]
  refine Result.bind_congr fun r hr => add_loop_stable ?_
  have := mul_run_length hr
  omega

theorem add_loop_run_eq (nd : Node) (tk : List Token) :
    add_loop_run nd tk = (consume ['+'] tk).bind fun c =>
      if c.1 then (mul_run c.2).bind fun r => add_loop_run (.bin .ND_ADD nd r.1) r.2
      else (consume ['-'] c.2).bind fun c =>
        if c.1 then (mul_run c.2).bind fun r => add_loop_run (.bin .ND_SUB nd r.1) r.2
        else .ok (nd, c.2) := by
  rw [add_loop_run, add_loop]
  refine Result.bind_congr fun c hc => ?_
  have hc := consume_all _ _ c hc
  by_cases hb : c.1 = true
  · rw [if_pos hb, if_pos hb]
    have := hc.1 hb
    rw [mul_stable (by omega)]
    refine Result.bind_congr fun r hr => add_loop_stable ?_
    have := mul_run_length hr
    omega
  · rw [if_neg hb, if_neg hb]
    have e := hc.2 (by simpa using hb)
    refine Result.bind_congr fun c' hc' => ?_
    have hc' := consume_all _ _ c' hc'
    by_cases hb' : c'.1 = true
    · rw [if_pos hb', if_pos hb']
      have := hc'.1 hb'
      rw [e] at this
      rw [mul_stable (by omega)]
      refine Result.bind_congr fun r hr => add_loop_stable ?_
      have := mul_run_length hr
      omega
    · rw [if_neg hb', if_neg hb']

theorem mul_run_eq (tk : List Token) :
    mul_run tk = (unary_run tk).bind fun r => mul_loop_run r.1 r.2 := by
  rw [mul_run, mul, unary_stable (by omega)]
  refine Result.bind_congr fun r hr => mul_loop_stable ?_
  have := unary_run_length hr
  omega

theorem mul_loop_run_eq (nd : Node) (tk : List Token) :
    mul_loop_run nd tk = (consume ['*'] tk).bind fun c =>
      if c.1 then (unary_run c.2).bind fun r => mul_loop_run (.bin .ND_MUL nd r.1) r.2
      else (consume ['/'] c.2).bind fun c =>
        if c.1 then (unary_run c.2).bind fun r => mul_loop_run (.bin .ND_DIV nd r.1) r.2
        else .ok (nd, c.2) := by
  rw [mul_loop_run, mul_loop]
  refine Result.bind_congr fun c hc => ?_
  have hc := consume_all _ _ c hc
  by_cases hb : c.1 = true
  · rw [if_pos hb, if_pos hb]
    have := hc.1 hb
    rw [unary_stable (by omega)]
    refine Result.bind_congr fun r hr => mul_loop_stable ?_
    have := unary_run_length hr
    omega
  · rw [if_neg hb, if_neg hb]
    have e := hc.2 (by simpa using hb)
    refine Result.bind_congr fun c' hc' => ?_
    have hc' := consume_all _ _ c' hc'
    by_cases hb' : c'.1 = true
    · rw [if_pos hb', if_pos hb']
      have := hc'.1 hb'
      rw [e] at this
      rw [unary_stable (by omega)]
      refine Result.bind_congr fun r hr => mul_loop_stable ?_
      have := unary_run_length hr
      omega
    · rw [if_neg hb', if_neg hb']

theorem unary_run_eq (tk : List Token) :
    unary_run tk = (consume ['+'] tk).bind fun c =>
      if c.1 then primary_run c.2
      else (consume ['-'] c.2).bind fun c =>
        if c.1 then (primary_run c.2).bind fun r => .ok (.bin .ND_SUB (.num 0) r.1, r.2)
        else primary_run c.2 := by
  rw [unary_run, unary]
  refine Result.bind_congr fun c hc => ?_
  have hc := consume_all _ _ c hc
  by_cases hb : c.1 = true
  · rw [if_pos hb, if_pos hb]
    have := hc.1 hb
    rw [primary_stable (by omega)]
  · rw [if_neg hb, if_neg hb]
    have e := hc.2 (by simpa using hb)
    refine Result.bind_congr fun c' hc' => ?_
    have hc' := consume_all _ _ c' hc'
    by_cases hb' : c'.1 = true
    · rw [if_pos hb', if_pos hb']
      have := hc'.1 hb'
      rw [e] at this
      rw [primary_stable (by omega)]
    · rw [if_neg hb', if_neg hb']
      have e' := hc'.2 (by simpa using hb')
      rw [primary_stable (by rw [e', e]; omega)]

theorem primary_run_eq (tk : List Token) :
    primary_run tk = (consume ['('] tk).bind fun c =>
      if c.1 then
        (expr_run c.2).bind fun r => (expect [')'] r.2).bind fun token => .ok (r.1, token)
      else (expect_number c.2).bind fun r => .ok (.num r.1, r.2) := by
  rw [primary_run, primary]
  refine Result.bind_congr fun c hc => ?_
  have hc := consume_all _ _ c hc
  by_cases hb : c.1 = true
  · rw [if_pos hb, if_pos hb]
    have := hc.1 hb
    rw [expr_stable (by omega)]
  · rw [if_neg hb, if_neg hb]

/-! ### The parser on phrases of the grammar -/

theorem consume_is {op : List Char} {tok : Token} (h : tok.isnt op = false)
    (next : List Token) : consume op (tok :: next) = .ok (true, next) := by
  simp [consume, h]

theorem consume_isnt {op : List Char} {tok : Token} (h : tok.isnt op = true)
    (next : List Token) : consume op (tok :: next) = .ok (false, tok :: next) := by
  simp [consume, h]

theorem expect_is {op : List Char} {tok : Token} (h : tok.isnt op = false)
    (next : List Token) : expect op (tok :: next) = .ok next := by
  simp [expect, h]

theorem isnt_of_is {a b : List Char} {tok : Token} (h : tok.isnt a = false) (hab : a ≠ b) :
    tok.isnt b = true := by
  simp only [Token.isnt, Bool.or_eq_false_iff, bne_eq_false_iff_eq] at h
  obtain ⟨⟨h1, h2⟩, h3⟩ := h
  simp only [Token.isnt, Bool.or_eq_true, bne_iff_ne, ne_eq]
  by_cases hb : b.length = tok.len
  · right
    rw [← h3, ← h2, List.take_length]
    rw [← h2] at hb
    rw [← hb, List.take_length]
    exact fun e => hab e.symm
  · exact Or.inl (Or.inr hb)

theorem isnt_of_num {tok : Token} (h : tok.kind = .TK_NUM) (op : List Char) :
    tok.isnt op = true := by
  simp [Token.isnt, h]

theorem TokenPhrase.primary_head {ts : List Token} {t : Node}
    (h : TokenPhrase .primary ts t) :
    ∃ tok tl, ts = tok :: tl ∧ tok.isnt ['+'] = true ∧ tok.isnt ['-'] = true := by
  cases h with
  | num tok hk => exact ⟨tok, [], rfl, isnt_of_num hk _, isnt_of_num hk _⟩
  | paren l r ts t hl hr he =>
    exact ⟨l, ts ++ [r], rfl, isnt_of_is hl (by decide), isnt_of_is hl (by decide)⟩

theorem mul_loop_run_stop (t : Node) {tok : Token} (tl : List Token)
    (h1 : tok.isnt ['*'] = true) (h2 : tok.isnt ['/'] = true) :
    mul_loop_run t (tok :: tl) = .ok (t, tok :: tl) := by
  rw [mul_loop_run_eq, consume_isnt h1]
  simp [Result.bind, consume_isnt h2]

theorem add_loop_run_stop (t : Node) {tok : Token} (tl : List Token)
    (h1 : tok.isnt ['+'] = true) (h2 : tok.isnt ['-'] = true) :
    add_loop_run t (tok :: tl) = .ok (t, tok :: tl) := by
  rw [add_loop_run_eq, consume_isnt h1]
  simp [Result.bind, consume_isnt h2]

theorem equality_loop_run_stop (t : Node) {tok : Token} (tl : List Token)
    (h1 : tok.isnt ['=', '='] = true) :
    equality_loop_run t (tok :: tl) = .ok (t, tok :: tl) := by
  rw [equality_loop_run_eq, consume_isnt h1]
  simp [Result.bind]

/-- The parser accepts every phrase of the grammar and builds its tree. -/
theorem TokenPhrase.parsed {r : Rule} {ts : List Token} {t : Node}
    (h : TokenPhrase r ts t) : Parsed r ts t := by
  induction h with
  | num tok hk =>
    intro rest
    rw [primary_run_eq]
    simp [consume_isnt (isnt_of_num hk _), Result.bind, expect_number, hk]
  | paren l r ts t hl hr he ih =>
    intro rest
    have hr' : ∀ op, [')'] ≠ op → r.isnt op = true := fun op => isnt_of_is hr
    have := ih r rest (hr' _ (by decide)) (hr' _ (by decide)) (hr' _ (by decide))
      (hr' _ (by decide)) (hr' _ (by decide))
    rw [primary_run_eq]
    simp [consume_is hl, Result.bind, this, expect_is hr]
  | plus o ts t ho hp ih =>
    intro rest
    rw [unary_run_eq]
    simp [consume_is ho, Result.bind, ih rest]
  | minus o ts t ho hp ih =>
    intro rest
    rw [unary_run_eq]
    simp [consume_isnt (isnt_of_is ho (by decide : ['-'] ≠ ['+'])), consume_is ho,
      Result.bind, ih rest]
  | unary ts t hp ih =>
    intro rest
    obtain ⟨tok, tl, rfl, h1, h2⟩ := hp.primary_head
    have := ih rest
    rw [unary_run_eq]
    simp only [List.cons_append] at this ⊢
    simp [consume_isnt h1, consume_isnt h2, Result.bind, this]
  | multiplicative ts t hu ih =>
    intro rest
    rw [mul_run_eq, ih rest]
    rfl
  | times o ts₁ ts₂ t₁ t₂ h1 ho h2 ih1 ih2 =>
    intro rest
    rw [List.append_assoc, ih1, List.cons_append, mul_loop_run_eq, consume_is ho]
    simp [Result.bind, ih2 rest]
  | over o ts₁ ts₂ t₁ t₂ h1 ho h2 ih1 ih2 =>
    intro rest
    rw [List.append_assoc, ih1, List.cons_append, mul_loop_run_eq,
      consume_isnt (isnt_of_is ho (by decide : ['/'] ≠ ['*']))]
    simp [Result.bind, consume_is ho, ih2 rest]
  | additive ts t hm ih =>
    intro tok tl m1 m2
    rw [add_run_eq, ih, mul_loop_run_stop t tl m1 m2]
    rfl
  | sum o ts₁ ts₂ t₁ t₂ h1 ho h2 ih1 ih2 =>
    intro tok tl m1 m2
    rw [List.append_assoc, List.cons_append,
      ih1 o _ (isnt_of_is ho (by decide)) (isnt_of_is ho (by decide)),
      add_loop_run_eq, consume_is ho]
    simp [Result.bind, ih2 (tok :: tl), mul_loop_run_stop t₂ tl m1 m2]
  | difference o ts₁ ts₂ t₁ t₂ h1 ho h2 ih1 ih2 =>
    intro tok tl m1 m2
    rw [List.append_assoc, List.cons_append,
      ih1 o _ (isnt_of_is ho (by decide)) (isnt_of_is ho (by decide)),
      add_loop_run_eq, consume_isnt (isnt_of_is ho (by decide : ['-'] ≠ ['+']))]
    simp [Result.bind, consume_is ho, ih2 (tok :: tl), mul_loop_run_stop t₂ tl m1 m2]
  | equality ts t ha ih =>
    intro tok tl m1 m2 a1 a2
    rw [equality_run_eq, ih tok tl m1 m2, add_loop_run_stop t tl a1 a2]
    rfl
  | equal o ts₁ ts₂ t₁ t₂ h1 ho h2 ih1 ih2 =>
    intro tok tl m1 m2 a1 a2
    rw [List.append_assoc, List.cons_append,
      ih1 o _ (isnt_of_is ho (by decide)) (isnt_of_is ho (by decide))
        (isnt_of_is ho (by decide)) (isnt_of_is ho (by decide)),
      equality_loop_run_eq, consume_is ho]
    simp [Result.bind, ih2 tok tl m1 m2, add_loop_run_stop t₂ tl a1 a2]
  | expression ts t he ih =>
    intro tok tl m1 m2 a1 a2 e1
    rw [expr_run_eq, ih tok tl m1 m2 a1 a2, equality_loop_run_stop t tl e1]

/-! ### The tokenizer, step by step -/

theorem dropWhile_length_le (p : Char → Bool) (l : List Char) :
    (l.dropWhile p).length ≤ l.length := by
  induction l with
  | nil => simp
  | cons c cs ih =>
    simp only [List.dropWhile_cons]
    split
    · simp only [List.length_cons]; omega
    · simp

theorem strtol_snd_length {c : Char} (cs : List Char) (h : isdigit c = true) :
    (strtol (c :: cs)).2.length ≤ cs.length := by
  simp only [strtol, List.dropWhile_cons, h, if_true]
  exact dropWhile_length_le _ _

theorem tokenize_loop_fuel (n m : Nat) (p : List Char) (hn : p.length ≤ n)
    (hm : p.length ≤ m) : tokenize_loop n p = tokenize_loop m p := by
  induction n generalizing m p with
  | zero =>
    cases p with
    | nil => cases m <;> rfl
    | cons c cs => simp at hn
  | succ n ih =>
    cases p with
    | nil => cases m <;> rfl
    | cons c cs =>
      cases m with
      | zero => simp at hm
      | succ m =>
        simp only [List.length_cons, Nat.add_le_add_iff_right] at hn hm
        simp only [tokenize_loop]
        split
        · exact ih m cs hn hm
        · split
          · rw [ih m (cs.drop 1) (by simp; omega) (by simp; omega)]
          · split
            · rw [ih m cs hn hm]
            · split
              · next hd =>
                have := strtol_snd_length cs hd
                rw [ih m _ (by omega) (by omega)]
              · rfl

theorem tokenize_nil : tokenize [] = .ok [⟨.TK_EOF, 0, [], 0⟩] := rfl

theorem tokenize_cons (c : Char) (cs : List Char) :
    tokenize (c :: cs) =
      if isspace c then tokenize cs
      else if startswith (c :: cs) ['=', '='] then
        new_token .TK_RESERVED 0 (c :: cs) 2 (tokenize (cs.drop 1))
      else if c ∈ ['+', '-', '*', '/', '(', ')'] then
        new_token .TK_RESERVED 0 (c :: cs) 1 (tokenize cs)
      else if isdigit c then
        new_token .TK_NUM (to_int (strtol (c :: cs)).1) (c :: cs) 0
          (tokenize (strtol (c :: cs)).2)
      else .error_at (c :: cs) "expected a number" := by
  simp only [tokenize, List.length_cons, tokenize_loop]
  split
  · rfl
  · split
    · rw [tokenize_loop_fuel _ (cs.drop 1).length _ (by simp) (Nat.le_refl _)]
    · split
      · rfl
      · split
        · next hd =>
          rw [tokenize_loop_fuel _ (strtol (c :: cs)).2.length _ (strtol_snd_length cs hd)
            (Nat.le_refl _)]
        · rfl

theorem not_isspace_of_isdigit {c : Char} (h : isdigit c = true) : isspace c = false := by
  simp only [isdigit, Bool.and_eq_true, decide_eq_true_eq] at h
  simp only [isspace, Bool.or_eq_false_iff, decide_eq_false_iff_not, Bool.and_eq_false_imp,
    decide_eq_true_eq]
  omega

theorem ne_of_isdigit {c d : Char} (h : isdigit c = true) (hd : isdigit d = false) : c ≠ d := by
  rintro rfl
  rw [h] at hd
  cases hd

theorem tokenize_space {c : Char} (cs : List Char) (h : isspace c = true) :
    tokenize (c :: cs) = tokenize cs := by
  rw [tokenize_cons, if_pos h]

theorem tokenize_eq_eq (cs : List Char) :
    tokenize ('=' :: '=' :: cs) =
      new_token .TK_RESERVED 0 ('=' :: '=' :: cs) 2 (tokenize cs) := by
  rw [tokenize_cons, if_neg (by decide), if_pos (by simp [startswith])]
  rfl

theorem tokenize_punct {c : Char} (cs : List Char)
    (h : c ∈ ['+', '-', '*', '/', '(', ')']) :
    tokenize (c :: cs) = new_token .TK_RESERVED 0 (c :: cs) 1 (tokenize cs) := by
  have h1 : isspace c = false := by
    simp only [List.mem_cons, List.mem_singleton, List.not_mem_nil, or_false] at h
    rcases h with rfl | rfl | rfl | rfl | rfl | rfl <;> decide
  have h2 : startswith (c :: cs) ['=', '='] = false := by
    simp only [List.mem_cons, List.mem_singleton, List.not_mem_nil, or_false] at h
    rcases h with rfl | rfl | rfl | rfl | rfl | rfl <;> simp [startswith]
  rw [tokenize_cons, if_neg (by simp [h1]), if_neg (by simp [h2]), if_pos h]

theorem takeWhile_digits (ds rest : List Char) (h : ∀ c ∈ ds, isdigit c = true)
    (hr : ∀ c, rest.head? = some c → isdigit c = false) :
    (ds ++ rest).takeWhile isdigit = ds ∧ (ds ++ rest).dropWhile isdigit = rest := by
  induction ds with
  | nil =>
    cases rest with
    | nil => simp
    | cons c cs => simp [hr c rfl]
  | cons d ds ih =>
    have hd := h d (by simp)
    have := ih fun c hc => h c (by simp [hc])
    simp [hd, this]

theorem tokenize_digits (ds rest : List Char) (hne : ds ≠ [])
    (h : ∀ c ∈ ds, isdigit c = true) (hr : ∀ c, rest.head? = some c → isdigit c = false) :
    tokenize (ds ++ rest) =
      new_token .TK_NUM (to_int (min (decimal ds : Int) LONG_MAX)) (ds ++ rest) 0
        (tokenize rest) := by
  obtain ⟨e1, e2⟩ := takeWhile_digits ds rest h hr
  cases ds with
  | nil => exact absurd rfl hne
  | cons d ds =>
    have hd := h d (by simp)
    have h1 := not_isspace_of_isdigit hd
    have h2 : startswith (d :: (ds ++ rest)) ['=', '='] = false := by
      have : d ≠ '=' := ne_of_isdigit hd (by decide)
      simp [startswith, this]
    have h3 : d ∉ ['+', '-', '*', '/', '(', ')'] := by
      simp only [List.mem_cons, List.mem_singleton, List.not_mem_nil, or_false, not_or]
      refine ⟨?_, ?_, ?_, ?_, ?_, ?_⟩ <;> exact ne_of_isdigit hd (by decide)
    rw [List.cons_append, tokenize_cons, if_neg (by simp [h1]), if_neg (by simp [h2]),
      if_neg h3, if_pos hd]
    simp only [strtol, ← List.cons_append, e1, e2]

/-! ### The models never run out of fuel -/

theorem new_token_ne_fuel {kind : TokenKind} {val : Int} {str : List Char} {len : Nat}
    {r : Result (List Token)} (h : r ≠ .fuel ∧ r ≠ .null) :
    new_token kind val str len r ≠ .fuel ∧ new_token kind val str len r ≠ .null := by
  cases r with
  | ok a => exact ⟨by simp [new_token, Result.bind], by simp [new_token, Result.bind]⟩
  | error_at loc fmt => exact ⟨by simp [new_token, Result.bind], by simp [new_token, Result.bind]⟩
  | null => exact absurd rfl h.2
  | fuel => exact absurd rfl h.1

/-- `tokenize` ends with tokens or in `error_at`: the fuel it is given is
enough, and it dereferences no null pointer. -/
theorem tokenize_total (n : Nat) (s : List Char) (hn : s.length ≤ n) :
    tokenize s ≠ .fuel ∧ tokenize s ≠ .null := by
  induction n generalizing s with
  | zero =>
    have : s = [] := List.eq_nil_of_length_eq_zero (by omega)
    subst this
    exact ⟨by simp [tokenize_nil], by simp [tokenize_nil]⟩
  | succ n ih =>
    cases s with
    | nil => exact ⟨by simp [tokenize_nil], by simp [tokenize_nil]⟩
    | cons c cs =>
      simp only [List.length_cons, Nat.add_le_add_iff_right] at hn
      rw [tokenize_cons]
      split
      · exact ih cs hn
      · split
        · exact new_token_ne_fuel (ih _ (by simp; omega))
        · split
          · exact new_token_ne_fuel (ih cs hn)
          · split
            · next hd =>
              have := strtol_snd_length cs hd
              exact new_token_ne_fuel (ih _ (by omega))
            · exact ⟨by simp, by simp⟩

/-- `expr_run` is `expr` run to its end: its fuel is never exhausted. -/
theorem expr_run_ne_fuel (tk : List Token) : expr_run tk ≠ .fuel :=
  (parse_enough _).1 tk (Nat.le_refl _)

/-! ### From characters to trees -/

theorem new_token_ok (kind : TokenKind) (val : Int) (str : List Char) (len : Nat)
    (toks : List Token) :
    new_token kind val str len (.ok toks) = .ok (⟨kind, val, str, len⟩ :: toks) := rfl

theorem isnt_punct (c : Char) (cs : List Char) (v : Int) :
    (Token.mk .TK_RESERVED v (c :: cs) 1).isnt [c] = false := by
  simp [Token.isnt]

theorem isnt_eq_eq (cs : List Char) (v : Int) :
    (Token.mk .TK_RESERVED v ('=' :: '=' :: cs) 2).isnt ['=', '='] = false := by
  simp [Token.isnt]

theorem stored_zero : stored 0 = 0 := by decide

/-- The tokens of a phrase followed by `rest` are a phrase of the token grammar,
with the stored literal values, followed by the tokens of `rest`. -/
theorem Phrase.tokens {r : Rule} {s : List Char} {t : Node} (h : Phrase r s t) :
    ∀ rest trest, (∀ c, rest.head? = some c → isdigit c = false) →
      tokenize rest = .ok trest →
      ∃ ts, TokenPhrase r ts (t.map stored) ∧ tokenize (s ++ rest) = .ok (ts ++ trest) := by
  induction h with
  | num ds hne hd =>
    intro rest trest hr ht
    refine ⟨[⟨.TK_NUM, stored (decimal ds), ds ++ rest, 0⟩], TokenPhrase.num _ rfl, ?_⟩
    rw [tokenize_digits ds rest hne hd hr, ht]
    rfl
  | paren s t he ih =>
    intro rest trest hr ht
    obtain ⟨ts, hts, e⟩ := ih (')' :: rest) (⟨.TK_RESERVED, 0, ')' :: rest, 1⟩ :: trest)
      (by simp; decide) (by rw [tokenize_punct _ (by simp), ht]; rfl)
    refine ⟨⟨.TK_RESERVED, 0, '(' :: (s ++ [')'] ++ rest), 1⟩ :: ts ++
      [⟨.TK_RESERVED, 0, ')' :: rest, 1⟩], TokenPhrase.paren _ _ _ _ (isnt_punct _ _ _)
        (isnt_punct _ _ _) hts, ?_⟩
    rw [List.cons_append, List.cons_append, tokenize_punct _ (by simp), List.append_assoc,
      List.singleton_append, e]
    simp [new_token_ok]
  | plus s t hp ih =>
    intro rest trest hr ht
    obtain ⟨ts, hts, e⟩ := ih rest trest hr ht
    refine ⟨⟨.TK_RESERVED, 0, '+' :: (s ++ rest), 1⟩ :: ts,
      TokenPhrase.plus _ _ _ (isnt_punct _ _ _) hts, ?_⟩
    rw [List.cons_append, tokenize_punct _ (by simp), e]
    rfl
  | minus s t hp ih =>
    intro rest trest hr ht
    obtain ⟨ts, hts, e⟩ := ih rest trest hr ht
    refine ⟨⟨.TK_RESERVED, 0, '-' :: (s ++ rest), 1⟩ :: ts, ?_, ?_⟩
    · have := TokenPhrase.minus _ _ _ (isnt_punct '-' (s ++ rest) 0) hts
      simpa [Node.map, stored_zero] using this
    · rw [List.cons_append, tokenize_punct _ (by simp), e]
      rfl
  | unary s t hp ih =>
    intro rest trest hr ht
    obtain ⟨ts, hts, e⟩ := ih rest trest hr ht
    exact ⟨ts, TokenPhrase.unary _ _ hts, e⟩
  | multiplicative s t hp ih =>
    intro rest trest hr ht
    obtain ⟨ts, hts, e⟩ := ih rest trest hr ht
    exact ⟨ts, TokenPhrase.multiplicative _ _ hts, e⟩
  | times s₁ s₂ t₁ t₂ h1 h2 ih1 ih2 =>
    intro rest trest hr ht
    obtain ⟨ts₂, hts₂, e₂⟩ := ih2 rest trest hr ht
    obtain ⟨ts₁, hts₁, e₁⟩ := ih1 ('*' :: (s₂ ++ rest))
      (⟨.TK_RESERVED, 0, '*' :: (s₂ ++ rest), 1⟩ :: (ts₂ ++ trest))
      (by simp; decide) (by rw [tokenize_punct _ (by simp), e₂]; rfl)
    refine ⟨ts₁ ++ ⟨.TK_RESERVED, 0, '*' :: (s₂ ++ rest), 1⟩ :: ts₂,
      TokenPhrase.times _ _ _ _ _ hts₁ (isnt_punct _ _ _) hts₂, ?_⟩
    rw [List.append_assoc, List.cons_append, e₁]
    simp
  | over s₁ s₂ t₁ t₂ h1 h2 ih1 ih2 =>
    intro rest trest hr ht
    obtain ⟨ts₂, hts₂, e₂⟩ := ih2 rest trest hr ht
    obtain ⟨ts₁, hts₁, e₁⟩ := ih1 ('/' :: (s₂ ++ rest))
      (⟨.TK_RESERVED, 0, '/' :: (s₂ ++ rest), 1⟩ :: (ts₂ ++ trest))
      (by simp; decide) (by rw [tokenize_punct _ (by simp), e₂]; rfl)
    refine ⟨ts₁ ++ ⟨.TK_RESERVED, 0, '/' :: (s₂ ++ rest), 1⟩ :: ts₂,
      TokenPhrase.over _ _ _ _ _ hts₁ (isnt_punct _ _ _) hts₂, ?_⟩
    rw [List.append_assoc, List.cons_append, e₁]
    simp
  | additive s t hp ih =>
    intro rest trest hr ht
    obtain ⟨ts, hts, e⟩ := ih rest trest hr ht
    exact ⟨ts, TokenPhrase.additive _ _ hts, e⟩
  | sum s₁ s₂ t₁ t₂ h1 h2 ih1 ih2 =>
    intro rest trest hr ht
    obtain ⟨ts₂, hts₂, e₂⟩ := ih2 rest trest hr ht
    obtain ⟨ts₁, hts₁, e₁⟩ := ih1 ('+' :: (s₂ ++ rest))
      (⟨.TK_RESERVED, 0, '+' :: (s₂ ++ rest), 1⟩ :: (ts₂ ++ trest))
      (by simp; decide) (by rw [tokenize_punct _ (by simp), e₂]; rfl)
    refine ⟨ts₁ ++ ⟨.TK_RESERVED, 0, '+' :: (s₂ ++ rest), 1⟩ :: ts₂,
      TokenPhrase.sum _ _ _ _ _ hts₁ (isnt_punct _ _ _) hts₂, ?_⟩
    rw [List.append_assoc, List.cons_append, e₁]
    simp
  | difference s₁ s₂ t₁ t₂ h1 h2 ih1 ih2 =>
    intro rest trest hr ht
    obtain ⟨ts₂, hts₂, e₂⟩ := ih2 rest trest hr ht
    obtain ⟨ts₁, hts₁, e₁⟩ := ih1 ('-' :: (s₂ ++ rest))
      (⟨.TK_RESERVED, 0, '-' :: (s₂ ++ rest), 1⟩ :: (ts₂ ++ trest))
      (by simp; decide) (by rw [tokenize_punct _ (by simp), e₂]; rfl)
    refine ⟨ts₁ ++ ⟨.TK_RESERVED, 0, '-' :: (s₂ ++ rest), 1⟩ :: ts₂,
      TokenPhrase.difference _ _ _ _ _ hts₁ (isnt_punct _ _ _) hts₂, ?_⟩
    rw [List.append_assoc, List.cons_append, e₁]
    simp
  | equality s t hp ih =>
    intro rest trest hr ht
    obtain ⟨ts, hts, e⟩ := ih rest trest hr ht
    exact ⟨ts, TokenPhrase.equality _ _ hts, e⟩
  | equal s₁ s₂ t₁ t₂ h1 h2 ih1 ih2 =>
    intro rest trest hr ht
    obtain ⟨ts₂, hts₂, e₂⟩ := ih2 rest trest hr ht
    obtain ⟨ts₁, hts₁, e₁⟩ := ih1 ('=' :: '=' :: (s₂ ++ rest))
      (⟨.TK_RESERVED, 0, '=' :: '=' :: (s₂ ++ rest), 2⟩ :: (ts₂ ++ trest))
      (by simp; decide) (by rw [tokenize_eq_eq, e₂]; rfl)
    refine ⟨ts₁ ++ ⟨.TK_RESERVED, 0, '=' :: '=' :: (s₂ ++ rest), 2⟩ :: ts₂,
      TokenPhrase.equal _ _ _ _ _ hts₁ (isnt_eq_eq _ _) hts₂, ?_⟩
    rw [List.append_assoc, List.cons_append, List.cons_append, e₁]
    simp
  | expression s t hp ih =>
    intro rest trest hr ht
    obtain ⟨ts, hts, e⟩ := ih rest trest hr ht
    exact ⟨ts, TokenPhrase.expression _ _ hts, e⟩

theorem eof_isnt (op : List Char) : eof.isnt op = true := by
  simp [eof, Token.isnt]

theorem tokenize_nil_eof : tokenize [] = .ok [eof] := rfl

theorem Phrase.tokens_eof {r : Rule} {s : List Char} {t : Node} (h : Phrase r s t) :
    ∃ ts, TokenPhrase r ts (t.map stored) ∧ tokenize s = .ok (ts ++ [eof]) := by
  obtain ⟨ts, h1, h2⟩ := h.tokens [] [eof] (by simp) tokenize_nil_eof
  rw [List.append_nil] at h2
  exact ⟨ts, h1, h2⟩

theorem Phrase.parse_expr {s : List Char} {t : Node} (h : Phrase .expression s t) :
    (tokenize s).bind expr_run = .ok (t.map stored, [eof]) := by
  obtain ⟨ts, h1, h2⟩ := h.tokens_eof
  rw [h2]
  exact h1.parsed eof [] (eof_isnt _) (eof_isnt _) (eof_isnt _) (eof_isnt _) (eof_isnt _)

theorem Phrase.parse_primary {s : List Char} {t : Node} (h : Phrase .primary s t) :
    (tokenize s).bind primary_run = .ok (t.map stored, [eof]) := by
  obtain ⟨ts, h1, h2⟩ := h.tokens_eof
  rw [h2]
  exact h1.parsed [eof]

theorem Phrase.parse_unary {s : List Char} {t : Node} (h : Phrase .unary s t) :
    (tokenize s).bind unary_run = .ok (t.map stored, [eof]) := by
  obtain ⟨ts, h1, h2⟩ := h.tokens_eof
  rw [h2]
  exact h1.parsed [eof]

theorem stored_of_fits {v : Int} (h0 : 0 ≤ v) (h1 : v < 2 ^ 31) : stored v = v := by
  simp only [stored, to_int, LONG_MAX]
  norm_num at h1 ⊢
  rw [min_eq_left (by omega)]
  omega

theorem map_stored_of_fits {t : Node} (h : fits t = true) : t.map stored = t := by
  induction t with
  | num val =>
    simp only [fits, decide_eq_true_eq] at h
    simp [Node.map, stored_of_fits h.1 h.2]
  | bin kind lhs rhs ihl ihr =>
    simp only [fits, Bool.and_eq_true] at h
    simp [Node.map, ihl h.1, ihr h.2]

theorem main_body_of_phrase {s : List Char} {t : Node} (h : Phrase .expression s t) :
    main_body s = .ok (gen (t.map stored) ++ [.pop_rax, .ret]) := by
  have := h.parse_expr
  unfold main_body
  cases ht : tokenize s with
  | ok toks =>
    rw [ht] at this
    simp only [Result.bind] at this ⊢
    rw [this]
  | error_at loc fmt => rw [ht] at this; cases this
  | null => rw [ht] at this; cases this
  | fuel => rw [ht] at this; cases this

theorem run_main_code (t : Node) (h : noDivZero t = true) (m : Machine) :
    ∃ m', m.run (gen t ++ [.pop_rax, .ret]) = some m' ∧ m'.rax = eval t ∧
      m'.stack = m.stack := by
  obtain ⟨m1, h1, h2⟩ := run_gen t h m
  obtain ⟨st, a, b, d, z⟩ := m1
  simp only at h2
  subst h2
  rw [run_append, h1]
  exact ⟨_, rfl, rfl, rfl⟩

/-! ### End to end -/

theorem Phrase.literal {ds : List Char} (h : is_literal ds = true) :
    Phrase .primary ds (.num (decimal ds)) := by
  simp only [is_literal, Bool.and_eq_true, Bool.not_eq_true', List.isEmpty_eq_false,
    List.all_eq_true] at h
  exact Phrase.num ds (by simpa using h.1) h.2

theorem Phrase.primary_multiplicative {s : List Char} {t : Node} (h : Phrase .primary s t) :
    Phrase .multiplicative s t :=
  Phrase.multiplicative _ _ (Phrase.unary _ _ h)

theorem Phrase.multiplicative_expression {s : List Char} {t : Node}
    (h : Phrase .multiplicative s t) : Phrase .expression s t :=
  Phrase.expression _ _ (Phrase.equality _ _ (Phrase.additive _ _ h))

theorem Phrase.additive_expression {s : List Char} {t : Node}
    (h : Phrase .additive s t) : Phrase .expression s t :=
  Phrase.expression _ _ (Phrase.equality _ _ h)

theorem Phrase.mul_op {s₁ s₂ : List Char} {t₁ t₂ : Node} {op : NodeKind}
    (h : op = .ND_MUL ∨ op = .ND_DIV) (h1 : Phrase .multiplicative s₁ t₁)
    (h2 : Phrase .unary s₂ t₂) :
    Phrase .multiplicative (s₁ ++ op.symbol ++ s₂) (.bin op t₁ t₂) := by
  rcases h with rfl | rfl
  · simpa [NodeKind.symbol] using Phrase.times _ _ _ _ h1 h2
  · simpa [NodeKind.symbol] using Phrase.over _ _ _ _ h1 h2

theorem Phrase.add_op {s₁ s₂ : List Char} {t₁ t₂ : Node} {op : NodeKind}
    (h : op = .ND_ADD ∨ op = .ND_SUB) (h1 : Phrase .additive s₁ t₁)
    (h2 : Phrase .multiplicative s₂ t₂) :
    Phrase .additive (s₁ ++ op.symbol ++ s₂) (.bin op t₁ t₂) := by
  rcases h with rfl | rfl
  · simpa [NodeKind.symbol] using Phrase.sum _ _ _ _ h1 h2
  · simpa [NodeKind.symbol] using Phrase.difference _ _ _ _ h1 h2

theorem Phrase.eq_op {s₁ s₂ : List Char} {t₁ t₂ : Node} {op : NodeKind}
    (h : op = .ND_EQ) (h1 : Phrase .equality s₁ t₁) (h2 : Phrase .additive s₂ t₂) :
    Phrase .equality (s₁ ++ op.symbol ++ s₂) (.bin op t₁ t₂) := by
  subst h
  simpa [NodeKind.symbol] using Phrase.equal _ _ _ _ h1 h2

theorem run64_append (m : Machine) (xs ys : List Instr) :
    m.run64 (xs ++ ys) = (m.run64 xs).bind fun m' => m'.run64 ys := by
  induction xs generalizing m with
  | nil => simp [Machine.run64]
  | cons i is ih =>
    simp only [List.cons_append, Machine.run64]
    cases h : m.step64 i with
    | none => simp
    | some m' => simpa using ih m'

theorem wrap64_of_in_int64 {x : Int} (h : in_int64 x = true) : wrap64 x = x := by
  simp only [in_int64, decide_eq_true_eq] at h
  simp only [wrap64]
  norm_num at h ⊢
  omega

/-- Running `gen t` on the 64-bit machine pushes `eval t`, when the literals
are in the range of `int`, no divisor is zero and no operation overflows. -/
theorem run64_gen (t : Node) (hf : fits t = true) (hz : noDivZero t = true)
    (ho : no_overflow t = true) (m : Machine) :
    ∃ m', m.run64 (gen t) = some m' ∧ m'.stack = eval t :: m.stack := by
  induction t generalizing m with
  | num val =>
    simp only [fits, decide_eq_true_eq] at hf
    have h31 : -(2 ^ 31) ≤ val ∧ val < 2 ^ 31 := ⟨by omega, hf.2⟩
    refine ⟨{ m with stack := val :: m.stack }, ?_, rfl⟩
    simp only [gen, Machine.run64, Machine.step64, if_pos h31]
  | bin kind lhs rhs ihl ihr =>
    simp only [fits, Bool.and_eq_true] at hf
    simp only [no_overflow, Bool.and_eq_true] at ho
    simp only [noDivZero, Bool.and_eq_true, Bool.not_eq_true', Bool.and_eq_false_imp,
      beq_iff_eq, beq_eq_false_iff_ne] at hz
    obtain ⟨⟨hl, hr⟩, hz⟩ := hz
    obtain ⟨m1, h1, s1⟩ := ihl hf.1 hl ho.1.1 m
    obtain ⟨m2, h2, s2⟩ := ihr hf.2 hr ho.1.2 m1
    obtain ⟨st, a, b, d, z⟩ := m2
    simp only at s2
    subst s2
    rw [s1] at h2
    have hz' : kind = .ND_DIV → ¬ eval rhs = 0 := hz
    have hw := wrap64_of_in_int64 ho.2
    have hq := ho.2
    simp only [gen, List.append_assoc, run64_append, h1, h2, Option.some_bind]
    cases kind <;> simp only [eval] at hw hq <;>
      simp [gen_switch, Machine.run64, Machine.step64, eval, sete_movzb, hz', hw, hq]

theorem run64_main_code (t : Node) (hf : fits t = true) (hz : noDivZero t = true)
    (ho : no_overflow t = true) (m : Machine) :
    ∃ m', m.run64 (gen t ++ [.pop_rax, .ret]) = some m' ∧ m'.rax = eval t ∧
      m'.stack = m.stack := by
  obtain ⟨m1, h1, h2⟩ := run64_gen t hf hz ho m
  obtain ⟨st, a, b, d, z⟩ := m1
  simp only at h2
  subst h2
  rw [run64_append, h1]
  exact ⟨_, rfl, rfl, rfl⟩

/-- C2 (as stated, fails): three expressions of the grammar for which the code
`main` emits does not leave the value. `2147483648` has value 2147483648, but
its code leaves -2147483648 in `rax`; `1/0` is an expression for which the code
stops at the division and leaves nothing;
`2147483647*2147483647*2147483647` has value 9903520300447984150353281023, but
the second `imul` overflows the 64-bit register and the code leaves
4611686024869838847. -/
theorem end_to_end_counterexample :
    (Phrase .expression "2147483648".toList (.num 2147483648) ∧
      main_body "2147483648".toList = .ok [.push (-2147483648), .pop_rax, .ret] ∧
      ((Machine.mk [] 0 0 0 false).run64 [.push (-2147483648), .pop_rax, .ret]).map
        Machine.rax = some (-2147483648) ∧
      (-2147483648 : Int) ≠ eval (.num 2147483648)) ∧
    (Phrase .expression "1/0".toList (.bin .ND_DIV (.num 1) (.num 0)) ∧
      main_body "1/0".toList = .ok [.push 1, .push 0, .pop_rdi, .pop_rax, .cqo,
        .idiv_rax_rdi, .push_rax, .pop_rax, .ret] ∧
      (Machine.mk [] 0 0 0 false).run64 [.push 1, .push 0, .pop_rdi, .pop_rax, .cqo,
        .idiv_rax_rdi, .push_rax, .pop_rax, .ret] = none) ∧
    (Phrase .expression "2147483647*2147483647*2147483647".toList
        (.bin .ND_MUL (.bin .ND_MUL (.num 2147483647) (.num 2147483647)) (.num 2147483647)) ∧
      main_body "2147483647*2147483647*2147483647".toList =
        .ok [.push 2147483647, .push 2147483647, .pop_rdi, .pop_rax, .imul_rax_rdi, .push_rax,
          .push 2147483647, .pop_rdi, .pop_rax, .imul_rax_rdi, .push_rax, .pop_rax, .ret] ∧
      ((Machine.mk [] 0 0 0 false).run64
        [.push 2147483647, .push 2147483647, .pop_rdi, .pop_rax, .imul_rax_rdi, .push_rax,
          .push 2147483647, .pop_rdi, .pop_rax, .imul_rax_rdi, .push_rax, .pop_rax,
          .ret]).map Machine.rax = some 4611686024869838847 ∧
      eval (.bin .ND_MUL (.bin .ND_MUL (.num 2147483647) (.num 2147483647))
        (.num 2147483647)) = 9903520300447984150353281023) := by
  have h3 : Phrase .expression "2147483647*2147483647*2147483647".toList
      (.bin .ND_MUL (.bin .ND_MUL (.num 2147483647) (.num 2147483647))
        (.num 2147483647)) :=
    (Phrase.times "2147483647*2147483647".toList "2147483647".toList _ _
      (Phrase.times "2147483647".toList "2147483647".toList _ _
        (@Phrase.literal "2147483647".toList (by decide)).primary_multiplicative
        (Phrase.unary _ _ (@Phrase.literal "2147483647".toList (by decide))))
      (Phrase.unary _ _
        (@Phrase.literal "2147483647".toList (by decide)))).multiplicative_expression
  refine ⟨⟨?_, by decide, by decide, by decide⟩, ⟨?_, by decide, by decide⟩,
    ⟨h3, main_body_of_phrase h3, by decide, by decide⟩⟩
  · exact (@Phrase.literal "2147483648".toList
      (by decide)).primary_multiplicative.multiplicative_expression
  · exact (Phrase.over ['1'] ['0'] _ _
      (@Phrase.literal ['1'] (by decide)).primary_multiplicative
      (Phrase.unary _ _ (@Phrase.literal ['0'] (by decide)))).multiplicative_expression

/-- C2 (amended): for every input that is an expression of the grammar, with
every literal at most `2 ^ 31 - 1`, no division by a zero-valued operand and no
operation whose result overflows a signed 64-bit register, `tokenize` and then
`expr` succeed with the tree of the grammar and the cursor at the end-of-input
token, `main` emits the code of that tree followed by the final pop and `ret`,
and running it on the 64-bit machine leaves the value of the expression in
`rax`. -/
theorem end_to_end (s : List Char) (t : Node) (h : Phrase .expression s t)
    (hf : fits t = true) (hz : noDivZero t = true) (ho : no_overflow t = true)
    (m : Machine) :
    (tokenize s).bind expr_run = .ok (t, [eof]) ∧
    main_body s = .ok (gen t ++ [.pop_rax, .ret]) ∧
    ∃ m', m.run64 (gen t ++ [.pop_rax, .ret]) = some m' ∧ m'.rax = eval t := by
  have e := map_stored_of_fits hf
  have h1 := h.parse_expr
  have h2 := main_body_of_phrase h
  rw [e] at h1 h2
  obtain ⟨m', h3, h4, _⟩ := run64_main_code t hf hz ho m
  exact ⟨h1, h2, m', h3, h4⟩

theorem end_to_end_witness :
    Phrase .expression "8/(1+2)".toList
      (.bin .ND_DIV (.num 8) (.bin .ND_ADD (.num 1) (.num 2))) ∧
    fits (.bin .ND_DIV (.num 8) (.bin .ND_ADD (.num 1) (.num 2))) = true ∧
    noDivZero (.bin .ND_DIV (.num 8) (.bin .ND_ADD (.num 1) (.num 2))) = true ∧
    no_overflow (.bin .ND_DIV (.num 8) (.bin .ND_ADD (.num 1) (.num 2))) = true ∧
    (tokenize "8/(1+2)".toList).bind expr_run =
      .ok (.bin .ND_DIV (.num 8) (.bin .ND_ADD (.num 1) (.num 2)), [eof]) ∧
    main_body "8/(1+2)".toList =
      .ok (gen (.bin .ND_DIV (.num 8) (.bin .ND_ADD (.num 1) (.num 2))) ++ [.pop_rax, .ret]) ∧
    (∃ m', (Machine.mk [] 0 0 0 false).run64
        (gen (.bin .ND_DIV (.num 8) (.bin .ND_ADD (.num 1) (.num 2))) ++ [.pop_rax, .ret]) =
        some m' ∧
      m'.rax = eval (.bin .ND_DIV (.num 8) (.bin .ND_ADD (.num 1) (.num 2)))) ∧
    eval (.bin .ND_DIV (.num 8) (.bin .ND_ADD (.num 1) (.num 2))) = 2 :=
  have h : Phrase .expression "8/(1+2)".toList
      (.bin .ND_DIV (.num 8) (.bin .ND_ADD (.num 1) (.num 2))) :=
    (Phrase.over ['8'] ['(', '1', '+', '2', ')'] _ _
      (@Phrase.literal ['8'] (by decide)).primary_multiplicative
      (Phrase.unary _ _ (Phrase.paren ['1', '+', '2'] _
        (Phrase.sum ['1'] ['2'] _ _
          (Phrase.additive _ _ (@Phrase.literal ['1'] (by decide)).primary_multiplicative)
          (@Phrase.literal ['2'] (by decide)).primary_multiplicative).additive_expression))).multiplicative_expression
  ⟨h, by decide, by decide, by decide,
    (end_to_end _ _ h (by decide) (by decide) (by decide) (Machine.mk [] 0 0 0 false)).1,
    (end_to_end _ _ h (by decide) (by decide) (by decide) (Machine.mk [] 0 0 0 false)).2.1,
    (end_to_end _ _ h (by decide) (by decide) (by decide) (Machine.mk [] 0 0 0 false)).2.2,
    by decide⟩

/-! ### Precedence and associativity -/

/-- C4: for all literals `a`, `b`, `c`, every `op1` of `+ -` and every `op2` of
`* /`, the input `a op1 b op2 c` is parsed to `op1(a, op2(b, c))` and the input
`a op2 b op1 c` to `op1(op2(a, b), c)`, with the cursor left at the
end-of-input token; the operands are the nodes to which the literals are
parsed on their own, each with the value the tokenizer stored. -/
theorem precedence (a b c : List Char) (op1 op2 : NodeKind)
    (ha : is_literal a = true) (hb : is_literal b = true) (hc : is_literal c = true)
    (h1 : op1 = .ND_ADD ∨ op1 = .ND_SUB) (h2 : op2 = .ND_MUL ∨ op2 = .ND_DIV) :
    (tokenize (a ++ op1.symbol ++ (b ++ op2.symbol ++ c))).bind expr_run =
      .ok (.bin op1 (.num (stored (decimal a)))
        (.bin op2 (.num (stored (decimal b))) (.num (stored (decimal c)))), [eof]) ∧
    (tokenize (a ++ op2.symbol ++ b ++ op1.symbol ++ c)).bind expr_run =
      .ok (.bin op1 (.bin op2 (.num (stored (decimal a))) (.num (stored (decimal b))))
        (.num (stored (decimal c))), [eof]) ∧
    (tokenize a).bind expr_run = .ok (.num (stored (decimal a)), [eof]) ∧
    (tokenize b).bind expr_run = .ok (.num (stored (decimal b)), [eof]) ∧
    (tokenize c).bind expr_run = .ok (.num (stored (decimal c)), [eof]) := by
  have pa := Phrase.literal ha
  have pb := Phrase.literal hb
  have pc := Phrase.literal hc
  refine ⟨?_, ?_, pa.primary_multiplicative.multiplicative_expression.parse_expr,
    pb.primary_multiplicative.multiplicative_expression.parse_expr,
    pc.primary_multiplicative.multiplicative_expression.parse_expr⟩
  · exact (Phrase.add_op h1 (Phrase.additive _ _ pa.primary_multiplicative)
      (Phrase.mul_op h2 pb.primary_multiplicative
        (Phrase.unary _ _ pc))).additive_expression.parse_expr
  · exact (Phrase.add_op h1
      (Phrase.additive _ _ (Phrase.mul_op h2 pa.primary_multiplicative (Phrase.unary _ _ pb)))
      pc.primary_multiplicative).additive_expression.parse_expr

theorem precedence_witness :
    is_literal "1".toList = true ∧ is_literal "2".toList = true ∧
    is_literal "3".toList = true ∧
    (tokenize "1+2*3".toList).bind expr_run =
      .ok (.bin .ND_ADD (.num 1) (.bin .ND_MUL (.num 2) (.num 3)), [eof]) ∧
    (tokenize "1*2+3".toList).bind expr_run =
      .ok (.bin .ND_ADD (.bin .ND_MUL (.num 1) (.num 2)) (.num 3), [eof]) ∧
    eval (.bin .ND_ADD (.num 1) (.bin .ND_MUL (.num 2) (.num 3))) = 7 :=
  ⟨by decide, by decide, by decide,
    (precedence "1".toList "2".toList "3".toList .ND_ADD .ND_MUL (by decide) (by decide)
      (by decide) (Or.inl rfl) (Or.inl rfl)).1,
    (precedence "1".toList "2".toList "3".toList .ND_ADD .ND_MUL (by decide) (by decide)
      (by decide) (Or.inl rfl) (Or.inl rfl)).2.1, by decide⟩

theorem chain_tree_map (val : List Char → Int) (f : Int → Int) (t : Node)
    (items : List (NodeKind × List Char)) :
    (chain_tree val t items).map f = chain_tree (fun x => f (val x)) (t.map f) items := by
  induction items generalizing t with
  | nil => rfl
  | cons i items ih =>
    obtain ⟨o, x⟩ := i
    simp only [chain_tree, ih, Node.map]

theorem Phrase.chain_mul (items : List (NodeKind × List Char)) {s : List Char} {t : Node}
    (h : Phrase .multiplicative s t)
    (ho : ∀ i ∈ items, i.1 = .ND_MUL ∨ i.1 = .ND_DIV)
    (hx : ∀ i ∈ items, is_literal i.2 = true) :
    Phrase .multiplicative (chain_text s items)
      (chain_tree (fun x => (decimal x : Int)) t items) := by
  induction items generalizing s t with
  | nil => exact h
  | cons i items ih =>
    obtain ⟨o, x⟩ := i
    exact ih (Phrase.mul_op (ho (o, x) (by simp)) h (Phrase.unary _ _ (Phrase.literal (hx (o, x) (by simp)))))
      (fun i hi => ho i (by simp [hi])) (fun i hi => hx i (by simp [hi]))

theorem Phrase.chain_add (items : List (NodeKind × List Char)) {s : List Char} {t : Node}
    (h : Phrase .additive s t)
    (ho : ∀ i ∈ items, i.1 = .ND_ADD ∨ i.1 = .ND_SUB)
    (hx : ∀ i ∈ items, is_literal i.2 = true) :
    Phrase .additive (chain_text s items)
      (chain_tree (fun x => (decimal x : Int)) t items) := by
  induction items generalizing s t with
  | nil => exact h
  | cons i items ih =>
    obtain ⟨o, x⟩ := i
    exact ih (Phrase.add_op (ho (o, x) (by simp)) h (Phrase.literal (hx (o, x) (by simp))).primary_multiplicative)
      (fun i hi => ho i (by simp [hi])) (fun i hi => hx i (by simp [hi]))

theorem Phrase.chain_eq (items : List (NodeKind × List Char)) {s : List Char} {t : Node}
    (h : Phrase .equality s t)
    (ho : ∀ i ∈ items, i.1 = .ND_EQ)
    (hx : ∀ i ∈ items, is_literal i.2 = true) :
    Phrase .equality (chain_text s items)
      (chain_tree (fun x => (decimal x : Int)) t items) := by
  induction items generalizing s t with
  | nil => exact h
  | cons i items ih =>
    obtain ⟨o, x⟩ := i
    exact ih (Phrase.eq_op (ho (o, x) (by simp)) h
        (Phrase.additive _ _ (Phrase.literal (hx (o, x) (by simp))).primary_multiplicative))
      (fun i hi => ho i (by simp [hi])) (fun i hi => hx i (by simp [hi]))

/-- C5: for all literals `x0 .. xn` and operators `o1 .. on` of one precedence
level (`+ -`, or `* /`, or `==`), the input `x0 o1 x1 ... on xn` is parsed to
the left fold `on(... o2(o1(x0, x1), x2) ..., xn)`: the tree built so far is the
left child of each new node. The operands are the nodes to which the literals
are parsed on their own, each with the value the tokenizer stored. -/
theorem left_associative (x0 : List Char) (items : List (NodeKind × List Char))
    (h0 : is_literal x0 = true) (hx : ∀ i ∈ items, is_literal i.2 = true)
    (hl : one_level items) :
    (tokenize (chain_text x0 items)).bind expr_run =
      .ok (chain_tree (fun x => stored (decimal x)) (.num (stored (decimal x0))) items,
        [eof]) ∧
    (tokenize x0).bind expr_run = .ok (.num (stored (decimal x0)), [eof]) ∧
    ∀ i ∈ items, (tokenize i.2).bind expr_run = .ok (.num (stored (decimal i.2)), [eof]) := by
  have p0 := Phrase.literal h0
  refine ⟨?_, p0.primary_multiplicative.multiplicative_expression.parse_expr, fun i hi =>
    (Phrase.literal (hx i hi)).primary_multiplicative.multiplicative_expression.parse_expr⟩
  have e := chain_tree_map (fun x => (decimal x : Int)) stored (.num (decimal x0)) items
  simp only [Node.map] at e
  rw [← e]
  rcases hl with hl | hl | hl
  · exact (Phrase.chain_add items (Phrase.additive _ _ p0.primary_multiplicative) hl
      hx).additive_expression.parse_expr
  · exact (Phrase.chain_mul items p0.primary_multiplicative hl
      hx).multiplicative_expression.parse_expr
  · exact (Phrase.expression _ _ (Phrase.chain_eq items
      (Phrase.equality _ _ (Phrase.additive _ _ p0.primary_multiplicative)) hl hx)).parse_expr

theorem left_associative_witness :
    is_literal "8".toList = true ∧
    (∀ i ∈ [(NodeKind.ND_SUB, "3".toList), (NodeKind.ND_SUB, "2".toList)],
      is_literal i.2 = true) ∧
    one_level [(NodeKind.ND_SUB, "3".toList), (NodeKind.ND_SUB, "2".toList)] ∧
    (tokenize "8-3-2".toList).bind expr_run =
      .ok (.bin .ND_SUB (.bin .ND_SUB (.num 8) (.num 3)) (.num 2), [eof]) ∧
    eval (.bin .ND_SUB (.bin .ND_SUB (.num 8) (.num 3)) (.num 2)) = 3 :=
  ⟨by decide, by decide, Or.inl (by decide),
    (left_associative "8".toList [(NodeKind.ND_SUB, "3".toList), (NodeKind.ND_SUB, "2".toList)]
      (by decide) (by decide) (Or.inl (by decide))).1, by decide⟩

/-! ### Parentheses, unary minus, equality -/

/-- C6: for every expression `e` of the grammar, `expr` on the tokens of `e`
and `primary` on the tokens of `(e)` return the same tree, both with the cursor
at the end-of-input token, so that both parentheses are consumed and no node is
added; and `(e)` followed by `*` or `/` and a unary phrase is parsed to the
node of that operator with the tree of `e` as its left operand. -/
theorem parenthesized (s : List Char) (t : Node) (h : Phrase .expression s t) :
    (tokenize s).bind expr_run = .ok (t.map stored, [eof]) ∧
    (tokenize ('(' :: s ++ [')'])).bind primary_run = .ok (t.map stored, [eof]) ∧
    ∀ (op : NodeKind) (s₂ : List Char) (t₂ : Node), op = .ND_MUL ∨ op = .ND_DIV →
      Phrase .unary s₂ t₂ →
      (tokenize (('(' :: s ++ [')']) ++ op.symbol ++ s₂)).bind expr_run =
        .ok (.bin op (t.map stored) (t₂.map stored), [eof]) :=
  ⟨h.parse_expr, (Phrase.paren s t h).parse_primary, fun _ _ _ ho h₂ =>
    (Phrase.mul_op ho (Phrase.paren s t h).primary_multiplicative
      h₂).multiplicative_expression.parse_expr⟩

theorem parenthesized_witness :
    Phrase .expression "1+2".toList (.bin .ND_ADD (.num 1) (.num 2)) ∧
    (tokenize "1+2".toList).bind expr_run = .ok (.bin .ND_ADD (.num 1) (.num 2), [eof]) ∧
    (tokenize "(1+2)".toList).bind primary_run =
      .ok (.bin .ND_ADD (.num 1) (.num 2), [eof]) ∧
    (tokenize "(1+2)*3".toList).bind expr_run =
      .ok (.bin .ND_MUL (.bin .ND_ADD (.num 1) (.num 2)) (.num 3), [eof]) ∧
    eval (.bin .ND_MUL (.bin .ND_ADD (.num 1) (.num 2)) (.num 3)) = 9 :=
  have h : Phrase .expression "1+2".toList (.bin .ND_ADD (.num 1) (.num 2)) :=
    (Phrase.sum ['1'] ['2'] _ _
      (Phrase.additive _ _ (@Phrase.literal ['1'] (by decide)).primary_multiplicative)
      (@Phrase.literal ['2'] (by decide)).primary_multiplicative).additive_expression
  ⟨h, (parenthesized _ _ h).1, (parenthesized _ _ h).2.1,
    (parenthesized _ _ h).2.2 .ND_MUL ['3'] (.num 3) (Or.inl rfl)
      (Phrase.unary _ _ (@Phrase.literal ['3'] (by decide))), by decide⟩

/-- C7: for every primary `p` of the grammar (a literal or a parenthesized
expression) with tree `AST(p)`, `unary` on the tokens of `-p` returns
`ND_SUB(num 0, AST(p))`, whose value is the negation of the value of `AST(p)`;
and a node has one of the five binary kinds, none of them a negation. -/
theorem unary_minus (s : List Char) (t : Node) (h : Phrase .primary s t) :
    (tokenize s).bind primary_run = .ok (t.map stored, [eof]) ∧
    (tokenize ('-' :: s)).bind unary_run =
      .ok (.bin .ND_SUB (.num 0) (t.map stored), [eof]) ∧
    eval (.bin .ND_SUB (.num 0) (t.map stored)) = - eval (t.map stored) ∧
    ∀ kind : NodeKind, kind = .ND_ADD ∨ kind = .ND_SUB ∨ kind = .ND_MUL ∨ kind = .ND_DIV ∨
      kind = .ND_EQ := by
  refine ⟨h.parse_primary, ?_, by simp [eval], fun kind => by cases kind <;> simp⟩
  have := (Phrase.minus s t h).parse_unary
  simpa [Node.map, stored_zero] using this

theorem unary_minus_witness :
    Phrase .primary "(2+3)".toList (.bin .ND_ADD (.num 2) (.num 3)) ∧
    (tokenize "-(2+3)".toList).bind unary_run =
      .ok (.bin .ND_SUB (.num 0) (.bin .ND_ADD (.num 2) (.num 3)), [eof]) ∧
    eval (.bin .ND_SUB (.num 0) (.bin .ND_ADD (.num 2) (.num 3))) = -5 ∧
    (tokenize "-5+8".toList).bind expr_run =
      .ok (.bin .ND_ADD (.bin .ND_SUB (.num 0) (.num 5)) (.num 8), [eof]) ∧
    eval (.bin .ND_ADD (.bin .ND_SUB (.num 0) (.num 5)) (.num 8)) = 3 :=
  have h : Phrase .primary "(2+3)".toList (.bin .ND_ADD (.num 2) (.num 3)) :=
    Phrase.paren ['2', '+', '3'] _ (Phrase.sum ['2'] ['3'] _ _
      (Phrase.additive _ _ (@Phrase.literal ['2'] (by decide)).primary_multiplicative)
      (@Phrase.literal ['3'] (by decide)).primary_multiplicative).additive_expression
  ⟨h, (unary_minus _ _ h).2.1, by decide, by decide, by decide⟩

theorem run_append_some {m m' : Machine} {xs ys : List Instr}
    (h : m.run (xs ++ ys) = some m') : ∃ m₁, m.run xs = some m₁ ∧ m₁.run ys = some m' := by
  rw [run_append] at h
  cases h1 : m.run xs with
  | none => rw [h1] at h; cases h
  | some m₁ => rw [h1] at h; exact ⟨m₁, rfl, h⟩

theorem run_eq_tail (m m' : Machine)
    (h : m.run [.cmp_rax_rdi, .sete_al, .movzb_rax_al, .push_rax] = some m') :
    m'.stack = (if m.rax = m.rdi then 1 else 0) :: m.stack := by
  simp only [Machine.run, Machine.step, Option.some.injEq, sete_movzb] at h
  rw [← h]
  simp

/-- C8 (as stated, fails): the literals `4294967296` and `0` denote different
numbers, so that the claim has 0 left, but `4294967296==0` is parsed to
`ND_EQ(num 0, num 0)` and its code leaves 1. -/
theorem equality_counterexample :
    is_literal "4294967296".toList = true ∧ is_literal "0".toList = true ∧
    (if decimal "4294967296".toList = decimal "0".toList then (1 : Int) else 0) = 0 ∧
    (tokenize "4294967296==0".toList).bind expr_run =
      .ok (.bin .ND_EQ (.num 0) (.num 0), [eof]) ∧
    ((Machine.mk [] 0 0 0 false).run (gen (.bin .ND_EQ (.num 0) (.num 0)))).map
      Machine.stack = some [1] := by
  refine ⟨by decide, by decide, by decide, by decide, by decide⟩

/-- C8 (amended): for all literals `a` and `b` below `2 ^ 31`, the input `a==b`
is parsed to `ND_EQ(a, b)` and running its code pushes 1 if `a = b` and 0
otherwise; and whenever the code of a tree `ND_EQ(l, r)` runs to its end, the
value on top of the stack is 0 or 1. -/
theorem equality_result (a b : List Char) (ha : is_literal a = true)
    (hb : is_literal b = true) (ra : decimal a < 2 ^ 31) (rb : decimal b < 2 ^ 31)
    (m : Machine) :
    (tokenize (a ++ '=' :: '=' :: b)).bind expr_run =
      .ok (.bin .ND_EQ (.num (decimal a)) (.num (decimal b)), [eof]) ∧
    (∃ m', m.run (gen (.bin .ND_EQ (.num (decimal a)) (.num (decimal b)))) = some m' ∧
      m'.stack = (if decimal a = decimal b then 1 else 0) :: m.stack) ∧
    ∀ (l r : Node) (m₀ m₁ : Machine), m₀.run (gen (.bin .ND_EQ l r)) = some m₁ →
      ∃ rest, m₁.stack = 0 :: rest ∨ m₁.stack = 1 :: rest := by
  refine ⟨?_, ?_, ?_⟩
  · have h := (Phrase.expression _ _ (Phrase.equal a b _ _
      (Phrase.equality _ _ (Phrase.additive _ _ (Phrase.literal ha).primary_multiplicative))
      (Phrase.additive _ _ (Phrase.literal hb).primary_multiplicative))).parse_expr
    have ea : stored (decimal a) = decimal a :=
      stored_of_fits (by positivity) (by exact_mod_cast ra)
    have eb : stored (decimal b) = decimal b :=
      stored_of_fits (by positivity) (by exact_mod_cast rb)
    simpa [Node.map, ea, eb] using h
  · obtain ⟨m', h1, h2⟩ := run_gen (.bin .ND_EQ (.num (decimal a)) (.num (decimal b))) rfl m
    refine ⟨m', h1, ?_⟩
    rw [h2]
    simp [eval]
  · intro l r m₀ m₁ h
    simp only [gen, gen_switch, List.append_assoc] at h
    obtain ⟨m₂, _, h⟩ := run_append_some h
    obtain ⟨m₃, _, h⟩ := run_append_some h
    obtain ⟨m₄, _, h⟩ := run_append_some h
    have := run_eq_tail m₄ m₁ h
    refine ⟨m₄.stack, ?_⟩
    rw [this]
    split
    · exact Or.inr rfl
    · exact Or.inl rfl

theorem equality_result_witness :
    is_literal "1".toList = true ∧ is_literal "2".toList = true ∧
    decimal "1".toList < 2 ^ 31 ∧ decimal "2".toList < 2 ^ 31 ∧
    (tokenize "1==2".toList).bind expr_run = .ok (.bin .ND_EQ (.num 1) (.num 2), [eof]) ∧
    (∃ m', (Machine.mk [] 0 0 0 false).run (gen (.bin .ND_EQ (.num 1) (.num 2))) = some m' ∧
      m'.stack = [0]) ∧
    (tokenize "1==1".toList).bind expr_run = .ok (.bin .ND_EQ (.num 1) (.num 1), [eof]) ∧
    ((Machine.mk [] 0 0 0 false).run (gen (.bin .ND_EQ (.num 1) (.num 1)))).map
      Machine.stack = some [1] :=
  ⟨by decide, by decide, by decide, by decide,
    (equality_result "1".toList "2".toList (by decide) (by decide) (by decide) (by decide)
      (Machine.mk [] 0 0 0 false)).1,
    (equality_result "1".toList "2".toList (by decide) (by decide) (by decide) (by decide)
      (Machine.mk [] 0 0 0 false)).2.1, by decide, by decide⟩

/-! ### Lexical errors -/

theorem dropWhile_append_stop (p : Char → Bool) (l : List Char) (c : Char)
    (post : List Char) (h : p c = false) :
    (l ++ c :: post).dropWhile p = l.dropWhile p ++ c :: post := by
  induction l with
  | nil => simp [h]
  | cons d l ih =>
    simp only [List.cons_append, List.dropWhile_cons]
    split
    · exact ih
    · rfl

theorem mem_of_mem_dropWhile (p : Char → Bool) (l : List Char) (x : Char)
    (h : x ∈ l.dropWhile p) : x ∈ l :=
  (List.dropWhile_suffix p).subset h

theorem new_token_error (kind : TokenKind) (val : Int) (str : List Char) (len : Nat)
    (loc : List Char) (fmt : String) :
    new_token kind val str len (.error_at loc fmt) = .error_at loc fmt := rfl

theorem tokenize_plain_cons {d : Char} (cs : List Char) (h : is_plain d = true) :
    tokenize (d :: cs) = tokenize cs ∨
    tokenize (d :: cs) = new_token .TK_RESERVED 0 (d :: cs) 1 (tokenize cs) ∨
    (isdigit d = true ∧ tokenize (d :: cs) =
      new_token .TK_NUM (to_int (strtol (d :: cs)).1) (d :: cs) 0
        (tokenize (cs.dropWhile isdigit))) := by
  by_cases hs : isspace d = true
  · exact Or.inl (tokenize_space cs hs)
  · by_cases hp : d ∈ ['+', '-', '*', '/', '(', ')']
    · exact Or.inr (Or.inl (tokenize_punct cs hp))
    · have hd : isdigit d = true := by
        simpa [is_plain, hs, hp] using h
      have h2 : startswith (d :: cs) ['=', '='] = false := by
        have : d ≠ '=' := ne_of_isdigit hd (by decide)
        simp [startswith, this]
      refine Or.inr (Or.inr ⟨hd, ?_⟩)
      rw [tokenize_cons, if_neg hs, if_neg (by simp [h2]), if_neg hp, if_pos hd]
      simp [strtol, hd]

theorem tokenize_stops (c : Char) (post : List Char) (hc : is_plain c = false)
    (he : c ≠ '=') (n : Nat) (pre : List Char) (hn : pre.length ≤ n)
    (hpre : ∀ x ∈ pre, is_plain x = true) :
    tokenize (pre ++ c :: post) = .error_at (c :: post) "expected a number" := by
  simp only [is_plain, Bool.or_eq_false_iff, decide_eq_false_iff_not] at hc
  obtain ⟨⟨hs, hd⟩, hp⟩ := hc
  induction n generalizing pre with
  | zero =>
    have : pre = [] := List.eq_nil_of_length_eq_zero (by omega)
    subst this
    rw [List.nil_append, tokenize_cons, if_neg (by simp [hs]),
      if_neg (by simp [startswith, he]), if_neg hp, if_neg (by simp [hd])]
  | succ n ih =>
    cases pre with
    | nil =>
      rw [List.nil_append, tokenize_cons, if_neg (by simp [hs]),
        if_neg (by simp [startswith, he]), if_neg hp, if_neg (by simp [hd])]
    | cons d pre =>
      have hrec := ih pre (by simp at hn; omega) fun x hx => hpre x (by simp [hx])
      rcases tokenize_plain_cons (pre ++ c :: post) (hpre d (by simp)) with e | e | ⟨_, e⟩
      · rw [List.cons_append, e, hrec]
      · rw [List.cons_append, e, hrec, new_token_error]
      · rw [List.cons_append, e, dropWhile_append_stop _ _ _ _ hd,
          ih (pre.dropWhile isdigit)
            (by have := dropWhile_length_le isdigit pre; simp at hn; omega)
            (fun x hx => hpre x (by simp [mem_of_mem_dropWhile _ _ _ hx])),
          new_token_error]

theorem tokenize_plain (n : Nat) (s : List Char) (hn : s.length ≤ n)
    (hs : ∀ x ∈ s, is_plain x = true) : ∃ toks, tokenize s = .ok toks := by
  induction n generalizing s with
  | zero =>
    have : s = [] := List.eq_nil_of_length_eq_zero (by omega)
    subst this
    exact ⟨_, rfl⟩
  | succ n ih =>
    cases s with
    | nil => exact ⟨_, rfl⟩
    | cons d s =>
      obtain ⟨toks, h⟩ := ih s (by simp at hn; omega) fun x hx => hs x (by simp [hx])
      rcases tokenize_plain_cons s (hs d (by simp)) with e | e | ⟨_, e⟩
      · exact ⟨toks, by rw [e, h]⟩
      · exact ⟨_, by rw [e, h]; rfl⟩
      · obtain ⟨toks', h'⟩ := ih (s.dropWhile isdigit)
          (by have := dropWhile_length_le isdigit s; simp at hn; omega)
          (fun x hx => hs x (by simp [mem_of_mem_dropWhile _ _ _ hx]))
        exact ⟨_, by rw [e, h']; rfl⟩

/-- C10: if every character of the input before offset `i` is whitespace, a
digit or one of `+ - * / ( )`, and the character at offset `i` is none of
these and not `=`, then `tokenize` ends in `error_at` at that character and
the reported position is `i`; and if every character of an input is
whitespace, a digit or one of `+ - * / ( )`, `tokenize` returns its tokens. -/
theorem lexical_error :
    (∀ (s : List Char) (i : Nat) (c : Char), s[i]? = some c →
      (∀ x ∈ s.take i, is_plain x = true) → is_plain c = false → c ≠ '=' →
      tokenize s = .error_at (s.drop i) "expected a number" ∧
        (s.drop i).head? = some c ∧ error_pos s (s.drop i) = i) ∧
    (∀ s : List Char, (∀ x ∈ s, is_plain x = true) → ∃ toks, tokenize s = .ok toks) := by
  refine ⟨fun s i c hi hpre hc he => ?_, fun s hs => tokenize_plain s.length s (Nat.le_refl _) hs⟩
  have hlt : i < s.length := by
    by_contra hge
    rw [List.getElem?_eq_none (by omega)] at hi
    cases hi
  have hd : s.drop i = c :: s.drop (i + 1) := by
    rw [List.drop_eq_getElem_cons hlt]
    rw [List.getElem?_eq_getElem hlt] at hi
    cases hi
    rfl
  refine ⟨?_, by rw [hd]; rfl, ?_⟩
  · have := tokenize_stops c (s.drop (i + 1)) hc he (s.take i).length (s.take i)
      (Nat.le_refl _) hpre
    rw [← hd, List.take_append_drop] at this
    exact this
  · simp only [error_pos, List.length_drop]
    omega

theorem lexical_error_witness :
    ("1+&".toList)[2]? = some '&' ∧ (∀ x ∈ "1+&".toList.take 2, is_plain x = true) ∧
    is_plain '&' = false ∧
    (tokenize "1+&".toList = .error_at "&".toList "expected a number" ∧
      ("&".toList).head? = some '&' ∧ error_pos "1+&".toList "&".toList = 2) ∧
    (∀ x ∈ "1+ 2".toList, is_plain x = true) ∧ ∃ toks, tokenize "1+ 2".toList = .ok toks :=
  ⟨by decide, by decide, by decide,
    lexical_error.1 "1+&".toList 2 '&' (by decide) (by decide) (by decide) (by decide),
    by decide, lexical_error.2 "1+ 2".toList (by decide)⟩

/-! ### Whitespace -/

theorem Result.rel_bind {α β γ δ : Type} {R : α → β → Prop} {S : γ → δ → Prop}
    {r : Result α} {r' : Result β} {f : α → Result γ} {f' : β → Result δ}
    (h : Result.Rel R r r') (hf : ∀ a b, R a b → Result.Rel S (f a) (f' b)) :
    Result.Rel S (r.bind f) (r'.bind f') := by
  cases r <;> cases r' <;> simp only [Result.Rel] at h <;>
    first
    | exact hf _ _ h
    | exact h

theorem isnt_of_view {tok tok' : Token} (h : tok.view = tok'.view) (op : List Char) :
    tok.isnt op = tok'.isnt op := by
  simp only [Token.view, Prod.mk.injEq] at h
  obtain ⟨h1, _, h3, h4⟩ := h
  rw [h3] at h4
  simp only [Token.isnt, h1, h3, h4]

theorem consume_view (op : List Char) {tk tk' : List Token} (h : same_view tk tk') :
    Result.Rel (fun c c' => c.1 = c'.1 ∧ same_view c.2 c'.2) (consume op tk)
      (consume op tk') := by
  cases tk with
  | nil =>
    cases tk' with
    | nil => exact trivial
    | cons tok' next' => simp [same_view] at h
  | cons tok next =>
    cases tk' with
    | nil => simp [same_view] at h
    | cons tok' next' =>
      simp only [same_view, List.map_cons, List.cons.injEq] at h
      simp only [consume, isnt_of_view h.1 op]
      split
      · exact ⟨rfl, by simp [same_view, h.1, h.2]⟩
      · exact ⟨rfl, h.2⟩

theorem expect_view (op : List Char) {tk tk' : List Token} (h : same_view tk tk') :
    Result.Rel same_view (expect op tk) (expect op tk') := by
  cases tk with
  | nil =>
    cases tk' with
    | nil => exact trivial
    | cons tok' next' => simp [same_view] at h
  | cons tok next =>
    cases tk' with
    | nil => simp [same_view] at h
    | cons tok' next' =>
      simp only [same_view, List.map_cons, List.cons.injEq] at h
      simp only [expect, isnt_of_view h.1 op]
      split
      · exact rfl
      · exact h.2

theorem expect_number_view {tk tk' : List Token} (h : same_view tk tk') :
    Result.Rel (fun r r' => r.1 = r'.1 ∧ same_view r.2 r'.2) (expect_number tk)
      (expect_number tk') := by
  cases tk with
  | nil =>
    cases tk' with
    | nil => exact trivial
    | cons tok' next' => simp [same_view] at h
  | cons tok next =>
    cases tk' with
    | nil => simp [same_view] at h
    | cons tok' next' =>
      simp only [same_view, List.map_cons, List.cons.injEq] at h
      have hv := h.1
      simp only [Token.view, Prod.mk.injEq] at hv
      simp only [expect_number, hv.1]
      split
      · exact rfl
      · exact ⟨hv.2.1, h.2⟩

/-- The parser does not look at the positions of the tokens: on token lists
that differ in positions only it ends the same way, with the same tree. -/
theorem parse_view (n : Nat) :
    (∀ tk tk', same_view tk tk' → Result.Rel same_parse (expr n tk) (expr n tk')) ∧
    (∀ tk tk', same_view tk tk' → Result.Rel same_parse (equality n tk) (equality n tk')) ∧
    (∀ nd tk tk', same_view tk tk' →
      Result.Rel same_parse (equality_loop n nd tk) (equality_loop n nd tk')) ∧
    (∀ tk tk', same_view tk tk' → Result.Rel same_parse (add n tk) (add n tk')) ∧
    (∀ nd tk tk', same_view tk tk' →
      Result.Rel same_parse (add_loop n nd tk) (add_loop n nd tk')) ∧
    (∀ tk tk', same_view tk tk' → Result.Rel same_parse (mul n tk) (mul n tk')) ∧
    (∀ nd tk tk', same_view tk tk' →
      Result.Rel same_parse (mul_loop n nd tk) (mul_loop n nd tk')) ∧
    (∀ tk tk', same_view tk tk' → Result.Rel same_parse (unary n tk) (unary n tk')) ∧
    (∀ tk tk', same_view tk tk' → Result.Rel same_parse (primary n tk) (primary n tk')) := by
  induction n with
  | zero =>
    refine ⟨?_, ?_, ?_, ?_, ?_, ?_, ?_, ?_, ?_⟩ <;> intros <;>
      simp [expr, equality, equality_loop, add, add_loop, mul, mul_loop, unary, primary,
        Result.Rel]
  | succ n ih =>
    obtain ⟨h1, h2, h3, h4, h5, h6, h7, h8, h9⟩ := ih
    refine ⟨?_, ?_, ?_, ?_, ?_, ?_, ?_, ?_, ?_⟩
    · intro tk tk' hv
      rw [expr, expr]
      exact h2 _ _ hv
    · intro tk tk' hv
      rw [equality, equality]
      exact Result.rel_bind (h4 _ _ hv) fun r r' hr => by
        rw [hr.1]
        exact h3 _ _ _ hr.2
    · intro nd tk tk' hv
      rw [equality_loop, equality_loop]
      refine Result.rel_bind (consume_view _ hv) fun c c' hc => ?_
      rw [hc.1]
      split
      · exact Result.rel_bind (h4 _ _ hc.2) fun r r' hr => by
          rw [hr.1]
          exact h3 _ _ _ hr.2
      · exact ⟨rfl, hc.2⟩
    · intro tk tk' hv
      rw [add, add]
      exact Result.rel_bind (h6 _ _ hv) fun r r' hr => by
        rw [hr.1]
        exact h5 _ _ _ hr.2
    · intro nd tk tk' hv
      rw [add_loop, add_loop]
      refine Result.rel_bind (consume_view _ hv) fun c c' hc => ?_
      rw [hc.1]
      split
      · exact Result.rel_bind (h6 _ _ hc.2) fun r r' hr => by
          rw [hr.1]
          exact h5 _ _ _ hr.2
      · refine Result.rel_bind (consume_view _ hc.2) fun d d' hd => ?_
        rw [hd.1]
        split
        · exact Result.rel_bind (h6 _ _ hd.2) fun r r' hr => by
            rw [hr.1]
            exact h5 _ _ _ hr.2
        · exact ⟨rfl, hd.2⟩
    · intro tk tk' hv
      rw [mul, mul]
      exact Result.rel_bind (h8 _ _ hv) fun r r' hr => by
        rw [hr.1]
        exact h7 _ _ _ hr.2
    · intro nd tk tk' hv
      rw [mul_loop, mul_loop]
      refine Result.rel_bind (consume_view _ hv) fun c c' hc => ?_
      rw [hc.1]
      split
      · exact Result.rel_bind (h8 _ _ hc.2) fun r r' hr => by
          rw [hr.1]
          exact h7 _ _ _ hr.2
      · refine Result.rel_bind (consume_view _ hc.2) fun d d' hd => ?_
        rw [hd.1]
        split
        · exact Result.rel_bind (h8 _ _ hd.2) fun r r' hr => by
            rw [hr.1]
            exact h7 _ _ _ hr.2
        · exact ⟨rfl, hd.2⟩
    · intro tk tk' hv
      rw [unary, unary]
      refine Result.rel_bind (consume_view _ hv) fun c c' hc => ?_
      rw [hc.1]
      split
      · exact h9 _ _ hc.2
      · refine Result.rel_bind (consume_view _ hc.2) fun d d' hd => ?_
        rw [hd.1]
        split
        · exact Result.rel_bind (h9 _ _ hd.2) fun r r' hr => by
            rw [hr.1]
            exact ⟨rfl, hr.2⟩
        · exact h9 _ _ hd.2
    · intro tk tk' hv
      rw [primary, primary]
      refine Result.rel_bind (consume_view _ hv) fun c c' hc => ?_
      rw [hc.1]
      split
      · exact Result.rel_bind (h1 _ _ hc.2) fun r r' hr =>
          Result.rel_bind (expect_view _ hr.2) fun t t' ht => by
            rw [hr.1]
            exact ⟨rfl, ht⟩
      · exact Result.rel_bind (expect_number_view hc.2) fun r r' hr => by
          rw [hr.1]
          exact ⟨rfl, hr.2⟩

theorem expr_run_view {tk tk' : List Token} (h : same_view tk tk') :
    Result.Rel same_parse (expr_run tk) (expr_run tk') := by
  have hl : tk.length = tk'.length := by
    have := congrArg List.length h
    simpa using this
  rw [expr_run, expr_run, hl]
  exact (parse_view _).1 _ _ h

theorem isdigit_head_of_literal {ds : List Char} (h : is_literal ds = true) (s : List Char) :
    ∃ d, (ds ++ s).head? = some d ∧ isdigit d = true := by
  simp only [is_literal, Bool.and_eq_true, Bool.not_eq_true', List.isEmpty_eq_false,
    List.all_eq_true] at h
  cases ds with
  | nil => simp at h
  | cons d ds => exact ⟨d, rfl, h.2 d (by simp)⟩

theorem Spaced.head {s s' : List Char} (h : Spaced s s')
    (hs : ∀ c, s.head? = some c → isdigit c = false) :
    ∀ c, s'.head? = some c → isdigit c = false := by
  cases h with
  | nil => exact hs
  | insert w s s' hw h =>
    intro c hc
    simp only [List.head?_cons, Option.some.injEq] at hc
    subst hc
    cases hd : isdigit w with
    | false => rfl
    | true => rw [not_isspace_of_isdigit hd] at hw; cases hw
  | space c s s' hc h => exact hs
  | eq_eq s s' h => exact hs
  | punct c s s' hc h => exact hs
  | digits ds s s' hd hn h =>
    obtain ⟨d, h1, h2⟩ := isdigit_head_of_literal hd s
    rw [hs d h1] at h2
    cases h2

theorem Spaced.same_tokens {s s' : List Char} (h : Spaced s s') :
    ∃ toks toks', tokenize s = .ok toks ∧ tokenize s' = .ok toks' ∧ same_view toks toks' := by
  induction h with
  | nil => exact ⟨_, _, rfl, rfl, rfl⟩
  | insert w s s' hw h ih =>
    obtain ⟨toks, toks', h1, h2, h3⟩ := ih
    exact ⟨toks, toks', h1, by rw [tokenize_space _ hw, h2], h3⟩
  | space c s s' hc h ih =>
    obtain ⟨toks, toks', h1, h2, h3⟩ := ih
    exact ⟨toks, toks', by rw [tokenize_space _ hc, h1], by rw [tokenize_space _ hc, h2], h3⟩
  | eq_eq s s' h ih =>
    obtain ⟨toks, toks', h1, h2, h3⟩ := ih
    refine ⟨_, _, by rw [tokenize_eq_eq, h1]; rfl, by rw [tokenize_eq_eq, h2]; rfl, ?_⟩
    simp only [same_view, List.map_cons, List.cons.injEq] at h3 ⊢
    exact ⟨by simp [Token.view], h3⟩
  | punct c s s' hc h ih =>
    obtain ⟨toks, toks', h1, h2, h3⟩ := ih
    refine ⟨_, _, by rw [tokenize_punct _ hc, h1]; rfl, by rw [tokenize_punct _ hc, h2]; rfl, ?_⟩
    simp only [same_view, List.map_cons, List.cons.injEq] at h3 ⊢
    exact ⟨by simp [Token.view], h3⟩
  | digits ds s s' hd hn h ih =>
    obtain ⟨toks, toks', h1, h2, h3⟩ := ih
    have hd' := hd
    simp only [is_literal, Bool.and_eq_true, Bool.not_eq_true', List.isEmpty_eq_false,
      List.all_eq_true] at hd'
    have hne : ds ≠ [] := by simpa using hd'.1
    refine ⟨_, _, by rw [tokenize_digits ds s hne hd'.2 hn, h1]; rfl,
      by rw [tokenize_digits ds s' hne hd'.2 (h.head hn), h2]; rfl, ?_⟩
    simp only [same_view, List.map_cons, List.cons.injEq] at h3 ⊢
    exact ⟨by simp [Token.view], h3⟩

theorem new_token_ok_inv {kind : TokenKind} {val : Int} {str : List Char} {len : Nat}
    {r : Result (List Token)} {toks : List Token}
    (h : new_token kind val str len r = .ok toks) : ∃ toks', r = .ok toks' := by
  cases r with
  | ok a => exact ⟨a, rfl⟩
  | error_at loc fmt => cases h
  | null => cases h
  | fuel => cases h

theorem head_dropWhile_isdigit (l : List Char) :
    ∀ c, (l.dropWhile isdigit).head? = some c → isdigit c = false := by
  intro c hc
  induction l with
  | nil => simp at hc
  | cons d l ih =>
    simp only [List.dropWhile_cons] at hc
    split at hc
    · exact ih hc
    · next hd =>
      simp only [List.head?_cons, Option.some.injEq] at hc
      subst hc
      simpa using hd

/-- Every input on which `tokenize` succeeds is related to itself: `Spaced`
covers all inputs with tokens. -/
theorem Spaced.of_tokenize (n : Nat) (s : List Char) (hn : s.length ≤ n)
    (h : ∃ toks, tokenize s = .ok toks) : Spaced s s := by
  induction n generalizing s with
  | zero =>
    have : s = [] := List.eq_nil_of_length_eq_zero (by omega)
    subst this
    exact Spaced.nil
  | succ n ih =>
    cases s with
    | nil => exact Spaced.nil
    | cons c cs =>
      obtain ⟨toks, h⟩ := h
      simp only [List.length_cons, Nat.add_le_add_iff_right] at hn
      rw [tokenize_cons] at h
      split at h
      · next hs => exact Spaced.space c cs cs hs (ih cs hn ⟨toks, h⟩)
      · split at h
        · next he =>
          match cs, he, h, hn with
          | [], he, _, _ => simp [startswith] at he
          | d :: cs', he, h, hn =>
            simp only [startswith, List.length_cons, List.length_nil, List.take_succ_cons,
              List.take_zero, beq_iff_eq, List.cons.injEq, and_true] at he
            obtain ⟨rfl, rfl⟩ := he
            exact Spaced.eq_eq cs' cs' (ih cs' (Nat.le_of_succ_le hn) (new_token_ok_inv h))
        · split at h
          · next hp => exact Spaced.punct c cs cs hp (ih cs hn (new_token_ok_inv h))
          · split at h
            · next hd =>
              have hr := new_token_ok_inv h
              simp only [strtol, List.dropWhile_cons, hd, if_true] at hr
              have hl := dropWhile_length_le isdigit cs
              have := Spaced.digits (c :: cs.takeWhile isdigit) _ _
                (by simp [is_literal, hd])
                (head_dropWhile_isdigit cs) (ih (cs.dropWhile isdigit) (by omega) hr)
              simpa [List.takeWhile_append_dropWhile] using this
            · cases h

/-- C9: if `s'` is `s` with whitespace inserted before the first token, after
the last token or between adjacent tokens, then `tokenize` succeeds on both and
the two token sequences have the same kinds, values, lengths and symbol texts
in the same order (only `str`, the position, differs; whitespace gives no
token); whenever `expr` returns a tree for `s` it returns the same tree for
`s'`, and whenever `main` emits code for `s` it emits the same code for `s'`. -/
theorem whitespace_insensitive (s s' : List Char) (h : Spaced s s') :
    ∃ toks toks', tokenize s = .ok toks ∧ tokenize s' = .ok toks' ∧
      toks'.map Token.view = toks.map Token.view ∧
      (∀ t rest, expr_run toks = .ok (t, rest) →
        ∃ rest', expr_run toks' = .ok (t, rest') ∧
          rest'.map Token.view = rest.map Token.view) ∧
      (∀ code, main_body s = .ok code → main_body s' = .ok code) := by
  obtain ⟨toks, toks', h1, h2, h3⟩ := h.same_tokens
  have hp := expr_run_view h3
  have key : ∀ t rest, expr_run toks = .ok (t, rest) →
      ∃ rest', expr_run toks' = .ok (t, rest') ∧
        rest'.map Token.view = rest.map Token.view := by
    intro t rest he
    rw [he] at hp
    cases he' : expr_run toks' with
    | ok r =>
      rw [he'] at hp
      obtain ⟨e1, e2⟩ := hp
      obtain ⟨t', rest'⟩ := r
      simp only at e1 e2
      subst e1
      exact ⟨rest', rfl, e2.symm⟩
    | error_at loc fmt => rw [he'] at hp; exact hp.elim
    | null => rw [he'] at hp; exact hp.elim
    | fuel => rw [he'] at hp; exact hp.elim
  refine ⟨toks, toks', h1, h2, h3.symm, key, ?_⟩
  intro code hc
  simp only [main_body, h1, h2, Result.bind] at hc ⊢
  cases he : expr_run toks with
  | ok r =>
    obtain ⟨rest', e, _⟩ := key r.1 r.2 he
    rw [he] at hc
    rw [e]
    exact hc
  | error_at loc fmt => rw [he] at hc; cases hc
  | null => rw [he] at hc; cases hc
  | fuel => rw [he] at hc; cases hc

theorem whitespace_insensitive_witness :
    Spaced "1+2".toList " 1 +  2 ".toList ∧
    (∃ toks toks', tokenize "1+2".toList = .ok toks ∧ tokenize " 1 +  2 ".toList = .ok toks' ∧
      toks'.map Token.view = toks.map Token.view ∧
      (∀ t rest, expr_run toks = .ok (t, rest) →
        ∃ rest', expr_run toks' = .ok (t, rest') ∧
          rest'.map Token.view = rest.map Token.view) ∧
      (∀ code, main_body "1+2".toList = .ok code → main_body " 1 +  2 ".toList = .ok code)) ∧
    (tokenize " 1 +  2 ".toList).bind expr_run =
      .ok (.bin .ND_ADD (.num 1) (.num 2), [eof]) ∧
    (tokenize "1+2".toList).bind expr_run = .ok (.bin .ND_ADD (.num 1) (.num 2), [eof]) ∧
    eval (.bin .ND_ADD (.num 1) (.num 2)) = 3 :=
  have h : Spaced "1+2".toList " 1 +  2 ".toList :=
    Spaced.insert ' ' _ _ (by decide) (Spaced.digits ['1'] _ _ (by decide) (by decide)
      (Spaced.insert ' ' _ _ (by decide) (Spaced.punct '+' _ _ (by decide)
        (Spaced.insert ' ' _ _ (by decide) (Spaced.insert ' ' _ _ (by decide)
          (Spaced.digits ['2'] _ _ (by decide) (by decide)
            (Spaced.insert ' ' _ _ (by decide) Spaced.nil)))))))
  ⟨h, whitespace_insensitive _ _ h, by decide, by decide, by decide⟩

/-! ### Syntax errors -/

theorem kind_of_is {op : List Char} {tok : Token} (h : tok.isnt op = false) :
    tok.kind = .TK_RESERVED := by
  simp only [Token.isnt, Bool.or_eq_false_iff, bne_eq_false_iff_eq] at h
  exact h.1.1

theorem unary_run_error {tk : List Token} {loc : List Char} {fmt : String}
    (h : unary_run tk = .error_at loc fmt) :
    mul_run tk = .error_at loc fmt ∧ add_run tk = .error_at loc fmt ∧
    equality_run tk = .error_at loc fmt ∧ expr_run tk = .error_at loc fmt := by
  have h1 : mul_run tk = .error_at loc fmt := by rw [mul_run_eq, h]; rfl
  have h2 : add_run tk = .error_at loc fmt := by rw [add_run_eq, h1]; rfl
  have h3 : equality_run tk = .error_at loc fmt := by rw [equality_run_eq, h2]; rfl
  exact ⟨h1, h2, h3, by rw [expr_run_eq, h3]⟩

theorem unary_run_eof : unary_run [eof] = .error_at [] "expected a number" := by
  decide

theorem primary_run_not_num {tok : Token} (next : List Token)
    (h : tok.kind = .TK_RESERVED) (hp : tok.isnt ['('] = true) :
    primary_run (tok :: next) = .error_at tok.str "expected a number" := by
  rw [primary_run_eq, consume_isnt hp]
  simp [Result.bind, expect_number, h]

/-- The operator token `o` stands for the kind. -/
theorem is_symbol_cases {o : Token} {op : NodeKind} (h : o.isnt op.symbol = false) :
    (op = .ND_ADD ∧ o.isnt ['+'] = false) ∨ (op = .ND_SUB ∧ o.isnt ['-'] = false) ∨
    (op = .ND_MUL ∧ o.isnt ['*'] = false) ∨ (op = .ND_DIV ∧ o.isnt ['/'] = false) ∨
    (op = .ND_EQ ∧ o.isnt ['=', '='] = false) := by
  cases op <;> simp_all [NodeKind.symbol]

theorem mul_run_dangling {ts : List Token} {t : Node} (h : TokenPhrase .multiplicative ts t)
    {o : Token} (ho : o.isnt ['*'] = false ∨ o.isnt ['/'] = false) {rest : List Token}
    {loc : List Char} {fmt : String} (hr : unary_run rest = .error_at loc fmt) :
    mul_run (ts ++ o :: rest) = .error_at loc fmt := by
  rw [h.parsed (o :: rest), mul_loop_run_eq]
  rcases ho with ho | ho
  · simp [consume_is ho, Result.bind, hr]
  · simp [consume_isnt (isnt_of_is ho (by decide : ['/'] ≠ ['*'])), consume_is ho,
      Result.bind, hr]

theorem add_run_dangling {ts : List Token} {t : Node} (h : TokenPhrase .additive ts t)
    {o : Token}
    (ho : o.isnt ['+'] = false ∨ o.isnt ['-'] = false ∨ o.isnt ['*'] = false ∨
      o.isnt ['/'] = false)
    {rest : List Token} {loc : List Char} {fmt : String}
    (hr : unary_run rest = .error_at loc fmt) :
    add_run (ts ++ o :: rest) = .error_at loc fmt := by
  have hm := (unary_run_error hr).1
  rcases ho with ho | ho | ho | ho
  · rw [h.parsed o rest (isnt_of_is ho (by decide)) (isnt_of_is ho (by decide)),
      add_loop_run_eq]
    simp [consume_is ho, Result.bind, hm]
  · rw [h.parsed o rest (isnt_of_is ho (by decide)) (isnt_of_is ho (by decide)),
      add_loop_run_eq]
    simp [consume_isnt (isnt_of_is ho (by decide : ['-'] ≠ ['+'])), consume_is ho,
      Result.bind, hm]
  all_goals
    have hmul : o.isnt ['*'] = false ∨ o.isnt ['/'] = false := by simp [ho]
    cases h with
    | additive ts t hm' =>
      rw [add_run_eq, mul_run_dangling hm' hmul hr]
      rfl
    | sum p ts₁ ts₂ t₁ t₂ h1 hp h2 =>
      rw [List.append_assoc, List.cons_append,
        h1.parsed p _ (isnt_of_is hp (by decide)) (isnt_of_is hp (by decide)),
        add_loop_run_eq]
      simp [consume_is hp, Result.bind, mul_run_dangling h2 hmul hr]
    | difference p ts₁ ts₂ t₁ t₂ h1 hp h2 =>
      rw [List.append_assoc, List.cons_append,
        h1.parsed p _ (isnt_of_is hp (by decide)) (isnt_of_is hp (by decide)),
        add_loop_run_eq]
      simp [consume_isnt (isnt_of_is hp (by decide : ['-'] ≠ ['+'])), consume_is hp,
        Result.bind, mul_run_dangling h2 hmul hr]

theorem equality_run_dangling {ts : List Token} {t : Node} (h : TokenPhrase .equality ts t)
    {o : Token} {op : NodeKind} (ho : o.isnt op.symbol = false)
    {rest : List Token} {loc : List Char} {fmt : String}
    (hr : unary_run rest = .error_at loc fmt) :
    equality_run (ts ++ o :: rest) = .error_at loc fmt := by
  have ha := (unary_run_error hr).2.1
  rcases is_symbol_cases ho with ⟨_, ho⟩ | ⟨_, ho⟩ | ⟨_, ho⟩ | ⟨_, ho⟩ | ⟨_, ho⟩
  case inr.inr.inr.inr =>
    rw [h.parsed o rest (isnt_of_is ho (by decide)) (isnt_of_is ho (by decide))
      (isnt_of_is ho (by decide)) (isnt_of_is ho (by decide)), equality_loop_run_eq]
    simp [consume_is ho, Result.bind, ha]
  all_goals
    have hadd : o.isnt ['+'] = false ∨ o.isnt ['-'] = false ∨ o.isnt ['*'] = false ∨
        o.isnt ['/'] = false := by simp [ho]
    cases h with
    | equality ts t ha' =>
      rw [equality_run_eq, add_run_dangling ha' hadd hr]
      rfl
    | equal p ts₁ ts₂ t₁ t₂ h1 hp h2 =>
      rw [List.append_assoc, List.cons_append,
        h1.parsed p _ (isnt_of_is hp (by decide)) (isnt_of_is hp (by decide))
          (isnt_of_is hp (by decide)) (isnt_of_is hp (by decide)),
        equality_loop_run_eq]
      simp [consume_is hp, Result.bind, add_run_dangling h2 hadd hr]

theorem expr_run_dangling {ts : List Token} {t : Node} (h : TokenPhrase .expression ts t)
    {o : Token} {op : NodeKind} (ho : o.isnt op.symbol = false)
    {rest : List Token} {loc : List Char} {fmt : String}
    (hr : unary_run rest = .error_at loc fmt) :
    expr_run (ts ++ o :: rest) = .error_at loc fmt := by
  cases h with
  | expression ts t he => rw [expr_run_eq, equality_run_dangling he ho hr]

theorem tokenize_spaces (ws : List Char) (h : ∀ c ∈ ws, isspace c = true) :
    tokenize ws = .ok [eof] := by
  induction ws with
  | nil => rfl
  | cons c cs ih =>
    rw [tokenize_space cs (h c (by simp))]
    exact ih fun x hx => h x (by simp [hx])

theorem tokenize_symbol (op : NodeKind) (rest : List Char) :
    tokenize (op.symbol ++ rest) =
      new_token .TK_RESERVED 0 (op.symbol ++ rest) op.symbol.length (tokenize rest) := by
  cases op
  · exact tokenize_punct rest (by simp)
  · exact tokenize_punct rest (by simp)
  · exact tokenize_punct rest (by simp)
  · exact tokenize_punct rest (by simp)
  · exact tokenize_eq_eq rest

theorem isnt_symbol (op : NodeKind) (rest : List Char) (v : Int) :
    (Token.mk .TK_RESERVED v (op.symbol ++ rest) op.symbol.length).isnt op.symbol = false := by
  cases op <;> simp [Token.isnt, NodeKind.symbol]

theorem symbol_head (op : NodeKind) (rest : List Char) :
    ∀ c, (op.symbol ++ rest).head? = some c → isdigit c = false := by
  cases op <;> simp [NodeKind.symbol] <;> decide

/-- C11: for every expression `e` of the grammar, every binary operator `op` of
`+ - * / ==` and every run `ws` of whitespace, on the input `e op ws` `expr`
ends in `error_at` with the message `expected a number` at the end-of-input
token, whose offset is the length of the input, and `main` ends the same way
without printing any assembly. -/
theorem trailing_operator (s : List Char) (t : Node) (op : NodeKind) (ws : List Char)
    (h : Phrase .expression s t) (hw : ∀ c ∈ ws, isspace c = true) :
    (tokenize (s ++ op.symbol ++ ws)).bind expr_run = .error_at [] "expected a number" ∧
    main (s ++ op.symbol ++ ws) = .error_at [] "expected a number" ∧
    error_pos (s ++ op.symbol ++ ws) [] = (s ++ op.symbol ++ ws).length := by
  have ht : tokenize (op.symbol ++ ws) =
      .ok [⟨.TK_RESERVED, 0, op.symbol ++ ws, op.symbol.length⟩, eof] := by
    rw [tokenize_symbol, tokenize_spaces ws hw]
    rfl
  obtain ⟨ts, h1, h2⟩ := h.tokens (op.symbol ++ ws) _ (symbol_head op ws) ht
  have he := expr_run_dangling h1 (isnt_symbol op ws 0) unary_run_eof
  rw [← List.append_assoc] at h2
  refine ⟨?_, ?_, by simp [error_pos]⟩
  · rw [h2]
    exact he
  · simp only [main, main_body, h2, Result.bind, he]

theorem trailing_operator_witness :
    Phrase .expression "1".toList (.num 1) ∧ (∀ c ∈ ([] : List Char), isspace c = true) ∧
    (tokenize "1+".toList).bind expr_run = .error_at [] "expected a number" ∧
    main "1+".toList = .error_at [] "expected a number" ∧
    error_pos "1+".toList [] = 2 :=
  have h : Phrase .expression "1".toList (.num 1) :=
    (@Phrase.literal ['1'] (by decide)).primary_multiplicative.multiplicative_expression
  ⟨h, by simp, (trailing_operator _ _ .ND_ADD [] h (by simp)).1,
    (trailing_operator _ _ .ND_ADD [] h (by simp)).2.1,
    (trailing_operator _ _ .ND_ADD [] h (by simp)).2.2⟩

theorem unary_run_primary {tok : Token} (next : List Token) (h1 : tok.isnt ['+'] = true)
    (h2 : tok.isnt ['-'] = true) : unary_run (tok :: next) = primary_run (tok :: next) := by
  rw [unary_run_eq, consume_isnt h1]
  simp [Result.bind, consume_isnt h2]

/-- C12: for every expression `e` of the grammar, on the input `(e` with no
closing parenthesis `primary` parses `e` and then ends in the `error_at` of
`expect(")")` at the end-of-input token, whose offset is the length of the
input; `expr` and `main` end the same way. -/
theorem unmatched_paren (s : List Char) (t : Node) (h : Phrase .expression s t) :
    (tokenize s).bind expr_run = .ok (t.map stored, [eof]) ∧
    expect [')'] [eof] = .error_at [] "expected '%c'" ∧
    (tokenize ('(' :: s)).bind primary_run = .error_at [] "expected '%c'" ∧
    (tokenize ('(' :: s)).bind expr_run = .error_at [] "expected '%c'" ∧
    main ('(' :: s) = .error_at [] "expected '%c'" ∧
    error_pos ('(' :: s) [] = ('(' :: s).length := by
  obtain ⟨ts, h1, h2⟩ := h.tokens_eof
  have hl := isnt_punct '(' s 0
  have h3 : tokenize ('(' :: s) = .ok (⟨.TK_RESERVED, 0, '(' :: s, 1⟩ :: (ts ++ [eof])) := by
    rw [tokenize_punct s (by simp), h2]
    rfl
  have hp : primary_run (⟨.TK_RESERVED, 0, '(' :: s, 1⟩ :: (ts ++ [eof])) =
      .error_at [] "expected '%c'" := by
    rw [primary_run_eq, consume_is hl]
    have := h1.parsed eof [] (eof_isnt _) (eof_isnt _) (eof_isnt _) (eof_isnt _) (eof_isnt _)
    simp only [Result.bind, if_true, this]
    rfl
  have hu : unary_run (⟨.TK_RESERVED, 0, '(' :: s, 1⟩ :: (ts ++ [eof])) =
      .error_at [] "expected '%c'" := by
    rw [unary_run_primary _ (isnt_of_is hl (by decide)) (isnt_of_is hl (by decide)), hp]
  have he := (unary_run_error hu).2.2.2
  refine ⟨h.parse_expr, rfl, by rw [h3]; exact hp, by rw [h3]; exact he, ?_,
    by simp [error_pos]⟩
  simp only [main, main_body, h3, Result.bind, he]

theorem unmatched_paren_witness :
    Phrase .expression "1+2".toList (.bin .ND_ADD (.num 1) (.num 2)) ∧
    (tokenize "(1+2".toList).bind primary_run = .error_at [] "expected '%c'" ∧
    main "(1+2".toList = .error_at [] "expected '%c'" ∧
    error_pos "(1+2".toList [] = 4 :=
  have h : Phrase .expression "1+2".toList (.bin .ND_ADD (.num 1) (.num 2)) :=
    (Phrase.sum ['1'] ['2'] _ _
      (Phrase.additive _ _ (@Phrase.literal ['1'] (by decide)).primary_multiplicative)
      (@Phrase.literal ['2'] (by decide)).primary_multiplicative).additive_expression
  ⟨h, (unmatched_paren _ _ h).2.2.1, (unmatched_paren _ _ h).2.2.2.2.1,
    (unmatched_paren _ _ h).2.2.2.2.2⟩

/-- C17: `unary` on a token sequence that starts with two signs (each `+` or
`-`) consumes the first and ends in `error_at` with the message
`expected a number` at the second, whatever follows; on an input that starts
with two sign characters the reported offset is 1. -/
theorem double_sign :
    (∀ (s1 s2 : Token) (rest : List Token),
      s1.isnt ['+'] = false ∨ s1.isnt ['-'] = false →
      s2.isnt ['+'] = false ∨ s2.isnt ['-'] = false →
      unary_run (s1 :: s2 :: rest) = .error_at s2.str "expected a number") ∧
    (∀ (c1 c2 : Char) (cont : List Char) (toks : List Token), c1 ∈ ['+', '-'] →
      c2 ∈ ['+', '-'] → tokenize (c1 :: c2 :: cont) = .ok toks →
      unary_run toks = .error_at (c2 :: cont) "expected a number" ∧
      expr_run toks = .error_at (c2 :: cont) "expected a number" ∧
      error_pos (c1 :: c2 :: cont) (c2 :: cont) = 1) := by
  have key : ∀ (s1 s2 : Token) (rest : List Token),
      s1.isnt ['+'] = false ∨ s1.isnt ['-'] = false →
      s2.isnt ['+'] = false ∨ s2.isnt ['-'] = false →
      unary_run (s1 :: s2 :: rest) = .error_at s2.str "expected a number" := by
    intro s1 s2 rest h1 h2
    have hp : primary_run (s2 :: rest) = .error_at s2.str "expected a number" := by
      rcases h2 with h2 | h2
      · exact primary_run_not_num rest (kind_of_is h2) (isnt_of_is h2 (by decide))
      · exact primary_run_not_num rest (kind_of_is h2) (isnt_of_is h2 (by decide))
    rw [unary_run_eq]
    rcases h1 with h1 | h1
    · simp [consume_is h1, Result.bind, hp]
    · simp [consume_isnt (isnt_of_is h1 (by decide : ['-'] ≠ ['+'])), consume_is h1,
        Result.bind, hp]
  refine ⟨key, ?_⟩
  intro c1 c2 cont toks hc1 hc2 ht
  have m1 : c1 ∈ ['+', '-', '*', '/', '(', ')'] := by
    simp only [List.mem_cons, List.mem_singleton, List.not_mem_nil, or_false] at hc1 ⊢
    tauto
  have m2 : c2 ∈ ['+', '-', '*', '/', '(', ')'] := by
    simp only [List.mem_cons, List.mem_singleton, List.not_mem_nil, or_false] at hc2 ⊢
    tauto
  rw [tokenize_punct _ m1, tokenize_punct _ m2] at ht
  cases hr : tokenize cont with
  | ok rest =>
    rw [hr] at ht
    simp only [new_token, Result.bind, Result.ok.injEq] at ht
    subst ht
    have i1 : (Token.mk .TK_RESERVED 0 (c1 :: c2 :: cont) 1).isnt ['+'] = false ∨
        (Token.mk .TK_RESERVED 0 (c1 :: c2 :: cont) 1).isnt ['-'] = false := by
      simp only [List.mem_cons, List.mem_singleton, List.not_mem_nil, or_false] at hc1
      rcases hc1 with rfl | rfl
      · exact Or.inl (isnt_punct _ _ _)
      · exact Or.inr (isnt_punct _ _ _)
    have i2 : (Token.mk .TK_RESERVED 0 (c2 :: cont) 1).isnt ['+'] = false ∨
        (Token.mk .TK_RESERVED 0 (c2 :: cont) 1).isnt ['-'] = false := by
      simp only [List.mem_cons, List.mem_singleton, List.not_mem_nil, or_false] at hc2
      rcases hc2 with rfl | rfl
      · exact Or.inl (isnt_punct _ _ _)
      · exact Or.inr (isnt_punct _ _ _)
    have hu := key _ _ rest i1 i2
    exact ⟨hu, (unary_run_error hu).2.2.2, by simp [error_pos]⟩
  | error_at loc fmt => rw [hr] at ht; cases ht
  | null => rw [hr] at ht; cases ht
  | fuel => rw [hr] at ht; cases ht

theorem double_sign_witness :
    (tokenize "--5".toList).bind expr_run = .error_at "-5".toList "expected a number" ∧
    error_pos "--5".toList "-5".toList = 1 ∧
    (tokenize "-+5".toList).bind expr_run = .error_at "+5".toList "expected a number" ∧
    (tokenize "1--5".toList).bind expr_run =
      .ok (.bin .ND_SUB (.num 1) (.bin .ND_SUB (.num 0) (.num 5)), [eof]) :=
  ⟨(double_sign.2 '-' '-' "5".toList _ (by decide) (by decide) rfl).2.1,
    (double_sign.2 '-' '-' "5".toList _ (by decide) (by decide) rfl).2.2,
    (double_sign.2 '-' '+' "5".toList _ (by decide) (by decide) rfl).2.1, by decide⟩

/-! ### The text of the generated code -/

/-- C16: `gen` of a literal emits exactly `push v`; `gen` of a binary node emits
the code of the left operand, the code of the right operand, `pop rdi`,
`pop rax`, the instructions of the operator and `push rax`, in this order; the
instructions of the operator are `add rax, rdi` for `ND_ADD`, `sub rax, rdi`
for `ND_SUB`, `imul rax, rdi` for `ND_MUL`, `cqo` and `idiv rax, rdi` for
`ND_DIV`, and `cmp rax, rdi`, `sete al`, `movzb rax, al` for `ND_EQ`. -/
theorem gen_post_order :
    (∀ v : Int, gen (.num v) = [.push v] ∧
      (gen (.num v)).map Instr.text = ["\tpush " ++ toString v ++ "\n"]) ∧
    (∀ (op : NodeKind) (l r : Node),
      gen (.bin op l r) = gen l ++ gen r ++ [.pop_rdi, .pop_rax] ++ gen_switch op ++
        [.push_rax]) ∧
    (∀ l r : Node, (gen (.bin .ND_ADD l r)).map Instr.text =
      (gen l).map Instr.text ++ (gen r).map Instr.text ++
        ["\tpop rdi\n", "\tpop rax\n", "\tadd rax, rdi\n", "\tpush rax\n"]) ∧
    (∀ l r : Node, (gen (.bin .ND_SUB l r)).map Instr.text =
      (gen l).map Instr.text ++ (gen r).map Instr.text ++
        ["\tpop rdi\n", "\tpop rax\n", "\tsub rax, rdi\n", "\tpush rax\n"]) ∧
    (∀ l r : Node, (gen (.bin .ND_MUL l r)).map Instr.text =
      (gen l).map Instr.text ++ (gen r).map Instr.text ++
        ["\tpop rdi\n", "\tpop rax\n", "\timul rax, rdi\n", "\tpush rax\n"]) ∧
    (∀ l r : Node, (gen (.bin .ND_DIV l r)).map Instr.text =
      (gen l).map Instr.text ++ (gen r).map Instr.text ++
        ["\tpop rdi\n", "\tpop rax\n", "\tcqo\n", "\tidiv rax, rdi\n", "\tpush rax\n"]) ∧
    (∀ l r : Node, (gen (.bin .ND_EQ l r)).map Instr.text =
      (gen l).map Instr.text ++ (gen r).map Instr.text ++
        ["\tpop rdi\n", "\tpop rax\n", "\tcmp rax, rdi\n", "\tsete al\n",
          "\tmovzb rax, al\n", "\tpush rax\n"]) := by
  refine ⟨fun v => ⟨rfl, rfl⟩, fun op l r => rfl, ?_, ?_, ?_, ?_, ?_⟩ <;> intro l r <;>
    simp [gen, gen_switch, Instr.text]

/-! ### A leading expression is enough -/

/-- C13 (as stated, fails): on the input `1 2` both `tokenize` and `expr`
succeed, but the cursor after `expr` is at the literal `2`, not at the
end-of-input token, and `main` prints the code of `1`. -/
theorem consumes_all_counterexample :
    (tokenize "1 2".toList).bind expr_run =
      .ok (.num 1, [⟨.TK_NUM, 2, ['2'], 0⟩, eof]) ∧
    ((tokenize "1 2".toList).bind fun toks =>
      (expr_run toks).bind fun r => at_eof r.2) = .ok false ∧
    main_body "1 2".toList = .ok [.push 1, .pop_rax, .ret] := by
  refine ⟨by decide, by decide, by decide⟩

theorem consume_inv {op : List Char} {tk : List Token} {c : Bool × List Token}
    (h : consume op tk = .ok c) :
    (c.1 = true → ∃ tok, tk = tok :: c.2 ∧ tok.isnt op = false) ∧
    (c.1 = false → c.2 = tk ∧ ∃ tok tl, tk = tok :: tl ∧ tok.isnt op = true) := by
  cases tk with
  | nil => simp [consume] at h
  | cons tok next =>
    simp only [consume] at h
    split at h
    · next hi =>
      cases h
      exact ⟨by simp, fun _ => ⟨rfl, tok, next, rfl, hi⟩⟩
    · next hi =>
      cases h
      exact ⟨fun _ => ⟨tok, rfl, by simpa using hi⟩, by simp⟩

theorem expect_inv {op : List Char} {tk r : List Token} (h : expect op tk = .ok r) :
    ∃ tok, tk = tok :: r ∧ tok.isnt op = false := by
  cases tk with
  | nil => simp [expect] at h
  | cons tok next =>
    simp only [expect] at h
    split at h
    · cases h
    · next hi =>
      cases h
      exact ⟨tok, rfl, by simpa using hi⟩

theorem expect_number_inv {tk : List Token} {r : Int × List Token}
    (h : expect_number tk = .ok r) :
    ∃ tok, tk = tok :: r.2 ∧ tok.kind = .TK_NUM ∧ r.1 = tok.val := by
  cases tk with
  | nil => simp [expect_number] at h
  | cons tok next =>
    simp only [expect_number] at h
    split at h
    · cases h
    · next hi =>
      cases h
      exact ⟨tok, rfl, by simpa using hi, rfl⟩

theorem Result.all_of_eq {α : Type} {P : α → Prop} {r : Result α}
    (h : ∀ a, r = .ok a → P a) : r.All P := h

/-- The tokens a parsing function has consumed when it returns are a phrase of
its rule, with the tree it returns; those a loop has consumed extend a phrase
for the tree it started from to a phrase for the tree it returns. -/
theorem parse_sound (n : Nat) :
    (∀ tk, (expr n tk).All fun r => ∃ ts, tk = ts ++ r.2 ∧ TokenPhrase .expression ts r.1) ∧
    (∀ tk, (equality n tk).All fun r => ∃ ts, tk = ts ++ r.2 ∧ TokenPhrase .equality ts r.1) ∧
    (∀ nd tk, (equality_loop n nd tk).All fun r => ∃ ts, tk = ts ++ r.2 ∧
      ∀ ts₀, TokenPhrase .equality ts₀ nd → TokenPhrase .equality (ts₀ ++ ts) r.1) ∧
    (∀ tk, (add n tk).All fun r => ∃ ts, tk = ts ++ r.2 ∧ TokenPhrase .additive ts r.1) ∧
    (∀ nd tk, (add_loop n nd tk).All fun r => ∃ ts, tk = ts ++ r.2 ∧
      ∀ ts₀, TokenPhrase .additive ts₀ nd → TokenPhrase .additive (ts₀ ++ ts) r.1) ∧
    (∀ tk, (mul n tk).All fun r => ∃ ts, tk = ts ++ r.2 ∧
      TokenPhrase .multiplicative ts r.1) ∧
    (∀ nd tk, (mul_loop n nd tk).All fun r => ∃ ts, tk = ts ++ r.2 ∧
      ∀ ts₀, TokenPhrase .multiplicative ts₀ nd →
        TokenPhrase .multiplicative (ts₀ ++ ts) r.1) ∧
    (∀ tk, (unary n tk).All fun r => ∃ ts, tk = ts ++ r.2 ∧ TokenPhrase .unary ts r.1) ∧
    (∀ tk, (primary n tk).All fun r => ∃ ts, tk = ts ++ r.2 ∧
      TokenPhrase .primary ts r.1) := by
  induction n with
  | zero =>
    refine ⟨?_, ?_, ?_, ?_, ?_, ?_, ?_, ?_, ?_⟩ <;> intros <;> intro a h <;>
      simp [expr, equality, equality_loop, add, add_loop, mul, mul_loop, unary, primary] at h
  | succ n ih =>
    obtain ⟨h1, h2, h3, h4, h5, h6, h7, h8, h9⟩ := ih
    refine ⟨?_, ?_, ?_, ?_, ?_, ?_, ?_, ?_, ?_⟩
    · intro tk
      rw [expr]
      exact (h2 tk).mono fun r ⟨ts, e, p⟩ => ⟨ts, e, TokenPhrase.expression _ _ p⟩
    · intro tk
      rw [equality]
      refine Result.all_bind _ (h4 tk) fun r ⟨ts, e, p⟩ => (h3 _ _).mono fun a ⟨ts', e', q⟩ => ?_
      refine ⟨ts ++ ts', by rw [e, e', List.append_assoc], ?_⟩
      exact q ts (TokenPhrase.equality _ _ p)
    · intro nd tk
      rw [equality_loop]
      refine Result.all_bind _ (Result.all_of_eq fun c hc => consume_inv hc) fun c hc => ?_
      split
      · next hb =>
        obtain ⟨o, eo, ho⟩ := hc.1 hb
        refine Result.all_bind _ (h4 _) fun r ⟨ts, e, p⟩ =>
          (h3 _ _).mono fun a ⟨ts', e', q⟩ => ?_
        refine ⟨o :: ts ++ ts', by rw [eo, e, e']; simp, fun ts₀ p₀ => ?_⟩
        have := q (ts₀ ++ o :: ts) (TokenPhrase.equal o ts₀ ts _ _ p₀ ho p)
        simpa using this
      · next hb =>
        have := (hc.2 (by simpa using hb)).1
        exact Result.all_ok ⟨[], by simp [this], fun ts₀ p₀ => by simpa using p₀⟩
    · intro tk
      rw [add]
      refine Result.all_bind _ (h6 tk) fun r ⟨ts, e, p⟩ => (h5 _ _).mono fun a ⟨ts', e', q⟩ => ?_
      refine ⟨ts ++ ts', by rw [e, e', List.append_assoc], ?_⟩
      exact q ts (TokenPhrase.additive _ _ p)
    · intro nd tk
      rw [add_loop]
      refine Result.all_bind _ (Result.all_of_eq fun c hc => consume_inv hc) fun c hc => ?_
      split
      · next hb =>
        obtain ⟨o, eo, ho⟩ := hc.1 hb
        refine Result.all_bind _ (h6 _) fun r ⟨ts, e, p⟩ =>
          (h5 _ _).mono fun a ⟨ts', e', q⟩ => ?_
        refine ⟨o :: ts ++ ts', by rw [eo, e, e']; simp, fun ts₀ p₀ => ?_⟩
        have := q (ts₀ ++ o :: ts) (TokenPhrase.sum o ts₀ ts _ _ p₀ ho p)
        simpa using this
      · next hb =>
        have e1 := (hc.2 (by simpa using hb)).1
        refine Result.all_bind _ (Result.all_of_eq fun d hd => consume_inv hd) fun d hd => ?_
        split
        · next hb' =>
          obtain ⟨o, eo, ho⟩ := hd.1 hb'
          refine Result.all_bind _ (h6 _) fun r ⟨ts, e, p⟩ =>
            (h5 _ _).mono fun a ⟨ts', e', q⟩ => ?_
          refine ⟨o :: ts ++ ts', by rw [← e1, eo, e, e']; simp, fun ts₀ p₀ => ?_⟩
          have := q (ts₀ ++ o :: ts) (TokenPhrase.difference o ts₀ ts _ _ p₀ ho p)
          simpa using this
        · next hb' =>
          have e2 := (hd.2 (by simpa using hb')).1
          exact Result.all_ok ⟨[], by simp [e2, e1], fun ts₀ p₀ => by simpa using p₀⟩
    · intro tk
      rw [mul]
      refine Result.all_bind _ (h8 tk) fun r ⟨ts, e, p⟩ => (h7 _ _).mono fun a ⟨ts', e', q⟩ => ?_
      refine ⟨ts ++ ts', by rw [e, e', List.append_assoc], ?_⟩
      exact q ts (TokenPhrase.multiplicative _ _ p)
    · intro nd tk
      rw [mul_loop]
      refine Result.all_bind _ (Result.all_of_eq fun c hc => consume_inv hc) fun c hc => ?_
      split
      · next hb =>
        obtain ⟨o, eo, ho⟩ := hc.1 hb
        refine Result.all_bind _ (h8 _) fun r ⟨ts, e, p⟩ =>
          (h7 _ _).mono fun a ⟨ts', e', q⟩ => ?_
        refine ⟨o :: ts ++ ts', by rw [eo, e, e']; simp, fun ts₀ p₀ => ?_⟩
        have := q (ts₀ ++ o :: ts) (TokenPhrase.times o ts₀ ts _ _ p₀ ho p)
        simpa using this
      · next hb =>
        have e1 := (hc.2 (by simpa using hb)).1
        refine Result.all_bind _ (Result.all_of_eq fun d hd => consume_inv hd) fun d hd => ?_
        split
        · next hb' =>
          obtain ⟨o, eo, ho⟩ := hd.1 hb'
          refine Result.all_bind _ (h8 _) fun r ⟨ts, e, p⟩ =>
            (h7 _ _).mono fun a ⟨ts', e', q⟩ => ?_
          refine ⟨o :: ts ++ ts', by rw [← e1, eo, e, e']; simp, fun ts₀ p₀ => ?_⟩
          have := q (ts₀ ++ o :: ts) (TokenPhrase.over o ts₀ ts _ _ p₀ ho p)
          simpa using this
        · next hb' =>
          have e2 := (hd.2 (by simpa using hb')).1
          exact Result.all_ok ⟨[], by simp [e2, e1], fun ts₀ p₀ => by simpa using p₀⟩
    · intro tk
      rw [unary]
      refine Result.all_bind _ (Result.all_of_eq fun c hc => consume_inv hc) fun c hc => ?_
      split
      · next hb =>
        obtain ⟨o, eo, ho⟩ := hc.1 hb
        exact (h9 _).mono fun r ⟨ts, e, p⟩ =>
          ⟨o :: ts, by rw [eo, e]; simp, TokenPhrase.plus o ts _ ho p⟩
      · next hb =>
        have e1 := (hc.2 (by simpa using hb)).1
        refine Result.all_bind _ (Result.all_of_eq fun d hd => consume_inv hd) fun d hd => ?_
        split
        · next hb' =>
          obtain ⟨o, eo, ho⟩ := hd.1 hb'
          exact Result.all_bind _ (h9 _) fun r ⟨ts, e, p⟩ =>
            Result.all_ok ⟨o :: ts, by rw [← e1, eo, e]; simp, TokenPhrase.minus o ts _ ho p⟩
        · next hb' =>
          have e2 := (hd.2 (by simpa using hb')).1
          rw [e2, e1]
          exact (h9 _).mono fun r ⟨ts, e, p⟩ => ⟨ts, e, TokenPhrase.unary _ _ p⟩
    · intro tk
      rw [primary]
      refine Result.all_bind _ (Result.all_of_eq fun c hc => consume_inv hc) fun c hc => ?_
      split
      · next hb =>
        obtain ⟨l, el, hl⟩ := hc.1 hb
        refine Result.all_bind _ (h1 _) fun r ⟨ts, e, p⟩ =>
          Result.all_bind _ (Result.all_of_eq fun t ht => expect_inv ht) fun t ⟨rp, er, hr⟩ =>
            Result.all_ok ⟨l :: ts ++ [rp], ?_, TokenPhrase.paren l rp ts _ hl hr p⟩
        rw [el, e, er]
        simp
      · next hb =>
        have e1 := (hc.2 (by simpa using hb)).1
        refine Result.all_bind _ (Result.all_of_eq fun r hr => expect_number_inv hr)
          fun r ⟨tok, e, hk, hv⟩ => Result.all_ok ⟨[tok], by rw [← e1, e]; simp, ?_⟩
        simp only
        rw [hv]
        exact TokenPhrase.num tok hk

theorem head_isnt_cons {ops : List (List Char)} {op : List Char} {tk : List Token}
    (h : ∃ tok tl, tk = tok :: tl ∧ ∀ o ∈ ops, tok.isnt o = true)
    (h' : ∃ tok tl, tk = tok :: tl ∧ tok.isnt op = true) :
    ∃ tok tl, tk = tok :: tl ∧ ∀ o ∈ op :: ops, tok.isnt o = true := by
  obtain ⟨tok, tl, rfl, h1⟩ := h
  obtain ⟨tok', tl', e, h2⟩ := h'
  cases e
  exact ⟨tok, tl, rfl, fun o ho => by
    rcases List.mem_cons.1 ho with rfl | ho
    · exact h2
    · exact h1 o ho⟩

theorem mul_loop_stops (n : Nat) (nd : Node) (tk : List Token) :
    (mul_loop n nd tk).All fun r =>
      ∃ tok tl, r.2 = tok :: tl ∧ ∀ o ∈ [['/'], ['*']], tok.isnt o = true := by
  induction n generalizing nd tk with
  | zero => intro a h; simp [mul_loop] at h
  | succ n ih =>
    rw [mul_loop]
    refine Result.all_bind _ (Result.all_of_eq fun c hc => consume_inv hc) fun c hc => ?_
    split
    · exact Result.all_bind (fun _ => True) (fun _ _ => trivial) fun r _ => ih _ _
    · next hb =>
      obtain ⟨e1, i1⟩ := hc.2 (by simpa using hb)
      refine Result.all_bind _ (Result.all_of_eq fun d hd => consume_inv hd) fun d hd => ?_
      split
      · exact Result.all_bind (fun _ => True) (fun _ _ => trivial) fun r _ => ih _ _
      · next hb' =>
        obtain ⟨e2, i2⟩ := hd.2 (by simpa using hb')
        refine Result.all_ok ?_
        simp only
        rw [e2]
        rw [e1] at i2 ⊢
        obtain ⟨tok, tl, e, h⟩ := i1
        exact head_isnt_cons (head_isnt_cons ⟨tok, tl, e, by simp⟩ ⟨tok, tl, e, h⟩) i2

theorem mul_stops (n : Nat) (tk : List Token) :
    (mul n tk).All fun r =>
      ∃ tok tl, r.2 = tok :: tl ∧ ∀ o ∈ [['/'], ['*']], tok.isnt o = true := by
  cases n with
  | zero => intro a h; simp [mul] at h
  | succ n =>
    rw [mul]
    exact Result.all_bind (fun _ => True) (fun _ _ => trivial) fun r _ => mul_loop_stops _ _ _

theorem add_loop_stops (n : Nat) (nd : Node) (tk : List Token)
    (h : ∃ tok tl, tk = tok :: tl ∧ ∀ o ∈ [['/'], ['*']], tok.isnt o = true) :
    (add_loop n nd tk).All fun r =>
      ∃ tok tl, r.2 = tok :: tl ∧ ∀ o ∈ [['-'], ['+'], ['/'], ['*']], tok.isnt o = true := by
  induction n generalizing nd tk with
  | zero => intro a h; simp [add_loop] at h
  | succ n ih =>
    rw [add_loop]
    refine Result.all_bind _ (Result.all_of_eq fun c hc => consume_inv hc) fun c hc => ?_
    split
    · exact Result.all_bind _ (mul_stops _ _) fun r hr => ih _ _ hr
    · next hb =>
      obtain ⟨e1, i1⟩ := hc.2 (by simpa using hb)
      refine Result.all_bind _ (Result.all_of_eq fun d hd => consume_inv hd) fun d hd => ?_
      split
      · exact Result.all_bind _ (mul_stops _ _) fun r hr => ih _ _ hr
      · next hb' =>
        obtain ⟨e2, i2⟩ := hd.2 (by simpa using hb')
        refine Result.all_ok ?_
        simp only
        rw [e2]
        rw [e1] at i2 ⊢
        exact head_isnt_cons (head_isnt_cons h i1) i2

theorem add_stops (n : Nat) (tk : List Token) :
    (add n tk).All fun r =>
      ∃ tok tl, r.2 = tok :: tl ∧ ∀ o ∈ [['-'], ['+'], ['/'], ['*']], tok.isnt o = true := by
  cases n with
  | zero => intro a h; simp [add] at h
  | succ n =>
    rw [add]
    exact Result.all_bind _ (mul_stops _ _) fun r hr => add_loop_stops _ _ _ hr

theorem equality_loop_stops (n : Nat) (nd : Node) (tk : List Token)
    (h : ∃ tok tl, tk = tok :: tl ∧ ∀ o ∈ [['-'], ['+'], ['/'], ['*']], tok.isnt o = true) :
    (equality_loop n nd tk).All fun r =>
      ∃ tok tl, r.2 = tok :: tl ∧
        ∀ o ∈ [['=', '='], ['-'], ['+'], ['/'], ['*']], tok.isnt o = true := by
  induction n generalizing nd tk with
  | zero => intro a h; simp [equality_loop] at h
  | succ n ih =>
    rw [equality_loop]
    refine Result.all_bind _ (Result.all_of_eq fun c hc => consume_inv hc) fun c hc => ?_
    split
    · exact Result.all_bind _ (add_stops _ _) fun r hr => ih _ _ hr
    · next hb =>
      obtain ⟨e1, i1⟩ := hc.2 (by simpa using hb)
      refine Result.all_ok ?_
      simp only
      rw [e1]
      exact head_isnt_cons h i1

/-- When `expr` returns, the cursor is at a token that is none of
`* / + - ==`. -/
theorem expr_stops (n : Nat) (tk : List Token) : (expr n tk).All fun r => stops r.2 := by
  have key : ∀ rest : List Token,
      (∃ tok tl, rest = tok :: tl ∧
        ∀ o ∈ [['=', '='], ['-'], ['+'], ['/'], ['*']], tok.isnt o = true) → stops rest := by
    rintro rest ⟨tok, tl, rfl, h⟩
    exact ⟨tok, tl, rfl, h _ (by simp), h _ (by simp), h _ (by simp), h _ (by simp),
      h _ (by simp)⟩
  cases n with
  | zero => intro a h; simp [expr] at h
  | succ n =>
    rw [expr]
    cases n with
    | zero => intro a h; simp [equality] at h
    | succ n =>
      rw [equality]
      exact Result.all_bind _ (add_stops _ _) fun r hr =>
        (equality_loop_stops _ _ _ hr).mono fun a ha => key _ ha

theorem expr_run_sound {toks : List Token} {t : Node} {rest : List Token}
    (h : expr_run toks = .ok (t, rest)) :
    (∃ ts, toks = ts ++ rest ∧ TokenPhrase .expression ts t) ∧ stops rest :=
  ⟨(parse_sound _).1 toks _ h, expr_stops _ toks _ h⟩

theorem grammar_cursor (s s' : List Char) (t : Node) (h : Phrase .expression s t)
    (hs : Spaced s s') :
    ∃ toks e, tokenize s' = .ok toks ∧ expr_run toks = .ok (t.map stored, [e]) ∧
      e.kind = .TK_EOF ∧ at_eof [e] = .ok true := by
  obtain ⟨toks, toks', h1, h2, h3⟩ := hs.same_tokens
  have hp := h.parse_expr
  rw [h1] at hp
  have hv := expr_run_view h3
  simp only [Result.bind] at hp
  rw [hp] at hv
  cases he : expr_run toks' with
  | ok r =>
    rw [he] at hv
    obtain ⟨t', rest'⟩ := r
    obtain ⟨e1, e2⟩ := hv
    simp only at e1 e2
    subst e1
    match rest', e2, he with
    | [e], e2, he =>
      have hk : e.kind = .TK_EOF := by
        simp only [same_view, List.map_cons, List.map_nil, List.cons.injEq, and_true,
          Token.view, eof, Prod.mk.injEq] at e2
        exact e2.1.symm
      exact ⟨toks', e, h2, he, hk, by simp [at_eof, hk]⟩
    | [], e2, _ => simp [same_view] at e2
    | _ :: _ :: _, e2, _ => simp [same_view] at e2
  | error_at loc fmt => rw [he] at hv; exact hv.elim
  | null => rw [he] at hv; exact hv.elim
  | fuel => rw [he] at hv; exact hv.elim

/-- C13 (amended): for every input that is an expression of the grammar, with
or without whitespace around its tokens, `tokenize` and `expr` succeed and the
cursor after `expr` is at the end-of-input token: `at_eof` holds and no token
follows. For every input on which `tokenize` and `expr` both succeed, the
tokens before the cursor after `expr` are one expression of the grammar, with
the tree `expr` returns, the cursor is at a token that is none of
`* / + - ==`, and `main`, which does not call `at_eof`, prints the code of that
tree whatever tokens are left. -/
theorem consumes_all :
    (∀ (s s' : List Char) (t : Node), Phrase .expression s t → Spaced s s' →
      ∃ toks e, tokenize s' = .ok toks ∧ expr_run toks = .ok (t.map stored, [e]) ∧
        e.kind = .TK_EOF ∧ at_eof [e] = .ok true) ∧
    (∀ (s : List Char) (toks : List Token) (t : Node) (rest : List Token),
      tokenize s = .ok toks → expr_run toks = .ok (t, rest) →
      (∃ ts, toks = ts ++ rest ∧ TokenPhrase .expression ts t) ∧ stops rest ∧
      main_body s = .ok (gen t ++ [.pop_rax, .ret]) ∧
      main s = .ok ([".intel_syntax noprefix\n", ".global main\n", "main:\n"] ++
        (gen t ++ [Instr.pop_rax, Instr.ret]).map Instr.text)) := by
  refine ⟨grammar_cursor, fun s toks t rest h1 h2 => ?_⟩
  obtain ⟨h3, h4⟩ := expr_run_sound h2
  have h5 : main_body s = .ok (gen t ++ [.pop_rax, .ret]) := by
    simp only [main_body, h1, h2, Result.bind]
  exact ⟨h3, h4, h5, by simp only [main, h5, Result.bind]⟩

theorem consumes_all_witness :
    Phrase .expression "1+2".toList (.bin .ND_ADD (.num 1) (.num 2)) ∧
    Spaced "1+2".toList " 1 +2".toList ∧
    (∃ toks e, tokenize " 1 +2".toList = .ok toks ∧
      expr_run toks = .ok ((Node.bin .ND_ADD (.num 1) (.num 2)).map stored, [e]) ∧
      e.kind = .TK_EOF ∧ at_eof [e] = .ok true) ∧
    tokenize "1 2".toList = .ok [⟨.TK_NUM, 1, "1 2".toList, 0⟩, ⟨.TK_NUM, 2, "2".toList, 0⟩,
      eof] ∧
    expr_run [⟨.TK_NUM, 1, "1 2".toList, 0⟩, ⟨.TK_NUM, 2, "2".toList, 0⟩, eof] =
      .ok (.num 1, [⟨.TK_NUM, 2, "2".toList, 0⟩, eof]) ∧
    ((∃ ts, [⟨.TK_NUM, 1, "1 2".toList, 0⟩, ⟨.TK_NUM, 2, "2".toList, 0⟩, eof] =
        ts ++ [⟨.TK_NUM, 2, "2".toList, 0⟩, eof] ∧ TokenPhrase .expression ts (.num 1)) ∧
      stops [⟨.TK_NUM, 2, "2".toList, 0⟩, eof] ∧
      main_body "1 2".toList = .ok (gen (.num 1) ++ [.pop_rax, .ret]) ∧
      main "1 2".toList = .ok ([".intel_syntax noprefix\n", ".global main\n", "main:\n"] ++
        (gen (.num 1) ++ [Instr.pop_rax, Instr.ret]).map Instr.text)) :=
  have h : Phrase .expression "1+2".toList (.bin .ND_ADD (.num 1) (.num 2)) :=
    (Phrase.sum ['1'] ['2'] _ _
      (Phrase.additive _ _ (@Phrase.literal ['1'] (by decide)).primary_multiplicative)
      (@Phrase.literal ['2'] (by decide)).primary_multiplicative).additive_expression
  have hs : Spaced "1+2".toList " 1 +2".toList :=
    Spaced.insert ' ' _ _ (by decide) (Spaced.digits ['1'] _ _ (by decide) (by decide)
      (Spaced.insert ' ' _ _ (by decide) (Spaced.punct '+' _ _ (by decide)
        (Spaced.digits ['2'] _ _ (by decide) (by decide) Spaced.nil))))
  ⟨h, hs, consumes_all.1 _ _ _ h hs, by decide, by decide,
    consumes_all.2 "1 2".toList _ _ _ (by decide) (by decide)⟩

/-! ### The diagnostic -/

theorem printf_pad_space (pos : Nat) :
    printf_pad pos [' '] = List.replicate (max pos 1) ' ' := by
  rcases pos with _ | pos
  · rfl
  · simp only [printf_pad, List.length_singleton, Nat.add_sub_cancel]
    rw [Nat.max_eq_left (by omega), List.replicate_succ']

/-- C15: the diagnostic of `error_at` is the input line, then a line of
`max pos 1` spaces followed by the caret, then the message: the caret is in
column `pos` for every `pos` of at least 1, and in column 1, under the second
character, for `pos = 0`, as on the input `&`. -/
theorem caret_column :
    (∀ user_input loc msg : List Char, error_at user_input loc msg =
      user_input ++ ['\n'] ++ List.replicate (max (error_pos user_input loc) 1) ' ' ++
        ['^', ' '] ++ msg ++ ['\n']) ∧
    tokenize "&".toList = .error_at "&".toList "expected a number" ∧
    error_pos "&".toList "&".toList = 0 ∧
    error_at "&".toList "&".toList "expected a number".toList =
      "&\n ^ expected a number\n".toList := by
  refine ⟨fun user_input loc msg => ?_, by decide, by decide, by decide⟩
  rw [error_at, printf_pad_space]

/-! ### The scan of the tokenizer -/

theorem Result.bind_assoc {α β γ : Type} (r : Result α) (f : α → Result β)
    (g : β → Result γ) : (r.bind f).bind g = r.bind fun a => (f a).bind g := by
  cases r <;> rfl

theorem Result.bind_ok {α : Type} (r : Result α) : (r.bind fun a => .ok a) = r := by
  cases r <;> rfl

/-- One iteration of the loop at `c :: cs`: it ends in `error_at` at this
position, or it goes on at a later position `next`, with no token (whitespace)
or with one token for this position. -/
theorem tokenize_step (user_input : List Char) (c : Char) (cs : List Char) :
    (tokenize (c :: cs) = .error_at (c :: cs) "expected a number" ∧
      isspace c = false ∧ startswith (c :: cs) ['=', '='] = false ∧
      c ∉ ['+', '-', '*', '/', '(', ')'] ∧ isdigit c = false) ∨
    ∃ next, next.length ≤ cs.length ∧ (Scan user_input (c :: cs) → Scan user_input next) ∧
      ((isspace c = true ∧ next = cs ∧ tokenize (c :: cs) = tokenize next) ∨
        ∃ tok : Token, tok.lexed ∧ tok.str = c :: cs ∧ tok.kind ≠ .TK_EOF ∧
          tokenize (c :: cs) = (tokenize next).bind fun toks => .ok (tok :: toks)) := by
  by_cases hs : isspace c = true
  · exact Or.inr ⟨cs, Nat.le_refl _, fun h => Scan.space c cs h hs,
      Or.inl ⟨hs, rfl, tokenize_space cs hs⟩⟩
  have hs' : isspace c = false := by simpa using hs
  by_cases he : startswith (c :: cs) ['=', '='] = true
  · refine Or.inr ⟨cs.drop 1, by simp, fun h => Scan.eq_eq c cs h hs' he,
      Or.inr ⟨⟨.TK_RESERVED, 0, c :: cs, 2⟩, Or.inl ⟨rfl, rfl, rfl, ?_⟩, rfl, by simp, ?_⟩⟩
    · simpa [startswith] using he
    · rw [tokenize_cons, if_neg hs, if_pos he]
      rfl
  have he' : startswith (c :: cs) ['=', '='] = false := by simpa using he
  by_cases hp : c ∈ ['+', '-', '*', '/', '(', ')']
  · refine Or.inr ⟨cs, Nat.le_refl _, fun h => Scan.punct c cs h hs' he' hp,
      Or.inr ⟨⟨.TK_RESERVED, 0, c :: cs, 1⟩, Or.inr (Or.inl ⟨rfl, rfl, rfl, c, hp, rfl⟩), rfl,
        by simp, ?_⟩⟩
    rw [tokenize_cons, if_neg hs, if_neg he, if_pos hp]
    rfl
  by_cases hd : isdigit c = true
  · refine Or.inr ⟨(strtol (c :: cs)).2, strtol_snd_length cs hd,
      fun h => Scan.digit c cs h hs' he' hp hd,
      Or.inr ⟨⟨.TK_NUM, to_int (strtol (c :: cs)).1, c :: cs, 0⟩,
        Or.inr (Or.inr (Or.inl ⟨rfl, rfl, rfl, c, rfl, hd⟩)), rfl, by simp, ?_⟩⟩
    rw [tokenize_cons, if_neg hs, if_neg he, if_neg hp, if_pos hd]
    rfl
  · refine Or.inl ⟨?_, hs', he', hp, by simpa using hd⟩
    rw [tokenize_cons, if_neg hs, if_neg he, if_neg hp, if_neg hd]

theorem eof_lexed : eof.lexed := Or.inr (Or.inr (Or.inr ⟨rfl, rfl, rfl, rfl⟩))

theorem Scan.suffix {user_input p : List Char} (h : Scan user_input p) :
    ∃ pre, user_input = pre ++ p := by
  induction h with
  | start => exact ⟨[], rfl⟩
  | space c cs _ _ ih =>
    obtain ⟨pre, e⟩ := ih
    exact ⟨pre ++ [c], by simp [e]⟩
  | eq_eq c cs _ _ _ ih =>
    obtain ⟨pre, e⟩ := ih
    refine ⟨pre ++ c :: cs.take 1, ?_⟩
    rw [e, List.append_assoc, List.cons_append, List.take_append_drop]
  | punct c cs _ _ _ _ ih =>
    obtain ⟨pre, e⟩ := ih
    exact ⟨pre ++ [c], by simp [e]⟩
  | digit c cs _ _ _ _ hd ih =>
    obtain ⟨pre, e⟩ := ih
    refine ⟨pre ++ (c :: cs).takeWhile isdigit, ?_⟩
    rw [e, strtol, List.append_assoc, List.takeWhile_append_dropWhile]

/-- The tokens of the input are the tokens made before the scan reaches `p`,
followed by the tokens made from `p` on; an error from `p` on is the error of
the input. -/
theorem Scan.tokens_before {user_input p : List Char} (h : Scan user_input p) :
    ∃ pre : List Token,
      tokenize user_input = (tokenize p).bind fun toks => .ok (pre ++ toks) := by
  induction h with
  | start => exact ⟨[], by simp [Result.bind_ok]⟩
  | space c cs _ hs ih =>
    obtain ⟨pre, e⟩ := ih
    exact ⟨pre, by rw [e, tokenize_space cs hs]⟩
  | eq_eq c cs _ hs he ih =>
    obtain ⟨pre, e⟩ := ih
    refine ⟨pre ++ [⟨.TK_RESERVED, 0, c :: cs, 2⟩], ?_⟩
    rw [e, tokenize_cons, if_neg (by simp [hs]), if_pos he, new_token, Result.bind_assoc]
    simp [Result.bind]
  | punct c cs _ hs he hp ih =>
    obtain ⟨pre, e⟩ := ih
    refine ⟨pre ++ [⟨.TK_RESERVED, 0, c :: cs, 1⟩], ?_⟩
    rw [e, tokenize_cons, if_neg (by simp [hs]), if_neg (by simp [he]), if_pos hp, new_token,
      Result.bind_assoc]
    simp [Result.bind]
  | digit c cs _ hs he hp hd ih =>
    obtain ⟨pre, e⟩ := ih
    refine ⟨pre ++ [⟨.TK_NUM, to_int (strtol (c :: cs)).1, c :: cs, 0⟩], ?_⟩
    rw [e, tokenize_cons, if_neg (by simp [hs]), if_neg (by simp [he]), if_neg hp, if_pos hd,
      new_token, Result.bind_assoc]
    simp [Result.bind]

/-- Every token made from a scanned position on is of one of the four shapes
and sits at a scanned position; the end-of-input token comes last and once. -/
theorem Scan.tokens_from {user_input : List Char} (n : Nat) (p : List Char)
    (hn : p.length ≤ n) (h : Scan user_input p) (toks : List Token)
    (ht : tokenize p = .ok toks) :
    ∃ body, toks = body ++ [eof] ∧
      ∀ tok ∈ body, tok.lexed ∧ tok.kind ≠ .TK_EOF ∧ Scan user_input tok.str := by
  induction n generalizing p toks with
  | zero =>
    have : p = [] := List.eq_nil_of_length_eq_zero (by omega)
    subst this
    cases ht
    exact ⟨[], rfl, by simp⟩
  | succ n ih =>
    cases p with
    | nil =>
      cases ht
      exact ⟨[], rfl, by simp⟩
    | cons c cs =>
      simp only [List.length_cons, Nat.add_le_add_iff_right] at hn
      rcases tokenize_step user_input c cs with ⟨e, _⟩ | ⟨next, hl, hsc, hcase⟩
      · rw [e] at ht
        cases ht
      · rcases hcase with ⟨_, _, e⟩ | ⟨tok, hlex, hstr, hk, e⟩
        · rw [e] at ht
          exact ih next (by omega) (hsc h) toks ht
        · rw [e] at ht
          cases hr : tokenize next with
          | ok rest =>
            rw [hr] at ht
            simp only [Result.bind, Result.ok.injEq] at ht
            subst ht
            obtain ⟨body, rfl, hb⟩ := ih next (by omega) (hsc h) rest hr
            refine ⟨tok :: body, rfl, ?_⟩
            intro x hx
            rcases List.mem_cons.1 hx with rfl | hx
            · exact ⟨hlex, hk, by rw [hstr]; exact h⟩
            · exact hb x hx
          | error_at loc fmt => rw [hr] at ht; cases ht
          | null => rw [hr] at ht; cases ht
          | fuel => rw [hr] at ht; cases ht

theorem tokenize_lone_eq (cs : List Char) (h : cs.head? ≠ some '=') :
    tokenize ('=' :: cs) = .error_at ('=' :: cs) "expected a number" := by
  have he : startswith ('=' :: cs) ['=', '='] = false := by
    cases cs with
    | nil => simp [startswith]
    | cons d cs =>
      have : d ≠ '=' := fun e => h (by simp [e])
      simp [startswith, this]
  rw [tokenize_cons, if_neg (by decide), if_neg (by simp [he]), if_neg (by decide),
    if_neg (by decide)]

/-- C20: if the scan of the input reaches a `=` that is not followed at once by
another `=`, `tokenize` ends in `error_at` at that `=`, whose offset is the
reported position; and every reserved token `tokenize` returns either has
length 2, with `==` at its position, a position the scan has reached, or has
length 1 with one of `+ - * / ( )` at its position: none is a single `=`. -/
theorem lone_equals :
    (∀ user_input cs : List Char, Scan user_input ('=' :: cs) → cs.head? ≠ some '=' →
      tokenize user_input = .error_at ('=' :: cs) "expected a number" ∧
      ∃ pre, user_input = pre ++ '=' :: cs ∧
        error_pos user_input ('=' :: cs) = pre.length) ∧
    (∀ (user_input : List Char) (toks : List Token), tokenize user_input = .ok toks →
      ∀ tok ∈ toks, tok.kind = .TK_RESERVED →
        ((tok.len = 2 ∧ tok.str.take 2 = ['=', '='] ∧ Scan user_input tok.str) ∨
          (tok.len = 1 ∧ ∃ c ∈ ['+', '-', '*', '/', '(', ')'], tok.str.head? = some c)) ∧
        ¬ (tok.len = 1 ∧ tok.str.head? = some '=')) := by
  constructor
  · intro user_input cs hs hc
    obtain ⟨toks, e⟩ := hs.tokens_before
    obtain ⟨pre, hp⟩ := hs.suffix
    refine ⟨by rw [e, tokenize_lone_eq cs hc]; rfl, pre, hp, ?_⟩
    rw [hp]
    simp [error_pos]
  · intro user_input toks ht tok hm hk
    obtain ⟨body, rfl, hb⟩ :=
      Scan.tokens_from user_input.length user_input (Nat.le_refl _) Scan.start toks ht
    rcases List.mem_append.1 hm with hm | hm
    · obtain ⟨hl, _, hsc⟩ := hb tok hm
      rcases hl with ⟨_, h2, _, h4⟩ | ⟨_, h2, _, c, hc, h4⟩ | ⟨h1, _⟩ | ⟨h1, _⟩
      · exact ⟨Or.inl ⟨h2, h4, hsc⟩, by omega⟩
      · refine ⟨Or.inr ⟨h2, c, hc, h4⟩, ?_⟩
        rintro ⟨_, h5⟩
        rw [h4] at h5
        cases h5
        revert hc
        decide
      · rw [h1] at hk
        cases hk
      · rw [h1] at hk
        cases hk
    · simp only [List.mem_singleton] at hm
      subst hm
      cases hk

theorem lone_equals_witness :
    Scan "1=2".toList "=2".toList ∧ "2".toList.head? ≠ some '=' ∧
    (tokenize "1=2".toList = .error_at "=2".toList "expected a number" ∧
      ∃ pre, "1=2".toList = pre ++ "=2".toList ∧
        error_pos "1=2".toList "=2".toList = pre.length) ∧
    error_pos "1=2".toList "=2".toList = 1 ∧
    Scan "1===2".toList "=2".toList ∧
    tokenize "1===2".toList = .error_at "=2".toList "expected a number" ∧
    error_pos "1===2".toList "=2".toList = 3 ∧
    tokenize "1==2".toList = .ok [⟨.TK_NUM, 1, "1==2".toList, 0⟩,
      ⟨.TK_RESERVED, 0, "==2".toList, 2⟩, ⟨.TK_NUM, 2, "2".toList, 0⟩, eof] :=
  have h1 : Scan "1=2".toList "=2".toList :=
    Scan.digit '1' "=2".toList Scan.start (by decide) (by decide) (by decide) (by decide)
  have h2 : Scan "1===2".toList "=2".toList :=
    Scan.eq_eq '=' "==2".toList
      (Scan.digit '1' "===2".toList Scan.start (by decide) (by decide) (by decide)
        (by decide))
      (by decide) (by decide)
  ⟨h1, by decide, lone_equals.1 _ _ h1 (by decide), by decide, h2,
    (lone_equals.1 _ _ h2 (by decide)).1, by decide, by decide⟩

/-- C14 (as stated, fails): the run `2147483648` denotes 2147483648, but the
token `tokenize` makes of it has the value -2147483648, which is negative. -/
theorem literal_value_counterexample :
    is_literal "2147483648".toList = true ∧ decimal "2147483648".toList = 2147483648 ∧
    tokenize "2147483648".toList =
      .ok [⟨.TK_NUM, -2147483648, "2147483648".toList, 0⟩, eof] := by
  refine ⟨by decide, by decide, by decide⟩

/-- C14 (amended): if the scan of the input reaches a maximal run `ds` of
decimal digits, `tokenize` makes exactly one token of the whole run, a literal
whose value is the number the run denotes clamped to `LONG_MAX` and converted
to `int` (the number itself when it is at most `2 ^ 31 - 1`), and the scan goes
on at the first character after the run. -/
theorem literal_token (user_input ds rest : List Char) (hs : Scan user_input (ds ++ rest))
    (hd : is_literal ds = true) (hr : ∀ c, rest.head? = some c → isdigit c = false) :
    ∃ pre : List Token,
      (tokenize user_input = (tokenize (ds ++ rest)).bind fun toks => .ok (pre ++ toks)) ∧
      (tokenize (ds ++ rest) = (tokenize rest).bind fun toks =>
        .ok (⟨.TK_NUM, stored (decimal ds), ds ++ rest, 0⟩ :: toks)) ∧
      Scan user_input rest ∧
      (decimal ds < 2 ^ 31 → stored (decimal ds) = decimal ds) := by
  obtain ⟨pre, e⟩ := hs.tokens_before
  have hd' := hd
  simp only [is_literal, Bool.and_eq_true, Bool.not_eq_true', List.isEmpty_eq_false,
    List.all_eq_true] at hd'
  have hne : ds ≠ [] := by simpa using hd'.1
  refine ⟨pre, e, tokenize_digits ds rest hne hd'.2 hr, ?_, fun h =>
    stored_of_fits (by positivity) (by exact_mod_cast h)⟩
  obtain ⟨_, e2⟩ := takeWhile_digits ds rest hd'.2 hr
  cases ds with
  | nil => exact absurd rfl hne
  | cons d ds =>
    have hdig := hd'.2 d (by simp)
    have hsp := not_isspace_of_isdigit hdig
    have h2 : startswith (d :: (ds ++ rest)) ['=', '='] = false := by
      have : d ≠ '=' := ne_of_isdigit hdig (by decide)
      simp [startswith, this]
    have h3 : d ∉ ['+', '-', '*', '/', '(', ')'] := by
      simp only [List.mem_cons, List.mem_singleton, List.not_mem_nil, or_false, not_or]
      refine ⟨?_, ?_, ?_, ?_, ?_, ?_⟩ <;> exact ne_of_isdigit hdig (by decide)
    have := Scan.digit d (ds ++ rest) hs hsp h2 h3 hdig
    rw [List.cons_append] at e2
    simp only [strtol] at this
    rw [e2] at this
    exact this

theorem literal_token_witness :
    Scan "1+23*4".toList "23*4".toList ∧ is_literal "23".toList = true ∧
    (∀ c, "*4".toList.head? = some c → isdigit c = false) ∧
    (∃ pre : List Token,
      (tokenize "1+23*4".toList =
        (tokenize "23*4".toList).bind fun toks => .ok (pre ++ toks)) ∧
      (tokenize "23*4".toList = (tokenize "*4".toList).bind fun toks =>
        .ok (⟨.TK_NUM, stored (decimal "23".toList), "23*4".toList, 0⟩ :: toks)) ∧
      Scan "1+23*4".toList "*4".toList ∧
      (decimal "23".toList < 2 ^ 31 → stored (decimal "23".toList) = decimal "23".toList)) ∧
    stored (decimal "23".toList) = 23 :=
  have h : Scan "1+23*4".toList "23*4".toList :=
    Scan.punct '+' "23*4".toList
      (Scan.digit '1' "+23*4".toList Scan.start (by decide) (by decide) (by decide)
        (by decide))
      (by decide) (by decide) (by decide)
  ⟨h, by decide, by decide, literal_token _ "23".toList "*4".toList h (by decide) (by decide),
    by decide⟩

/-! ### The cursor stays on the token sequence -/

theorem Result.safe_bind {α β : Type} {P : β → Prop} (Q : α → Prop) {r : Result α}
    {f : α → Result β} (h : r.Safe Q) (hf : ∀ a, Q a → (f a).Safe P) : (r.bind f).Safe P := by
  cases r with
  | ok a => exact hf a (h.2 a rfl)
  | error_at loc fmt => exact ⟨by simp [Result.bind], by intro b hb; cases hb⟩
  | null => exact absurd rfl h.1
  | fuel => exact ⟨by simp [Result.bind], by intro b hb; cases hb⟩

theorem Result.safe_ok {α : Type} {P : α → Prop} {a : α} (h : P a) : (Result.ok a).Safe P :=
  ⟨by simp, Result.all_ok h⟩

theorem Result.Safe.weaken {α : Type} {P Q : α → Prop} {r : Result α} (h : r.Safe P)
    (hpq : ∀ a, P a → Q a) : r.Safe Q := ⟨h.1, h.2.mono hpq⟩

theorem ends_with_eof_ne_nil {tk : List Token} (h : ends_with_eof tk) : tk ≠ [] := by
  obtain ⟨body, e, rfl, _⟩ := h
  simp

theorem ends_with_eof_tail {tok : Token} {next : List Token}
    (h : ends_with_eof (tok :: next)) (hk : tok.kind ≠ .TK_EOF) : ends_with_eof next := by
  obtain ⟨body, e, he, h1, h2⟩ := h
  cases body with
  | nil =>
    simp only [List.nil_append, List.cons.injEq] at he
    rw [he.1] at hk
    exact absurd h1 hk
  | cons b body =>
    simp only [List.cons_append, List.cons.injEq] at he
    exact ⟨body, e, he.2, h1, fun x hx => h2 x (by simp [hx])⟩

theorem cursor_ok_refl {tk : List Token} (h : ends_with_eof tk) : cursor_ok tk tk :=
  ⟨List.suffix_refl _, ends_with_eof_ne_nil h, h⟩

theorem cursor_ok_trans {a b c : List Token} (h1 : cursor_ok a b) (h2 : cursor_ok b c) :
    cursor_ok a c :=
  ⟨h2.1.trans h1.1, h2.2⟩

theorem consume_safe (op : List Char) {tk : List Token} (h : ends_with_eof tk) :
    (consume op tk).Safe fun c => cursor_ok tk c.2 := by
  cases tk with
  | nil => exact absurd rfl (ends_with_eof_ne_nil h)
  | cons tok next =>
    simp only [consume]
    split
    · exact Result.safe_ok (cursor_ok_refl h)
    · next hi =>
      have hk : tok.kind = .TK_RESERVED := kind_of_is (by simpa using hi)
      have hn := ends_with_eof_tail h (by rw [hk]; simp)
      exact Result.safe_ok ⟨List.suffix_cons _ _, ends_with_eof_ne_nil hn, hn⟩

theorem expect_safe (op : List Char) {tk : List Token} (h : ends_with_eof tk) :
    (expect op tk).Safe fun r => cursor_ok tk r := by
  cases tk with
  | nil => exact absurd rfl (ends_with_eof_ne_nil h)
  | cons tok next =>
    simp only [expect]
    split
    · exact ⟨by simp, by intro b hb; cases hb⟩
    · next hi =>
      have hk : tok.kind = .TK_RESERVED := kind_of_is (by simpa using hi)
      have hn := ends_with_eof_tail h (by rw [hk]; simp)
      exact Result.safe_ok ⟨List.suffix_cons _ _, ends_with_eof_ne_nil hn, hn⟩

theorem expect_number_safe {tk : List Token} (h : ends_with_eof tk) :
    (expect_number tk).Safe fun r => cursor_ok tk r.2 := by
  cases tk with
  | nil => exact absurd rfl (ends_with_eof_ne_nil h)
  | cons tok next =>
    simp only [expect_number]
    split
    · exact ⟨by simp, by intro b hb; cases hb⟩
    · next hi =>
      have hk : tok.kind = .TK_NUM := by simpa using hi
      have hn := ends_with_eof_tail h (by rw [hk]; simp)
      exact Result.safe_ok ⟨List.suffix_cons _ _, ends_with_eof_ne_nil hn, hn⟩

/-- On a token sequence that ends with the end-of-input token no parsing
function dereferences a null cursor, and the cursor each returns is a
non-empty rest of the sequence that still ends with the end-of-input token. -/
theorem parse_safe (n : Nat) :
    (∀ tk, ends_with_eof tk → (expr n tk).Safe fun r => cursor_ok tk r.2) ∧
    (∀ tk, ends_with_eof tk → (equality n tk).Safe fun r => cursor_ok tk r.2) ∧
    (∀ nd tk, ends_with_eof tk → (equality_loop n nd tk).Safe fun r => cursor_ok tk r.2) ∧
    (∀ tk, ends_with_eof tk → (add n tk).Safe fun r => cursor_ok tk r.2) ∧
    (∀ nd tk, ends_with_eof tk → (add_loop n nd tk).Safe fun r => cursor_ok tk r.2) ∧
    (∀ tk, ends_with_eof tk → (mul n tk).Safe fun r => cursor_ok tk r.2) ∧
    (∀ nd tk, ends_with_eof tk → (mul_loop n nd tk).Safe fun r => cursor_ok tk r.2) ∧
    (∀ tk, ends_with_eof tk → (unary n tk).Safe fun r => cursor_ok tk r.2) ∧
    (∀ tk, ends_with_eof tk → (primary n tk).Safe fun r => cursor_ok tk r.2) := by
  induction n with
  | zero =>
    refine ⟨?_, ?_, ?_, ?_, ?_, ?_, ?_, ?_, ?_⟩ <;> intros <;>
      simp [expr, equality, equality_loop, add, add_loop, mul, mul_loop, unary, primary,
        Result.Safe, Result.All]
  | succ n ih =>
    obtain ⟨h1, h2, h3, h4, h5, h6, h7, h8, h9⟩ := ih
    refine ⟨?_, ?_, ?_, ?_, ?_, ?_, ?_, ?_, ?_⟩
    · intro tk hw
      rw [expr]
      exact h2 tk hw
    · intro tk hw
      rw [equality]
      exact Result.safe_bind _ (h4 tk hw) fun r hr =>
        (h3 _ _ hr.2.2).weaken fun a ha => cursor_ok_trans hr ha
    · intro nd tk hw
      rw [equality_loop]
      refine Result.safe_bind _ (consume_safe _ hw) fun c hc => ?_
      split
      · exact Result.safe_bind _ (h4 _ hc.2.2) fun r hr =>
          (h3 _ _ hr.2.2).weaken fun a ha => cursor_ok_trans (cursor_ok_trans hc hr) ha
      · exact Result.safe_ok hc
    · intro tk hw
      rw [add]
      exact Result.safe_bind _ (h6 tk hw) fun r hr =>
        (h5 _ _ hr.2.2).weaken fun a ha => cursor_ok_trans hr ha
    · intro nd tk hw
      rw [add_loop]
      refine Result.safe_bind _ (consume_safe _ hw) fun c hc => ?_
      split
      · exact Result.safe_bind _ (h6 _ hc.2.2) fun r hr =>
          (h5 _ _ hr.2.2).weaken fun a ha => cursor_ok_trans (cursor_ok_trans hc hr) ha
      · refine Result.safe_bind _ (consume_safe _ hc.2.2) fun d hd => ?_
        split
        · exact Result.safe_bind _ (h6 _ hd.2.2) fun r hr =>
            (h5 _ _ hr.2.2).weaken fun a ha =>
              cursor_ok_trans (cursor_ok_trans (cursor_ok_trans hc hd) hr) ha
        · exact Result.safe_ok (cursor_ok_trans hc hd)
    · intro tk hw
      rw [mul]
      exact Result.safe_bind _ (h8 tk hw) fun r hr =>
        (h7 _ _ hr.2.2).weaken fun a ha => cursor_ok_trans hr ha
    · intro nd tk hw
      rw [mul_loop]
      refine Result.safe_bind _ (consume_safe _ hw) fun c hc => ?_
      split
      · exact Result.safe_bind _ (h8 _ hc.2.2) fun r hr =>
          (h7 _ _ hr.2.2).weaken fun a ha => cursor_ok_trans (cursor_ok_trans hc hr) ha
      · refine Result.safe_bind _ (consume_safe _ hc.2.2) fun d hd => ?_
        split
        · exact Result.safe_bind _ (h8 _ hd.2.2) fun r hr =>
            (h7 _ _ hr.2.2).weaken fun a ha =>
              cursor_ok_trans (cursor_ok_trans (cursor_ok_trans hc hd) hr) ha
        · exact Result.safe_ok (cursor_ok_trans hc hd)
    · intro tk hw
      rw [unary]
      refine Result.safe_bind _ (consume_safe _ hw) fun c hc => ?_
      split
      · exact (h9 _ hc.2.2).weaken fun a ha => cursor_ok_trans hc ha
      · refine Result.safe_bind _ (consume_safe _ hc.2.2) fun d hd => ?_
        split
        · exact Result.safe_bind _ (h9 _ hd.2.2) fun r hr =>
            Result.safe_ok (cursor_ok_trans (cursor_ok_trans hc hd) hr)
        · exact (h9 _ hd.2.2).weaken fun a ha => cursor_ok_trans (cursor_ok_trans hc hd) ha
    · intro tk hw
      rw [primary]
      refine Result.safe_bind _ (consume_safe _ hw) fun c hc => ?_
      split
      · exact Result.safe_bind _ (h1 _ hc.2.2) fun r hr =>
          Result.safe_bind _ (expect_safe _ hr.2.2) fun t ht =>
            Result.safe_ok (cursor_ok_trans (cursor_ok_trans hc hr) ht)
      · exact Result.safe_bind _ (expect_number_safe hc.2.2) fun r hr =>
          Result.safe_ok (cursor_ok_trans hc hr)

theorem tokenize_ends_with_eof {s : List Char} {toks : List Token}
    (h : tokenize s = .ok toks) : ends_with_eof toks ∧ ∀ tok ∈ toks, tok.lexed := by
  obtain ⟨body, rfl, hb⟩ := Scan.tokens_from s.length s (Nat.le_refl _) Scan.start toks h
  refine ⟨⟨body, eof, rfl, rfl, fun x hx => (hb x hx).2.1⟩, fun tok hm => ?_⟩
  rcases List.mem_append.1 hm with hm | hm
  · exact (hb tok hm).1
  · simp only [List.mem_singleton] at hm
    subst hm
    exact eof_lexed

/-- C19: every token sequence `tokenize` returns is a list of reserved symbols
and literals ended by exactly one end-of-input token; on every such sequence
`expr` terminates (with the fuel of `expr_run`, and with the same outcome for
any more fuel) without dereferencing a null cursor, and whenever `expr`,
`consume`, `expect` or `expect_number` returns, the cursor it leaves is a
non-empty rest of the sequence that still ends with the end-of-input token:
the end-of-input token is never consumed. -/
theorem cursor_never_null :
    (∀ (s : List Char) (toks : List Token), tokenize s = .ok toks →
      ends_with_eof toks ∧ ∀ tok ∈ toks, tok.lexed) ∧
    (∀ tk : List Token, ends_with_eof tk →
      expr_run tk ≠ .fuel ∧ expr_run tk ≠ .null ∧
      (∀ n, 9 * tk.length + 9 ≤ n → expr n tk = expr_run tk) ∧
      (∀ n, expr n tk ≠ .null) ∧
      (∀ n t rest, expr n tk = .ok (t, rest) → cursor_ok tk rest) ∧
      (∀ op, consume op tk ≠ .null ∧ ∀ b rest, consume op tk = .ok (b, rest) →
        cursor_ok tk rest) ∧
      (∀ op, expect op tk ≠ .null ∧ ∀ rest, expect op tk = .ok rest → cursor_ok tk rest) ∧
      (expect_number tk ≠ .null ∧ ∀ v rest, expect_number tk = .ok (v, rest) →
        cursor_ok tk rest)) := by
  refine ⟨fun s toks h => tokenize_ends_with_eof h, fun tk hw => ?_⟩
  refine ⟨expr_run_ne_fuel tk, ((parse_safe _).1 tk hw).1, fun n hn => expr_stable hn,
    fun n => ((parse_safe n).1 tk hw).1, fun n t rest h => ((parse_safe n).1 tk hw).2 _ h,
    fun op => ⟨(consume_safe op hw).1, fun b rest h => (consume_safe op hw).2 _ h⟩,
    fun op => ⟨(expect_safe op hw).1, fun rest h => (expect_safe op hw).2 _ h⟩,
    (expect_number_safe hw).1, fun v rest h => (expect_number_safe hw).2 _ h⟩

theorem cursor_never_null_witness :
    tokenize "(1+2)*3".toList = .ok [⟨.TK_RESERVED, 0, "(1+2)*3".toList, 1⟩,
      ⟨.TK_NUM, 1, "1+2)*3".toList, 0⟩, ⟨.TK_RESERVED, 0, "+2)*3".toList, 1⟩,
      ⟨.TK_NUM, 2, "2)*3".toList, 0⟩, ⟨.TK_RESERVED, 0, ")*3".toList, 1⟩,
      ⟨.TK_RESERVED, 0, "*3".toList, 1⟩, ⟨.TK_NUM, 3, "3".toList, 0⟩, eof] ∧
    ends_with_eof [⟨.TK_RESERVED, 0, "(1+2)*3".toList, 1⟩,
      ⟨.TK_NUM, 1, "1+2)*3".toList, 0⟩, ⟨.TK_RESERVED, 0, "+2)*3".toList, 1⟩,
      ⟨.TK_NUM, 2, "2)*3".toList, 0⟩, ⟨.TK_RESERVED, 0, ")*3".toList, 1⟩,
      ⟨.TK_RESERVED, 0, "*3".toList, 1⟩, ⟨.TK_NUM, 3, "3".toList, 0⟩, eof] ∧
    expr_run [⟨.TK_RESERVED, 0, "(1+2)*3".toList, 1⟩,
      ⟨.TK_NUM, 1, "1+2)*3".toList, 0⟩, ⟨.TK_RESERVED, 0, "+2)*3".toList, 1⟩,
      ⟨.TK_NUM, 2, "2)*3".toList, 0⟩, ⟨.TK_RESERVED, 0, ")*3".toList, 1⟩,
      ⟨.TK_RESERVED, 0, "*3".toList, 1⟩, ⟨.TK_NUM, 3, "3".toList, 0⟩, eof] ≠ .null ∧
    expr_run [⟨.TK_RESERVED, 0, "(1+2)*3".toList, 1⟩,
      ⟨.TK_NUM, 1, "1+2)*3".toList, 0⟩, ⟨.TK_RESERVED, 0, "+2)*3".toList, 1⟩,
      ⟨.TK_NUM, 2, "2)*3".toList, 0⟩, ⟨.TK_RESERVED, 0, ")*3".toList, 1⟩,
      ⟨.TK_RESERVED, 0, "*3".toList, 1⟩, ⟨.TK_NUM, 3, "3".toList, 0⟩, eof] =
      .ok (.bin .ND_MUL (.bin .ND_ADD (.num 1) (.num 2)) (.num 3), [eof]) :=
  have h := (cursor_never_null.1 "(1+2)*3".toList _ (by decide)).1
  ⟨by decide, h, (cursor_never_null.2 _ h).2.1, by decide⟩

/-! ### Printing and parsing -/

theorem digit_char (d : Nat) (h : d < 10) :
    (Char.ofNat (48 + d)).toNat - 48 = d ∧ isdigit (Char.ofNat (48 + d)) = true := by
  interval_cases d <;> exact ⟨by decide, by decide⟩

theorem decimal_append_single (xs : List Char) (c : Char) :
    decimal (xs ++ [c]) = 10 * decimal xs + (c.toNat - 48) := by
  simp [decimal, List.foldl_append]

theorem digits_of_spec (fuel n : Nat) (h : n < fuel) :
    digits_of fuel n ≠ [] ∧ (∀ c ∈ digits_of fuel n, isdigit c = true) ∧
    decimal (digits_of fuel n) = n := by
  induction fuel generalizing n with
  | zero => omega
  | succ fuel ih =>
    rw [digits_of]
    split
    · next hn =>
      obtain ⟨h1, h2⟩ := digit_char n hn
      refine ⟨by simp, by simpa using h2, ?_⟩
      simp [decimal, h1]
    · next hn =>
      obtain ⟨i1, i2, i3⟩ := ih (n / 10) (by omega)
      obtain ⟨h1, h2⟩ := digit_char (n % 10) (Nat.mod_lt _ (by omega))
      refine ⟨by simp, ?_, ?_⟩
      · intro c hc
        rcases List.mem_append.1 hc with hc | hc
        · exact i2 c hc
        · simp only [List.mem_singleton] at hc
          rw [hc]
          exact h2
      · rw [decimal_append_single, i3, h1]
        omega

theorem Phrase.of_print {t : Node} (h : fits t = true) : Phrase .primary t.print t := by
  induction t with
  | num val =>
    simp only [fits, decide_eq_true_eq] at h
    obtain ⟨h1, h2, h3⟩ := digits_of_spec (val.toNat + 1) val.toNat (by omega)
    have := Phrase.num _ h1 h2
    rw [h3, Int.toNat_of_nonneg h.1] at this
    exact this
  | bin kind lhs rhs ihl ihr =>
    simp only [fits, Bool.and_eq_true] at h
    have pl := ihl h.1
    have pr := ihr h.2
    refine Phrase.paren _ _ ?_
    cases kind
    · exact (Phrase.add_op (Or.inl rfl) (Phrase.additive _ _ pl.primary_multiplicative)
        pr.primary_multiplicative).additive_expression
    · exact (Phrase.add_op (Or.inr rfl) (Phrase.additive _ _ pl.primary_multiplicative)
        pr.primary_multiplicative).additive_expression
    · exact (Phrase.mul_op (Or.inl rfl) pl.primary_multiplicative
        (Phrase.unary _ _ pr)).multiplicative_expression
    · exact (Phrase.mul_op (Or.inr rfl) pl.primary_multiplicative
        (Phrase.unary _ _ pr)).multiplicative_expression
    · exact Phrase.expression _ _ (Phrase.eq_op rfl
        (Phrase.equality _ _ (Phrase.additive _ _ pl.primary_multiplicative))
        (Phrase.additive _ _ pr.primary_multiplicative))

/-- C18: for every tree whose literals are all in the range `0 .. 2 ^ 31 - 1`,
`tokenize` succeeds on the text of the tree, and `expr` on the tokens returns
exactly the tree, with the cursor at the end-of-input token. -/
theorem print_parse (t : Node) (h : fits t = true) :
    ∃ toks, tokenize t.print = .ok toks ∧ expr_run toks = .ok (t, [eof]) := by
  have hp := (Phrase.of_print h).primary_multiplicative.multiplicative_expression.parse_expr
  rw [map_stored_of_fits h] at hp
  cases ht : tokenize t.print with
  | ok toks =>
    rw [ht] at hp
    exact ⟨toks, rfl, hp⟩
  | error_at loc fmt => rw [ht] at hp; cases hp
  | null => rw [ht] at hp; cases hp
  | fuel => rw [ht] at hp; cases hp

theorem print_parse_witness :
    fits (.bin .ND_SUB (.bin .ND_MUL (.num 12) (.num 0)) (.bin .ND_EQ (.num 3) (.num 3))) =
      true ∧
    (Node.bin .ND_SUB (.bin .ND_MUL (.num 12) (.num 0))
      (.bin .ND_EQ (.num 3) (.num 3))).print = "((12*0)-(3==3))".toList ∧
    ∃ toks, tokenize (Node.bin .ND_SUB (.bin .ND_MUL (.num 12) (.num 0))
        (.bin .ND_EQ (.num 3) (.num 3))).print = .ok toks ∧
      expr_run toks = .ok (.bin .ND_SUB (.bin .ND_MUL (.num 12) (.num 0))
        (.bin .ND_EQ (.num 3) (.num 3)), [eof]) :=
  ⟨by decide, by decide, print_parse _ (by decide)⟩

end NineCC
